import Mathlib

/-!
Verification of the beeftree repository: a disk-backed B-Tree over integer
keys (`src/btree.py`), with an in-memory node model (`src/node.py`) and a
page-cache storage layer (`src/storage.py`).

The development has two model layers, mirroring the two interfaces of the
source:

* a byte/cache-level model of `StorageManager` and `DiskPage`
  (`storage.py`), used for the claims about `fetch_page_from_cache_or_disk`,
  `DiskPage.from_bytes`, second-chance eviction and the cache-size bound;

* a node-level model of the B-Tree (`btree.py` + `node.py`), in which the
  storage manager is abstracted to its `load_node`/`store_node` interface:
  a finite map from page ids to stored node records plus the `next_page_id`
  counter.  This is the interface the B-Tree code actually programs
  against; the node dictionaries produced by `Node.serialize` round-trip
  losslessly through the JSON page encoding, and the cache is
  write-through-on-eviction, so the map view is the functional content of
  the storage layer as seen by `btree.py`.  Page 0 (the header page) is
  written by `BTree.__init__`/`close` via `store_page_content` and is never
  accessed through `load_node`/`store_node` (page ids handed to those start
  at `next_page_id = 1`), so the header is kept in the `BTree` structure's
  own fields and the node map starts empty.

Python exceptions are modelled with an `Except PyErr` monad; fallible
primitive steps (list indexing, `list.index`, attribute access on a missing
method or on `None`) produce the corresponding error.  Unbounded recursion
(`_insert_into_node_with_space`, the `search` descent loop, and
`_delete_recursively` follow child page ids, so they are not structurally
recursive) is modelled with an explicit fuel parameter; exhausting the fuel
produces `PyErr.recursionError`, the behaviour of CPython on a cyclic page
graph.  The correctness theorems prove the fuel supplied by the top-level
entry points is never exhausted on well-formed trees.
-/

namespace Beeftree

/-- Python exceptions that the modelled code can raise. -/
inductive PyErr : Type where
  | attributeError : PyErr
  | indexError : PyErr
  | valueError : PyErr
  | keyError : PyErr
  | recursionError : PyErr
deriving DecidableEq, Repr

/-- Python `l[i]` for a non-negative index: the element, or `IndexError`. -/
def pyGet {α : Type} (l : List α) (i : Nat) : Except PyErr α :=
  match l[i]? with
  | some a => .ok a
  | none => .error .indexError

/-- Python `l[i]` for an arbitrary `int` index: negative indices count from
the end; out-of-range raises `IndexError`. -/
def pyGetInt {α : Type} (l : List α) (i : Int) : Except PyErr α :=
  if 0 ≤ i then pyGet l i.toNat
  else if -(l.length : Int) ≤ i then pyGet l (l.length - (-i).toNat)
  else .error .indexError

/-- Python slice `l[i:]` for an `int` bound (never raises; clamps). -/
def pySliceFrom {α : Type} (l : List α) (i : Int) : List α :=
  if 0 ≤ i then l.drop i.toNat
  else l.drop (((l.length : Int) + i).toNat)

/-- Python slice `l[:i]` for an `int` bound (never raises; clamps). -/
def pySliceTo {α : Type} (l : List α) (i : Int) : List α :=
  if 0 ≤ i then l.take i.toNat
  else l.take (((l.length : Int) + i).toNat)

/-- Python `l.insert(i, x)` for a non-negative index: inserts before
position `i`, appending when `i ≥ len(l)` (Python clamps, it never
raises). -/
def pyInsertAt {α : Type} (l : List α) (i : Nat) (x : α) : List α :=
  l.take i ++ x :: l.drop i

/-- Python `l.index(x)`: index of the first occurrence, or `ValueError`. -/
def pyIndexOf (l : List Int) (x : Int) : Except PyErr Nat :=
  match l.findIdx? (fun k => decide (k = x)) with
  | some i => .ok i
  | none => .error .valueError

/-- Python `l.pop(i)` for a valid non-negative index is modelled with
`pyGet` (for the returned element) and `List.eraseIdx` (for the mutation).
`l.pop()` pops the last element. -/
def pyPopLast {α : Type} (l : List α) : Except PyErr (α × List α) :=
  match l.getLast? with
  | some a => .ok (a, l.dropLast)
  | none => .error .indexError

/-- The loop of CPython's `bisect.bisect_left(a, x)` (`lo = 0`,
`hi = len(a)`; while `lo < hi`, probe `mid = (lo+hi)//2`).  The interval
`hi - lo` shrinks by at least one per iteration, so `a.length` iterations
always suffice; the structural fuel parameter makes the definition
kernel-computable. -/
def bisect_left_go (a : List Int) (x : Int) : Nat → Nat → Nat → Nat
  | 0, lo, _ => lo
  | fuel + 1, lo, hi =>
    if lo < hi then
      let mid := (lo + hi) / 2
      if a.getD mid 0 < x then bisect_left_go a x fuel (mid + 1) hi
      else bisect_left_go a x fuel lo mid
    else lo

/-- `bisect.bisect_left(a, x)`. -/
def bisect_left (a : List Int) (x : Int) : Nat :=
  bisect_left_go a x a.length 0 a.length

/-- The loop of CPython's `bisect.bisect_right(a, x)`: same interval
narrowing, with the comparison `x < a[mid]`. -/
def bisect_right_go (a : List Int) (x : Int) : Nat → Nat → Nat → Nat
  | 0, lo, _ => lo
  | fuel + 1, lo, hi =>
    if lo < hi then
      let mid := (lo + hi) / 2
      if x < a.getD mid 0 then bisect_right_go a x fuel lo mid
      else bisect_right_go a x fuel (mid + 1) hi
    else lo

/-- `bisect.bisect_right(a, x)`. -/
def bisect_right (a : List Int) (x : Int) : Nat :=
  bisect_right_go a x a.length 0 a.length

/-- `bisect.insort_left(a, x)`: insert `x` at position `bisect_left a x`. -/
def insort_left (a : List Int) (x : Int) : List Int :=
  pyInsertAt a (bisect_left a x) x

/-- Python `math.ceil(m / 2)` for an `int` `m`.  Lean's `Int` division
rounds toward `-∞`, so `(m + 1) / 2` is exactly `⌈m / 2⌉` for every
integer `m`. -/
def ceilHalf (m : Int) : Int := (m + 1) / 2

/-! ### `src/node.py` — the `Node` model

A `Node` record mirrors the attributes of `node.py`'s `Node`.  The derived
quantities `_min_degree_from_capacity` and `_min_keys` are computed by
`__init__` from `max_keys_per_node` and never mutated afterwards (no code
assigns to them or to `max_keys_per_node`), so they are modelled as derived
functions rather than stored fields. -/

structure Node : Type where
  page_id : Option Nat
  max_keys_per_node : Int
  is_leaf : Bool
  keys : List Int
  children : List Nat
deriving DecidableEq, Repr

/-- `self._min_degree_from_capacity = math.ceil(self.max_keys_per_node / 2)`. -/
def Node.min_degree_from_capacity (n : Node) : Int :=
  ceilHalf n.max_keys_per_node

/-- `self._min_keys = self._min_degree_from_capacity - 1`. -/
def Node.min_keys (n : Node) : Int :=
  n.min_degree_from_capacity - 1

/-- `Node.__init__`: rejects `max_keys_per_node < 3` with
`ValueError("Node capacity must be at least 3.")`; otherwise constructs a
node with empty key and child lists. -/
def mkNode (max_keys_per_node : Int) (is_leaf : Bool := false)
    (page_id : Option Nat := none) : Except PyErr Node :=
  if max_keys_per_node < 3 then .error .valueError
  else .ok { page_id := page_id, max_keys_per_node := max_keys_per_node,
             is_leaf := is_leaf, keys := [], children := [] }

/-- `Node.is_full`: `len(self._keys) >= self.max_keys_per_node`. -/
def Node.is_full (n : Node) : Bool :=
  n.max_keys_per_node ≤ (n.keys.length : Int)

/-- `Node.has_minimum_keys`: `len(self._keys) >= self._min_keys`. -/
def Node.has_minimum_keys (n : Node) : Bool :=
  n.min_keys ≤ (n.keys.length : Int)

/-- `Node.has_more_than_minimum_keys`: `len(self._keys) > self._min_keys`. -/
def Node.has_more_than_minimum_keys (n : Node) : Bool :=
  n.min_keys < (n.keys.length : Int)

/-- `Node.add_key`: `bisect.insort_left(self._keys, key)`. -/
def Node.add_key (n : Node) (key : Int) : Node :=
  { n with keys := insort_left n.keys key }

/-- `Node.add_child`: `self._children.insert(index, child_id)`. -/
def Node.add_child (n : Node) (child_id : Nat) (index : Nat) : Node :=
  { n with children := pyInsertAt n.children index child_id }

/-- `btree.py` calls `child_node.is_at_minimum_capacity()` (lines 189 and
208), but `node.py` defines no attribute of that name — the corresponding
check there is called `has_minimum_keys`.  Attribute lookup on a `Node`
instance therefore raises `AttributeError` at run time, which is what this
model returns. -/
def Node.is_at_minimum_capacity (_ : Node) : Except PyErr Bool :=
  .error .attributeError

/-- `Node.split_into_two_nodes`: splits a full node.
`split_point_index = self._min_degree_from_capacity - 1`; the key there is
promoted; a fresh right sibling (built through `Node.__init__`) receives
`keys[split_point_index+1:]` and, for an internal node,
`children[split_point_index+1:]`; the node itself is truncated to
`keys[:split_point_index]` and (internal) `children[:split_point_index+1]`.
Returns `(promoted_key, self-after-truncation, right_sibling)`; the Python
method mutates `self`, which state passing makes explicit.  The method does
not touch the storage layer — reflected here by the function not taking or
returning a store. -/
def Node.split_into_two_nodes (n : Node) :
    Except PyErr (Int × Node × Node) := do
  let split_point_index := n.min_degree_from_capacity - 1
  let promoted_key ← pyGetInt n.keys split_point_index
  let right ← mkNode n.max_keys_per_node n.is_leaf none
  let right := { right with
    keys := pySliceFrom n.keys (split_point_index + 1),
    children := if n.is_leaf then right.children
                else pySliceFrom n.children (split_point_index + 1) }
  let left := { n with
    keys := pySliceTo n.keys split_point_index,
    children := if n.is_leaf then n.children
                else pySliceTo n.children (split_point_index + 1) }
  return (promoted_key, left, right)

/-! ### Node-level storage: the `load_node`/`store_node` interface

`btree.py` accesses the storage manager only through `load_node`,
`store_node` and `next_page_id`.  `NodeStore` models that interface: an
association list from page number to the stored node record (updates
prepend; lookup takes the most recent binding, i.e. dictionary semantics)
plus the allocation counter. -/

def pmLookup (pages : List (Nat × Node)) (p : Nat) : Option Node :=
  match pages with
  | [] => none
  | (q, n) :: rest => if q = p then some n else pmLookup rest p

def pmStore (pages : List (Nat × Node)) (p : Nat) (n : Node) :
    List (Nat × Node) :=
  (p, n) :: pages

structure NodeStore : Type where
  pages : List (Nat × Node)
  next_page_id : Nat
deriving Repr

/-- `StorageManager.store_node`: if `node.page_id is None`, assign
`next_page_id` and bump the counter; then
`store_page_content(node.page_id, node.serialize())`.  Returns the updated
store, the page id, and the node with its (possibly newly assigned)
`page_id` — Python mutates the caller's node object. -/
def storeNode (s : NodeStore) (n : Node) : NodeStore × Nat × Node :=
  match n.page_id with
  | none =>
      let pid := s.next_page_id
      let n' := { n with page_id := some pid }
      (⟨pmStore s.pages pid n', s.next_page_id + 1⟩, pid, n')
  | some pid =>
      (⟨pmStore s.pages pid n, s.next_page_id⟩, pid, n)

/-- `StorageManager.load_node`: load the page content and deserialize, or
`None` for an absent/empty page.  `Node.serialize`/`Node.deserialize` are a
lossless round-trip on the record fields, so at this interface loading
returns exactly the stored record. -/
def loadNode (s : NodeStore) (p : Nat) : Option Node :=
  pmLookup s.pages p

/-! ### `src/btree.py` — the `BTree` model -/

/-- The `BTree` object state: `max_keys_per_node` and `root_page_id` are
its own attributes; `storage` is the node-level store.  The header page
(page 0) holds copies of these fields on disk and is rewritten by
`close()`; it is never read through `load_node`. -/
structure BT : Type where
  max_keys_per_node : Int
  root_page_id : Option Nat
  storage : NodeStore
deriving Repr

/-- `BTree.__init__` on a fresh (empty or absent) database file with the
caller-supplied `max_keys_per_node`: empty header, so `root_page_id = None`
and the storage manager starts with `next_page_id = 1`. -/
def initBT (max_keys_per_node : Int := 5) : BT :=
  { max_keys_per_node := max_keys_per_node, root_page_id := none,
    storage := ⟨[], 1⟩ }

/-- The body of `BTree.search`'s descent loop.  `path` accumulates
`(page_id, key_index)`.  A `None` node breaks out of the loop (not found);
finding `key` at `key_index` returns found; a leaf breaks; otherwise the
loop continues at `children[key_index]`. -/
def searchGo (s : NodeStore) (key : Int) :
    Nat → Nat → List (Nat × Nat) → Except PyErr (Bool × List (Nat × Nat))
  | 0, _, _ => .error .recursionError
  | fuel + 1, p, path =>
    match loadNode s p with
    | none => .ok (false, path)
    | some node =>
      let key_index := bisect_left node.keys key
      let path := path ++ [(p, key_index)]
      if key_index < node.keys.length ∧ node.keys.getD key_index 0 = key then
        .ok (true, path)
      else if node.is_leaf then .ok (false, path)
      else
        match node.children[key_index]? with
        | none => .error .indexError
        | some child => searchGo s key fuel child path

/-- `BTree.search(key) -> (found, path)`.  The loop fuel
`next_page_id` is proved sufficient on well-formed trees (every page of the
tree has an id below `next_page_id`, and the pages of a well-formed tree
are pairwise distinct, so the descent depth is below it too). -/
def BT.search (st : BT) (key : Int) :
    Except PyErr (Bool × List (Nat × Nat)) :=
  match st.root_page_id with
  | none => .ok (false, [])
  | some root => searchGo st.storage key st.storage.next_page_id root []

/-- `BTree._split_full_child_of_parent(parent_page_id, child_to_split_index)`:
load the parent, load its child at that index, split the child, store the
fresh right sibling (allocating its page id), insert the promoted key into
the parent's keys and the sibling's id into the parent's children at
`index + 1`, then store parent, left child, and (again) the sibling.
Loading a missing page yields `None`, whose subsequent attribute access
raises `AttributeError`. -/
def splitFullChildOfParent (s : NodeStore) (parent_page_id : Nat)
    (child_to_split_index : Nat) : Except PyErr NodeStore := do
  let some parent := loadNode s parent_page_id | .error .attributeError
  let child_id ← pyGet parent.children child_to_split_index
  let some child := loadNode s child_id | .error .attributeError
  let (promoted_key, child, right_sibling) ← child.split_into_two_nodes
  let (s, right_sibling_page_id, right_sibling) := storeNode s right_sibling
  let parent := parent.add_key promoted_key
  let parent := parent.add_child right_sibling_page_id
    (child_to_split_index + 1)
  let (s, _, _) := storeNode s parent
  let (s, _, _) := storeNode s child
  let (s, _, _) := storeNode s right_sibling
  return s

/-- `BTree._insert_into_node_with_space(page_id, key)`.  In Python, after
`_split_full_child_of_parent` runs, the local `node` object reflects the
split parent — `load_node` hands out lists aliased with the cached page
content, which the split mutates in place — so the model re-loads the
parent from the store before re-reading `node.keys[child_index_to_descend]`
and `node.children[child_index_to_descend + 1]` (the split has just stored
the parent at `page_id`, so the load cannot miss on reachable states). -/
def insertIntoNodeWithSpace (key : Int) :
    Nat → NodeStore → Nat → Except PyErr NodeStore
  | 0, _, _ => .error .recursionError
  | fuel + 1, s, page_id => do
    let some node := loadNode s page_id | .error .attributeError
    if node.is_leaf then
      let node := node.add_key key
      let (s, _, _) := storeNode s node
      return s
    else
      let child_index_to_descend := bisect_right node.keys key
      let child_id ← pyGet node.children child_index_to_descend
      let some child_node := loadNode s child_id | .error .attributeError
      if child_node.is_full then do
        let s ← splitFullChildOfParent s page_id child_index_to_descend
        let some node := loadNode s page_id | .error .attributeError
        let sep ← pyGet node.keys child_index_to_descend
        if sep < key then
          let child_id ← pyGet node.children (child_index_to_descend + 1)
          insertIntoNodeWithSpace key fuel s child_id
        else
          insertIntoNodeWithSpace key fuel s child_id
      else
        insertIntoNodeWithSpace key fuel s child_id

/-- `BTree.insert(key)`: create the first leaf when the tree is empty;
grow the tree by one level when the root is full (new internal root with
the old root as child 0, then split that child); then descend with
`_insert_into_node_with_space`. -/
def BT.insert (st : BT) (key : Int) : Except PyErr BT :=
  match st.root_page_id with
  | none => do
      let root_node ← mkNode st.max_keys_per_node true none
      let root_node := root_node.add_key key
      let (s, pid, _) := storeNode st.storage root_node
      return { st with root_page_id := some pid, storage := s }
  | some old_root_id => do
      let some root_node := loadNode st.storage old_root_id
        | .error .attributeError
      if root_node.is_full then do
        let new_root ← mkNode st.max_keys_per_node false none
        let new_root := new_root.add_child old_root_id 0
        let (s, new_root_id, _) := storeNode st.storage new_root
        let s ← splitFullChildOfParent s new_root_id 0
        let s ← insertIntoNodeWithSpace key s.next_page_id s new_root_id
        return { st with root_page_id := some new_root_id, storage := s }
      else do
        let s ← insertIntoNodeWithSpace key st.storage.next_page_id
          st.storage old_root_id
        return { st with storage := s }

/-- `ks.foldlM insert`: a sequence of `insert` calls. -/
def insertAll (st : BT) (ks : List Int) : Except PyErr BT :=
  ks.foldlM BT.insert st

/-- `BTree._borrow_from_left_sibling(parent, current, left_sibling, child_index)`:
rotate the separator `parent.keys[child_index-1]` down into `current` and
the left sibling's last key up into the parent; for internal nodes the
sibling's last child moves to the front of `current`'s children.  Stores
all three nodes. -/
def borrowFromLeftSibling (s : NodeStore) (parent current left_sibling : Node)
    (child_index : Nat) : Except PyErr NodeStore := do
  let separator_key_index := child_index - 1
  let separator_key ← pyGet parent.keys separator_key_index
  let parent := { parent with keys := parent.keys.eraseIdx separator_key_index }
  let current := { current with keys := pyInsertAt current.keys 0 separator_key }
  let (borrowed_key, lkeys) ← pyPopLast left_sibling.keys
  let left_sibling := { left_sibling with keys := lkeys }
  let parent := { parent with
    keys := pyInsertAt parent.keys separator_key_index borrowed_key }
  let (current, left_sibling) ←
    if !left_sibling.is_leaf then do
      let (borrowed_child_id, lch) ← pyPopLast left_sibling.children
      pure ({ current with children := pyInsertAt current.children 0 borrowed_child_id },
            { left_sibling with children := lch })
    else pure (current, left_sibling)
  let (s, _, _) := storeNode s parent
  let (s, _, _) := storeNode s current
  let (s, _, _) := storeNode s left_sibling
  return s

/-- `BTree._borrow_from_right_sibling`: symmetric to the left borrow; the
separator is `parent.keys[child_index]` and the sibling's first key (and,
internal, first child) moves. -/
def borrowFromRightSibling (s : NodeStore) (parent current right_sibling : Node)
    (child_index : Nat) : Except PyErr NodeStore := do
  let separator_key_index := child_index
  let separator_key ← pyGet parent.keys separator_key_index
  let parent := { parent with keys := parent.keys.eraseIdx separator_key_index }
  let current := { current with keys := current.keys ++ [separator_key] }
  let borrowed_key ← pyGet right_sibling.keys 0
  let right_sibling := { right_sibling with keys := right_sibling.keys.eraseIdx 0 }
  let parent := { parent with
    keys := pyInsertAt parent.keys separator_key_index borrowed_key }
  let (current, right_sibling) ←
    if !right_sibling.is_leaf then do
      let borrowed_child_id ← pyGet right_sibling.children 0
      pure ({ current with children := current.children ++ [borrowed_child_id] },
            { right_sibling with children := right_sibling.children.eraseIdx 0 })
    else pure (current, right_sibling)
  let (s, _, _) := storeNode s parent
  let (s, _, _) := storeNode s current
  let (s, _, _) := storeNode s right_sibling
  return s

/-- `BTree._merge_with_left_sibling`: the separator
`parent.keys[child_index-1]` and all of `current`'s keys (and, internal,
children) are appended to the left sibling; the parent drops the separator
and `children[child_index]`.  Stores parent and left sibling; `current`'s
page is abandoned. -/
def mergeWithLeftSibling (s : NodeStore) (parent current left_sibling : Node)
    (child_index : Nat) : Except PyErr NodeStore := do
  let separator_key_index := child_index - 1
  let separator_key ← pyGet parent.keys separator_key_index
  let parent := { parent with keys := parent.keys.eraseIdx separator_key_index }
  let left_sibling := { left_sibling with
    keys := left_sibling.keys ++ [separator_key] ++ current.keys,
    children := if current.is_leaf then left_sibling.children
                else left_sibling.children ++ current.children }
  let parent := { parent with children := parent.children.eraseIdx child_index }
  let (s, _, _) := storeNode s parent
  let (s, _, _) := storeNode s left_sibling
  return s

/-- `BTree._merge_with_right_sibling`: symmetric; the separator
`parent.keys[child_index]` and the right sibling's keys (and children) are
appended to `current`; the parent drops `children[child_index+1]`. -/
def mergeWithRightSibling (s : NodeStore) (parent current right_sibling : Node)
    (child_index : Nat) : Except PyErr NodeStore := do
  let separator_key_index := child_index
  let separator_key ← pyGet parent.keys separator_key_index
  let parent := { parent with keys := parent.keys.eraseIdx separator_key_index }
  let current := { current with
    keys := current.keys ++ [separator_key] ++ right_sibling.keys,
    children := if current.is_leaf then current.children
                else current.children ++ right_sibling.children }
  let parent := { parent with children := parent.children.eraseIdx (child_index + 1) }
  let (s, _, _) := storeNode s parent
  let (s, _, _) := storeNode s current
  return s

/-- `BTree._resolve_minimal_child(parent_node, child_index)`: borrow from a
rich left sibling, else from a rich right sibling, else merge with the
left sibling when one exists, else with the right. -/
def resolveMinimalChild (s : NodeStore) (parent : Node) (child_index : Nat) :
    Except PyErr NodeStore := do
  let child_pid ← pyGet parent.children child_index
  let some child := loadNode s child_pid | .error .attributeError
  if 0 < child_index then
    let left_id ← pyGet parent.children (child_index - 1)
    let some left := loadNode s left_id | .error .attributeError
    if left.has_more_than_minimum_keys then
      return (← borrowFromLeftSibling s parent child left child_index)
  if child_index < parent.children.length - 1 then
    let right_id ← pyGet parent.children (child_index + 1)
    let some right := loadNode s right_id | .error .attributeError
    if right.has_more_than_minimum_keys then
      return (← borrowFromRightSibling s parent child right child_index)
  if 0 < child_index then
    let left_id ← pyGet parent.children (child_index - 1)
    let some left := loadNode s left_id | .error .attributeError
    mergeWithLeftSibling s parent child left child_index
  else
    let right_id ← pyGet parent.children (child_index + 1)
    let some right := loadNode s right_id | .error .attributeError
    mergeWithRightSibling s parent child right child_index

/-- `BTree._find_smallest_key_in_subtree(page_id)`: follow `children[0]`
until a leaf, then return `keys[0]`. -/
def findSmallestKeyInSubtree (s : NodeStore) :
    Nat → Nat → Except PyErr Int
  | 0, _ => .error .recursionError
  | fuel + 1, p => do
    let some node := loadNode s p | .error .attributeError
    if node.is_leaf then pyGet node.keys 0
    else do
      let child ← pyGet node.children 0
      findSmallestKeyInSubtree s fuel child

/-- `BTree._delete_recursively(current_page_id, key)`.  Case 1 (key in a
leaf) pops the key and stores the node.  Cases 2 and 3 call
`child_node.is_at_minimum_capacity()`, an attribute `Node` does not define,
before doing anything else, so they raise `AttributeError` (see
`Node.is_at_minimum_capacity`); their continuations are modelled faithfully
but are unreachable.  After `_resolve_minimal_child` mutates the current
node's cached lists in place, the model re-loads the node from the store
(the resolve stored it), matching the aliasing in Python. -/
def deleteRecursively :
    Nat → Int → NodeStore → Nat → Except PyErr NodeStore
  | 0, _, _, _ => .error .recursionError
  | fuel + 1, key, s, current_page_id => do
    let some node := loadNode s current_page_id | .error .attributeError
    match pyIndexOf node.keys key with
    | .ok key_index =>
      if node.is_leaf then
        let node := { node with keys := node.keys.eraseIdx key_index }
        let (s, _, _) := storeNode s node
        return s
      else do
        let child_page_id ← pyGet node.children (key_index + 1)
        let some child := loadNode s child_page_id | .error .attributeError
        let minimal ← child.is_at_minimum_capacity
        let s ← if minimal then resolveMinimalChild s node (key_index + 1)
                else pure s
        let some node := loadNode s current_page_id | .error .attributeError
        let succ_root ← pyGet node.children (key_index + 1)
        let successor ← findSmallestKeyInSubtree s fuel succ_root
        let node ←
          if key_index < node.keys.length then
            pure { node with keys := node.keys.set key_index successor }
          else .error .indexError
        let (s, _, _) := storeNode s node
        let next_child ← pyGet node.children (key_index + 1)
        deleteRecursively fuel successor s next_child
    | .error _ =>
      let key_index := bisect_right node.keys key
      let child_to_descend_id ← pyGet node.children key_index
      let some child := loadNode s child_to_descend_id | .error .attributeError
      let minimal ← child.is_at_minimum_capacity
      if minimal then do
        let s ← resolveMinimalChild s node key_index
        deleteRecursively fuel key s current_page_id
      else
        deleteRecursively fuel key s child_to_descend_id

/-- `BTree.delete(key)`: no-op on an empty tree; otherwise delete
recursively, then if the root is an internal node left with zero keys,
promote `children[0]` (height shrink). -/
def BT.delete (st : BT) (key : Int) : Except PyErr BT :=
  match st.root_page_id with
  | none => .ok st
  | some root_id => do
      let s ← deleteRecursively st.storage.next_page_id key st.storage root_id
      let some root_node := loadNode s root_id | .error .attributeError
      if !root_node.is_leaf ∧ root_node.keys.length = 0 then do
        let promoted ← pyGet root_node.children 0
        return { st with storage := s, root_page_id := some promoted }
      else
        return { st with storage := s }

/-! ### Verification infrastructure for the B-Tree (not source translation)

`treeKeys` collects the keys of the subtree rooted at a page (fuel-bounded
traversal of the page graph); `keylist` is the whole tree's key list using
`next_page_id` as fuel, which the invariants prove sufficient. -/

def treeKeys (pages : List (Nat × Node)) : Nat → Nat → List Int
  | 0, _ => []
  | fuel + 1, p =>
    match pmLookup pages p with
    | none => []
    | some n =>
      if n.is_leaf then n.keys
      else n.keys ++ (n.children.map (treeKeys pages fuel)).flatten

def BT.keylist (st : BT) : List Int :=
  match st.root_page_id with
  | none => []
  | some root => treeKeys st.storage.pages st.storage.next_page_id root

/-- Optional lower bound: `okLo (some b) k` means `b ≤ k`; `none` is `-∞`. -/
def okLo : Option Int → Int → Prop
  | none, _ => True
  | some b, k => b ≤ k

/-- Optional upper bound: `okHi k (some b)` means `k ≤ b`; `none` is `+∞`. -/
def okHi : Int → Option Int → Prop
  | _, none => True
  | k, some b => k ≤ b

/-- `k` lies in the (closed) optional interval `[lo, hi]`. -/
def inB (lo hi : Option Int) (k : Int) : Prop := okLo lo k ∧ okHi k hi

instance : (lo : Option Int) → (k : Int) → Decidable (okLo lo k)
  | none, _ => inferInstanceAs (Decidable True)
  | some b, k => inferInstanceAs (Decidable (b ≤ k))

instance : (k : Int) → (hi : Option Int) → Decidable (okHi k hi)
  | _, none => inferInstanceAs (Decidable True)
  | k, some b => inferInstanceAs (Decidable (k ≤ b))

instance (lo hi : Option Int) (k : Int) : Decidable (inB lo hi k) :=
  inferInstanceAs (Decidable (_ ∧ _))

/-- Lower bound of the `i`-th child of a node with keys `ks` inside
`[lo, hi]`: the separator `ks[i-1]`, or `lo` for the leftmost child. -/
def boundL (lo : Option Int) (ks : List Int) (i : Nat) : Option Int :=
  if i = 0 then lo else some (ks.getD (i - 1) 0)

/-- Upper bound of the `i`-th child: the separator `ks[i]`, or `hi` for
the rightmost child. -/
def boundR (ks : List Int) (hi : Option Int) (i : Nat) : Option Int :=
  if i = ks.length then hi else some (ks.getD i 0)

/-- Union of a list of page-id sets. -/
def unionFS (l : List (Finset Nat)) : Finset Nat := l.foldr (· ∪ ·) ∅

/-- `Good M pages p lo hi h S`: the page graph `pages` stores, rooted at
page `p`, a well-formed search tree of height at most `h`, all of whose
keys lie in `[lo, hi]`, occupying exactly the page-id set `S` (pairwise
disjoint across subtrees — invariant 6 of the specification).  Per node it
records the spec's structural invariants that insertion maintains: stored
`page_id` consistent with the page key, the tree-wide `max_keys_per_node`,
non-decreasing keys (inserting an already-present key keeps multiset
semantics, so adjacent duplicates are allowed), child count = key count + 1
for internal nodes, and the separator bounds.  The height index is an
upper bound: a leaf satisfies every `h`. -/
inductive Good (M : Int) (pages : List (Nat × Node)) :
    Nat → Option Int → Option Int → Nat → Finset Nat → Prop where
  | leaf : ∀ (p : Nat) (n : Node) (lo hi : Option Int) (h : Nat),
      pmLookup pages p = some n →
      n.page_id = some p →
      n.is_leaf = true →
      n.max_keys_per_node = M →
      List.Sorted (· ≤ ·) n.keys →
      (∀ k ∈ n.keys, inB lo hi k) →
      Good M pages p lo hi h {p}
  | node : ∀ (p : Nat) (n : Node) (lo hi : Option Int) (h : Nat)
      (Ss : List (Finset Nat)),
      pmLookup pages p = some n →
      n.page_id = some p →
      n.is_leaf = false →
      n.max_keys_per_node = M →
      List.Sorted (· ≤ ·) n.keys →
      (∀ k ∈ n.keys, inB lo hi k) →
      n.children.length = n.keys.length + 1 →
      Ss.length = n.children.length →
      (∀ i, i < n.children.length →
        Good M pages (n.children.getD i 0) (boundL lo n.keys i)
          (boundR n.keys hi i) h (Ss.getD i ∅)) →
      (∀ i, i < n.children.length → p ∉ Ss.getD i ∅) →
      List.Pairwise Disjoint Ss →
      Good M pages p lo hi (h + 1) (insert p (unionFS Ss))

/-- Well-formedness of a `BT` state: an empty tree, or a `Good` tree at the
root with unconstrained bounds whose pages all have ids below
`next_page_id`.  Every state reachable from `initBT` by `insert` satisfies
this. -/
def WF (st : BT) : Prop :=
  match st.root_page_id with
  | none => True
  | some root => ∃ h S,
      Good st.max_keys_per_node st.storage.pages root none none h S ∧
      S ⊆ Finset.range st.storage.next_page_id

/-! ### `src/storage.py` — byte/cache-level model

Python strings are modelled as `List Char` and byte strings as `List Nat`
(each element `< 256`).  `bytes.decode()` / `str.encode()` are strict
UTF-8, implemented below.  The `json` module is external library code, so
it is abstracted by a `JsonCodec` bundle: an opaque mapping type `α` with
`dumps`/`loads`, the empty mapping `{}`, Python truthiness, and the
embedding of `Node.serialize` dictionaries into `α`. -/

/-- Strict UTF-8 decoding of `bytes.decode()`: `none` models
`UnicodeDecodeError`.  Continuation bytes are `0x80`–`0xBF`; overlong
forms, surrogates (`ED A0`–`ED BF`), and values above `U+10FFFF`
(`F4 90`–) are rejected, as CPython does. -/
def utf8Decode : List Nat → Option (List Char)
  | [] => some []
  | b :: rest =>
    if b < 0x80 then
      (utf8Decode rest).map (fun cs => Char.ofNat b :: cs)
    else if 0xC2 ≤ b ∧ b ≤ 0xDF then
      match rest with
      | b1 :: rest' =>
        if 0x80 ≤ b1 ∧ b1 ≤ 0xBF then
          (utf8Decode rest').map
            (fun cs => Char.ofNat ((b - 0xC0) * 64 + (b1 - 0x80)) :: cs)
        else none
      | [] => none
    else if 0xE0 ≤ b ∧ b ≤ 0xEF then
      match rest with
      | b1 :: b2 :: rest' =>
        let lo1 := if b = 0xE0 then 0xA0 else 0x80
        let hi1 := if b = 0xED then 0x9F else 0xBF
        if lo1 ≤ b1 ∧ b1 ≤ hi1 ∧ 0x80 ≤ b2 ∧ b2 ≤ 0xBF then
          (utf8Decode rest').map
            (fun cs => Char.ofNat
              ((b - 0xE0) * 4096 + (b1 - 0x80) * 64 + (b2 - 0x80)) :: cs)
        else none
      | _ => none
    else if 0xF0 ≤ b ∧ b ≤ 0xF4 then
      match rest with
      | b1 :: b2 :: b3 :: rest' =>
        let lo1 := if b = 0xF0 then 0x90 else 0x80
        let hi1 := if b = 0xF4 then 0x8F else 0xBF
        if lo1 ≤ b1 ∧ b1 ≤ hi1 ∧ 0x80 ≤ b2 ∧ b2 ≤ 0xBF ∧
            0x80 ≤ b3 ∧ b3 ≤ 0xBF then
          (utf8Decode rest').map
            (fun cs => Char.ofNat
              ((b - 0xF0) * 262144 + (b1 - 0x80) * 4096 +
                (b2 - 0x80) * 64 + (b3 - 0x80)) :: cs)
        else none
      | _ => none
    else none

/-- UTF-8 encoding of one character (`str.encode()`). -/
def utf8EncodeChar (c : Char) : List Nat :=
  let n := c.toNat
  if n < 0x80 then [n]
  else if n < 0x800 then [0xC0 + n / 64, 0x80 + n % 64]
  else if n < 0x10000 then
    [0xE0 + n / 4096, 0x80 + (n / 64) % 64, 0x80 + n % 64]
  else
    [0xF0 + n / 262144, 0x80 + (n / 4096) % 64, 0x80 + (n / 64) % 64,
     0x80 + n % 64]

/-- `str.encode()`. -/
def utf8Encode (s : List Char) : List Nat :=
  (s.map utf8EncodeChar).flatten

/-- Python `s.rstrip("\x00")`: drop trailing NUL characters. -/
def rstripNul (s : List Char) : List Char :=
  (s.reverse.dropWhile (fun c => c = Char.ofNat 0)).reverse

/-- The model of the external `json` module together with the shape of the
dictionaries the repository stores: `dumps`/`loads` (a `loads` error is
`JSONDecodeError`), the empty mapping `{}` (falsy), Python truthiness of a
mapping, and the `Node.serialize`/`Node.deserialize` dictionary round-trip
(a `mapToNode` failure is the uncaught `KeyError` of `deserialize` on a
non-node mapping). -/
structure JsonCodec (α : Type) : Type where
  dumps : α → List Char
  loads : List Char → Except Unit α
  emptyMap : α
  truthy : α → Bool
  nodeToMap : Node → α
  mapToNode : α → Except Unit Node

/-- `DiskPage` of `storage.py`. -/
structure DiskPage (α : Type) : Type where
  page_number : Nat
  byte_size : Nat
  content : α
  has_unsaved_changes : Bool

/-- `DiskPage.__init__(page_number, byte_size=4096)`: empty content, clean. -/
def mkDiskPage {α : Type} (C : JsonCodec α) (page_number : Nat)
    (byte_size : Nat := 4096) : DiskPage α :=
  { page_number := page_number, byte_size := byte_size,
    content := C.emptyMap, has_unsaved_changes := false }

/-- `DiskPage.from_bytes(byte_data)` (the resulting `content`): decode as
UTF-8, right-strip NUL padding; an empty stripped string gives `{}`
directly; otherwise parse; `UnicodeDecodeError` and `JSONDecodeError` are
caught and give `{}`.  The function is total: no error propagates. -/
def fromBytes {α : Type} (C : JsonCodec α) (byte_data : List Nat) : α :=
  match utf8Decode byte_data with
  | none => C.emptyMap
  | some s =>
    let decoded_data := rstripNul s
    if decoded_data = [] then C.emptyMap
    else
      match C.loads decoded_data with
      | .ok v => v
      | .error _ => C.emptyMap

/-- `DiskPage.to_bytes()`: `dumps(self.content).encode()`. -/
def toBytes {α : Type} (C : JsonCodec α) (pg : DiskPage α) : List Nat :=
  utf8Encode (C.dumps pg.content)

/-! Ordered-dictionary helpers for the page cache (`OrderedDict`): the
head of the list is the LRU end, the tail the MRU end.  `odSet` replaces
in place when the key is present (Python dict assignment keeps the entry's
position) and appends otherwise. -/

def odLookup {β : Type} (c : List (Nat × β)) (k : Nat) : Option β :=
  match c with
  | [] => none
  | (q, v) :: rest => if q = k then some v else odLookup rest k

def odSet {β : Type} (c : List (Nat × β)) (k : Nat) (v : β) :
    List (Nat × β) :=
  match c with
  | [] => [(k, v)]
  | (q, w) :: rest => if q = k then (q, v) :: rest else (q, w) :: odSet rest k v

/-- `OrderedDict.move_to_end(k, last=True)`. -/
def odMoveToEnd {β : Type} (c : List (Nat × β)) (k : Nat) : List (Nat × β) :=
  match odLookup c k with
  | none => c
  | some v => (c.eraseP (fun e => e.1 == k)) ++ [(k, v)]

/-- The `StorageManager` state.  The database file is carried as its byte
content (`file`) rather than a path; `__init__` creating a missing file is
the empty byte list. -/
structure StorageManager (α : Type) : Type where
  max_cached_pages : Nat
  page_cache : List (Nat × DiskPage α)
  page_size : Nat
  next_page_id : Nat
  file : List Nat

/-- `StorageManager.__init__(path, max_cached_pages=100, page_size=4096,
next_page_id=1)` over a file with the given initial bytes (empty when the
file was just created). -/
def mkStorageManager {α : Type} (file : List Nat)
    (max_cached_pages : Nat := 100) (page_size : Nat := 4096)
    (next_page_id : Nat := 1) : StorageManager α :=
  { max_cached_pages := max_cached_pages, page_cache := [],
    page_size := page_size, next_page_id := next_page_id, file := file }

/-- Overwrite `data` into `file` at `offset`, zero-filling any gap between
the end of the file and `offset` (POSIX write-past-EOF semantics of
`seek` + `write`). -/
def writeAt (file : List Nat) (offset : Nat) (data : List Nat) : List Nat :=
  let file := if file.length < offset
    then file ++ List.replicate (offset - file.length) 0 else file
  file.take offset ++ data ++ file.drop (offset + data.length)

/-- `StorageManager._write_page_to_disk(page)`: serialize, right-pad with
NUL to `page_size` when shorter (over-long serializations are written
unchanged — `ljust` never truncates), and write at
`page_number * page_size`. -/
def writePageToDisk {α : Type} (C : JsonCodec α) (page_size : Nat)
    (file : List Nat) (page : DiskPage α) : List Nat :=
  let page_bytes := toBytes C page
  let page_bytes := if page_bytes.length < page_size
    then page_bytes ++ List.replicate (page_size - page_bytes.length) 0
    else page_bytes
  writeAt file (page.page_number * page_size) page_bytes

/-- `StorageManager._read_page_from_disk(page_number)`: read up to
`page_size` bytes at the page's offset; an empty read (offset at or past
end of file) gives `None`; otherwise a fresh `DiskPage` whose content is
`from_bytes` of the raw bytes, which is returned unconditionally. -/
def readPageFromDisk {α : Type} (C : JsonCodec α) (st : StorageManager α)
    (page_number : Nat) : Option (DiskPage α) :=
  let raw_data := (st.file.drop (page_number * st.page_size)).take st.page_size
  if raw_data = [] then none
  else some { page_number := page_number, byte_size := 4096,
              content := fromBytes C raw_data, has_unsaved_changes := false }

/-- The `for _ in range(len(self.page_cache))` loop of
`_evict_page_from_cache`: pop the LRU entry; a clean page is evicted by
not re-inserting it (the `Bool` result records that early return); a dirty
page is written out, marked clean and re-appended at the MRU end.  The
iteration count is fixed at entry, hence the explicit counter.  (The empty
match arm is unreachable: entries only leave the cache on the returning
iteration.) -/
def evictLoop {α : Type} (C : JsonCodec α) :
    Nat → StorageManager α → StorageManager α × Bool
  | 0, st => (st, false)
  | iters + 1, st =>
    match st.page_cache with
    | [] => (st, false)
    | (page_number, page) :: rest =>
      if page.has_unsaved_changes then
        let file := writePageToDisk C st.page_size st.file page
        let page := { page with has_unsaved_changes := false }
        evictLoop C iters
          { st with page_cache := rest ++ [(page_number, page)], file := file }
      else
        ({ st with page_cache := rest }, true)

/-- `StorageManager._evict_page_from_cache()`: run the loop; if every page
was dirty (no early return), evict the first (now clean) entry from the
LRU end — guarded by `if self.page_cache:`. -/
def evictPageFromCache {α : Type} (C : JsonCodec α) (st : StorageManager α) :
    StorageManager α :=
  match evictLoop C st.page_cache.length st with
  | (st, true) => st
  | (st, false) =>
    match st.page_cache with
    | [] => st
    | _ :: rest => { st with page_cache := rest }

/-- `StorageManager.fetch_page_from_cache_or_disk(page_number)`: on a hit,
move to the MRU end and return the page; on a miss, evict first when the
cache is full, then read from disk; `None` stays uncached, a read page is
cached (appended at the MRU end) and returned. -/
def fetchPageFromCacheOrDisk {α : Type} (C : JsonCodec α)
    (st : StorageManager α) (page_number : Nat) :
    Option (DiskPage α) × StorageManager α :=
  match odLookup st.page_cache page_number with
  | some page =>
      (some page, { st with page_cache := odMoveToEnd st.page_cache page_number })
  | none =>
    let st := if st.max_cached_pages ≤ st.page_cache.length
      then evictPageFromCache C st else st
    match readPageFromDisk C st page_number with
    | none => (none, st)
    | some page =>
        (some page, { st with page_cache := odSet st.page_cache page_number page })

/-- `StorageManager.store_page_content(page_number, content)`: fetch (which
may evict); when the fetch misses past end-of-file, create a fresh
`DiskPage` and cache it; either way overwrite the content and set the
dirty flag on the cached entry. -/
def storePageContent {α : Type} (C : JsonCodec α) (st : StorageManager α)
    (page_number : Nat) (content : α) : StorageManager α :=
  match fetchPageFromCacheOrDisk C st page_number with
  | (none, st) =>
      let page := mkDiskPage C page_number
      let page := { page with content := content, has_unsaved_changes := true }
      { st with page_cache := odSet st.page_cache page_number page }
  | (some page, st) =>
      let page := { page with content := content, has_unsaved_changes := true }
      { st with page_cache := odSet st.page_cache page_number page }

/-- `StorageManager.load_page_content(page_number)`. -/
def loadPageContent {α : Type} (C : JsonCodec α) (st : StorageManager α)
    (page_number : Nat) : Option α × StorageManager α :=
  match fetchPageFromCacheOrDisk C st page_number with
  | (some page, st) => (some page.content, st)
  | (none, st) => (none, st)

/-- `StorageManager.store_node(node)` at the byte/cache level. -/
def smStoreNode {α : Type} (C : JsonCodec α) (st : StorageManager α)
    (node : Node) : StorageManager α × Nat × Node :=
  match node.page_id with
  | none =>
      let pid := st.next_page_id
      let node := { node with page_id := some pid }
      let st := { st with next_page_id := st.next_page_id + 1 }
      (storePageContent C st pid (C.nodeToMap node), pid, node)
  | some pid =>
      (storePageContent C st pid (C.nodeToMap node), pid, node)

/-- `StorageManager.load_node(page_number)`: load the content; a truthy
mapping is deserialized (whose `KeyError` on a malformed mapping is
uncaught, hence `Except`); otherwise `None`. -/
def smLoadNode {α : Type} (C : JsonCodec α) (st : StorageManager α)
    (page_number : Nat) : Except Unit (Option Node) × StorageManager α :=
  match loadPageContent C st page_number with
  | (some content, st) =>
      if C.truthy content then
        match C.mapToNode content with
        | .ok n => (.ok (some n), st)
        | .error e => (.error e, st)
      else (.ok none, st)
  | (none, st) => (.ok none, st)

/-- The traversal of `save_all_unsaved_pages_to_disk`: write each dirty
page in cache order, clearing its flag. -/
def saveAllGo {α : Type} (C : JsonCodec α) (page_size : Nat) :
    List Nat → List (Nat × DiskPage α) → List Nat × List (Nat × DiskPage α)
  | file, [] => (file, [])
  | file, (page_number, page) :: rest =>
    if page.has_unsaved_changes then
      let file := writePageToDisk C page_size file page
      let page := { page with has_unsaved_changes := false }
      let (file', rest') := saveAllGo C page_size file rest
      (file', (page_number, page) :: rest')
    else
      let (file', rest') := saveAllGo C page_size file rest
      (file', (page_number, page) :: rest')

/-- `StorageManager.save_all_unsaved_pages_to_disk()`. -/
def saveAllUnsavedPagesToDisk {α : Type} (C : JsonCodec α)
    (st : StorageManager α) : StorageManager α :=
  let (file, cache) := saveAllGo C st.page_size st.file st.page_cache
  { st with file := file, page_cache := cache }

/-- A concrete, executable `JsonCodec` instance used to evaluate the
storage layer on closed inputs (the mapping type is the decoded string
itself; `loads` fails on the designated string `"x"` so that the
parse-error path is exercisable).  The theorems about `storage.py` are
parametric in the codec; this instance only feeds their witnesses. -/
def testCodec : JsonCodec (List Char) :=
  { dumps := fun s => s,
    loads := fun s => if s = [Char.ofNat 120] then .error () else .ok s,
    emptyMap := [],
    truthy := fun s => !s.isEmpty,
    nodeToMap := fun _ => [],
    mapToNode := fun _ => .error () }

/-! ## Theorems

### Generic list and bisect lemmas -/

theorem getD_eq_getElem {α : Type} (l : List α) (d : α) {i : Nat}
    (h : i < l.length) : l.getD i d = l[i] := by
  simp [List.getD, List.getElem?_eq_getElem h]

theorem mem_of_getD {α : Type} {l : List α} {d : α} {i : Nat}
    (h : i < l.length) : l.getD i d ∈ l := by
  rw [getD_eq_getElem l d h]; exact List.getElem_mem h

theorem sorted_getD_le {a : List Int} (hs : List.Sorted (· ≤ ·) a)
    {i j : Nat} (hij : i ≤ j) (hj : j < a.length) :
    a.getD i 0 ≤ a.getD j 0 := by
  rcases Nat.lt_or_ge i j with hlt | hge
  · rw [getD_eq_getElem a 0 (lt_of_le_of_lt hij hj), getD_eq_getElem a 0 hj]
    exact (List.pairwise_iff_getElem.mp hs) i j _ _ hlt
  · have : i = j := le_antisymm hij hge
    subst this; exact le_refl _

theorem countP_eq_of_pointwise (p : Int → Bool) :
    ∀ (a : List Int) (m : Nat), m ≤ a.length →
    (∀ i, i < m → p (a.getD i 0)) →
    (∀ i, m ≤ i → i < a.length → ¬ p (a.getD i 0)) →
    a.countP p = m
  | [], m, hm, _, _ => by
      simp at hm; simp [hm]
  | b :: t, 0, _, _, hge => by
      rw [List.countP_eq_zero.mpr]
      intro k hk
      rcases List.mem_iff_getElem.mp hk with ⟨i, hi, hik⟩
      have := hge i (Nat.zero_le _) hi
      rw [getD_eq_getElem _ 0 hi] at this
      rw [← hik]; exact this
  | b :: t, m + 1, hm, hlt, hge => by
      have hb : p b := by
        have := hlt 0 (Nat.succ_pos _)
        simpa [List.getD] using this
      rw [List.countP_cons, if_pos hb]
      have ht : t.countP p = m := by
        apply countP_eq_of_pointwise p t m (by simpa using hm)
        · intro i hi
          have := hlt (i + 1) (by omega)
          simpa [List.getD] using this
        · intro i hi hil
          have := hge (i + 1) (by omega) (by simpa using hil)
          simpa [List.getD] using this
      omega

theorem bisect_left_go_spec (a : List Int) (x : Int)
    (hs : List.Sorted (· ≤ ·) a) :
    ∀ (fuel lo hi : Nat), hi ≤ a.length → lo ≤ hi → hi - lo ≤ fuel →
    (∀ i, i < lo → a.getD i 0 < x) →
    (∀ i, hi ≤ i → i < a.length → ¬ a.getD i 0 < x) →
    bisect_left_go a x fuel lo hi = a.countP (fun k => decide (k < x))
  | 0, lo, hi, hhi, hlohi, hfuel, hlo, hge => by
      have : lo = hi := by omega
      subst this
      rw [bisect_left_go]
      exact (countP_eq_of_pointwise _ a lo (le_trans hlohi hhi)
        (fun i hi => by simpa using hlo i hi)
        (fun i h1 h2 => by simpa using hge i h1 h2)).symm
  | fuel + 1, lo, hi, hhi, hlohi, hfuel, hlo, hge => by
      rw [bisect_left_go]
      by_cases hlt : lo < hi
      · rw [if_pos hlt]
        have hmid1 : lo ≤ (lo + hi) / 2 := by omega
        have hmid2 : (lo + hi) / 2 < hi := by omega
        by_cases hc : a.getD ((lo + hi) / 2) 0 < x
        · rw [if_pos hc]
          apply bisect_left_go_spec a x hs fuel ((lo + hi) / 2 + 1) hi hhi
            (by omega) (by omega)
          · intro i hi
            exact lt_of_le_of_lt
              (sorted_getD_le hs (by omega) (lt_of_lt_of_le hmid2 hhi)) hc
          · exact hge
        · rw [if_neg hc]
          apply bisect_left_go_spec a x hs fuel lo ((lo + hi) / 2)
            (by omega) (by omega) (by omega) hlo
          · intro i h1 h2
            intro hcon
            exact hc (lt_of_le_of_lt (sorted_getD_le hs h1 h2) hcon)
      · rw [if_neg hlt]
        have : lo = hi := by omega
        subst this
        exact (countP_eq_of_pointwise _ a lo (le_trans hlohi hhi)
          (fun i hi => by simpa using hlo i hi)
          (fun i h1 h2 => by simpa using hge i h1 h2)).symm

theorem bisect_left_eq_countP {a : List Int} (hs : List.Sorted (· ≤ ·) a)
    (x : Int) :
    bisect_left a x = a.countP (fun k => decide (k < x)) := by
  apply bisect_left_go_spec a x hs a.length 0 a.length (le_refl _)
    (Nat.zero_le _) (by omega)
  · intro i hi; omega
  · intro i h1 h2; omega

theorem bisect_right_go_spec (a : List Int) (x : Int)
    (hs : List.Sorted (· ≤ ·) a) :
    ∀ (fuel lo hi : Nat), hi ≤ a.length → lo ≤ hi → hi - lo ≤ fuel →
    (∀ i, i < lo → a.getD i 0 ≤ x) →
    (∀ i, hi ≤ i → i < a.length → ¬ a.getD i 0 ≤ x) →
    bisect_right_go a x fuel lo hi = a.countP (fun k => decide (k ≤ x))
  | 0, lo, hi, hhi, hlohi, hfuel, hlo, hge => by
      have : lo = hi := by omega
      subst this
      rw [bisect_right_go]
      exact (countP_eq_of_pointwise _ a lo (le_trans hlohi hhi)
        (fun i hi => by simpa using hlo i hi)
        (fun i h1 h2 => by simpa using hge i h1 h2)).symm
  | fuel + 1, lo, hi, hhi, hlohi, hfuel, hlo, hge => by
      rw [bisect_right_go]
      by_cases hlt : lo < hi
      · rw [if_pos hlt]
        have hmid1 : lo ≤ (lo + hi) / 2 := by omega
        have hmid2 : (lo + hi) / 2 < hi := by omega
        by_cases hc : x < a.getD ((lo + hi) / 2) 0
        · rw [if_pos hc]
          apply bisect_right_go_spec a x hs fuel lo ((lo + hi) / 2)
            (by omega) (by omega) (by omega) hlo
          · intro i h1 h2 hcon
            exact absurd (lt_of_lt_of_le hc (sorted_getD_le hs h1 h2))
              (not_lt.mpr hcon)
        · rw [if_neg hc]
          apply bisect_right_go_spec a x hs fuel ((lo + hi) / 2 + 1) hi hhi
            (by omega) (by omega)
          · intro i hi
            exact le_trans
              (sorted_getD_le hs (by omega) (lt_of_lt_of_le hmid2 hhi))
              (not_lt.mp hc)
          · exact hge
      · rw [if_neg hlt]
        have : lo = hi := by omega
        subst this
        exact (countP_eq_of_pointwise _ a lo (le_trans hlohi hhi)
          (fun i hi => by simpa using hlo i hi)
          (fun i h1 h2 => by simpa using hge i h1 h2)).symm

theorem bisect_right_eq_countP {a : List Int} (hs : List.Sorted (· ≤ ·) a)
    (x : Int) :
    bisect_right a x = a.countP (fun k => decide (k ≤ x)) := by
  apply bisect_right_go_spec a x hs a.length 0 a.length (le_refl _)
    (Nat.zero_le _) (by omega)
  · intro i hi; omega
  · intro i h1 h2; omega

/-- For a sorted list and a downward-closed predicate, the elements
satisfying the predicate are exactly the first `countP` ones. -/
theorem sorted_countP_pointwise {p : Int → Bool}
    (hmono : ∀ {u v : Int}, u ≤ v → p v = true → p u = true) :
    ∀ {a : List Int}, List.Sorted (· ≤ ·) a →
    (∀ i, i < a.countP p → i < a.length ∧ p (a.getD i 0) = true) ∧
    (∀ i, a.countP p ≤ i → i < a.length → ¬ p (a.getD i 0) = true)
  | [], _ => by
      constructor
      · intro i hi; simp at hi
      · intro i _ hi; simp at hi
  | b :: t, hs => by
      rcases List.sorted_cons.mp hs with ⟨hball, ht⟩
      rcases sorted_countP_pointwise hmono ht with ⟨ih1, ih2⟩
      by_cases hb : p b = true
      · rw [List.countP_cons, if_pos hb]
        constructor
        · intro i hi
          match i with
          | 0 => exact ⟨Nat.succ_pos _, by simpa [List.getD] using hb⟩
          | i + 1 =>
            have := ih1 i (by omega)
            exact ⟨by simpa using this.1, by simpa [List.getD] using this.2⟩
        · intro i h1 h2
          match i with
          | 0 => omega
          | i + 1 =>
            have := ih2 i (by omega) (by simpa using h2)
            simpa [List.getD] using this
      · have htz : t.countP p = 0 := by
          rw [List.countP_eq_zero]
          intro y hy hpy
          exact hb (hmono (hball y hy) hpy)
        rw [List.countP_cons, if_neg hb, htz]
        constructor
        · intro i hi; omega
        · intro i _ h2
          match i with
          | 0 => simpa [List.getD] using hb
          | i + 1 =>
            have hmem : t.getD i 0 ∈ t := mem_of_getD (by simpa using h2)
            intro hpy
            exact hb (hmono (hball _ hmem) hpy)

theorem countLt_mono_le (a : List Int) (x : Int) :
    a.countP (fun k => decide (k < x)) ≤ a.countP (fun k => decide (k ≤ x)) := by
  induction a with
  | nil => simp
  | cons b t ih =>
    rw [List.countP_cons, List.countP_cons]
    by_cases h : b < x
    · rw [if_pos (by simpa using h), if_pos (by simp; omega)]; omega
    · rw [if_neg (by simpa using h)]
      have : t.countP (fun k => decide (k < x)) ≤
          t.countP (fun k => decide (k ≤ x)) := ih
      split <;> omega

theorem countP_le_len (p : Int → Bool) (a : List Int) :
    a.countP p ≤ a.length := List.countP_le_length p

/-- In a sorted list containing `x`, the element at index
`countP (· < x)` is `x`. -/
theorem sorted_getD_countLt {a : List Int} (hs : List.Sorted (· ≤ ·) a)
    {x : Int} (hx : x ∈ a) :
    a.countP (fun k => decide (k < x)) < a.length ∧
    a.getD (a.countP (fun k => decide (k < x))) 0 = x := by
  have hpt := sorted_countP_pointwise
    (p := fun k => decide (k < x))
    (fun {u v} huv hv => by simp at hv ⊢; omega) hs
  set m := a.countP (fun k => decide (k < x)) with hm
  rcases List.mem_iff_getElem.mp hx with ⟨j, hj, hjx⟩
  have hjD : a.getD j 0 = x := by rw [getD_eq_getElem a 0 hj]; exact hjx
  have hjm : m ≤ j := by
    by_contra hcon
    have := (hpt.1 j (by omega)).2
    rw [hjD] at this; simp at this
  have hmlen : m < a.length := lt_of_le_of_lt hjm hj
  refine ⟨hmlen, ?_⟩
  have h1 : a.getD m 0 ≤ x := by rw [← hjD]; exact sorted_getD_le hs hjm hj
  have h2 : ¬ a.getD m 0 < x := by
    have := hpt.2 m (le_refl _) hmlen
    simpa using this
  omega

theorem mem_getD_form {α : Type} {l : List α} {y : α} (d : α) (h : y ∈ l) :
    ∃ j, j < l.length ∧ l.getD j d = y := by
  rcases List.mem_iff_getElem.mp h with ⟨j, hj, hjy⟩
  exact ⟨j, hj, by rw [getD_eq_getElem l d hj]; exact hjy⟩

theorem getD_drop {α : Type} (l : List α) (i j : Nat) (d : α)
    (h : i + j < l.length) : (l.drop i).getD j d = l.getD (i + j) d := by
  rw [getD_eq_getElem _ d (by simp; omega), getD_eq_getElem l d h]
  exact List.getElem_drop l

theorem getD_take {α : Type} (l : List α) (i j : Nat) (d : α)
    (h1 : j < i) (h2 : j < l.length) :
    (l.take i).getD j d = l.getD j d := by
  rw [getD_eq_getElem _ d (by simp; omega), getD_eq_getElem l d h2]
  exact List.getElem_take l

theorem pyInsertAt_length {α : Type} (l : List α) (i : Nat) (x : α)
    (h : i ≤ l.length) : (pyInsertAt l i x).length = l.length + 1 := by
  simp [pyInsertAt]; omega

theorem pyInsertAt_perm {α : Type} (l : List α) (i : Nat) (x : α) :
    (pyInsertAt l i x).Perm (x :: l) := by
  have h1 := @List.perm_middle _ x (l.take i) (l.drop i)
  have h2 : l.take i ++ l.drop i = l := List.take_append_drop i l
  rw [h2] at h1
  exact h1

theorem pyInsertAt_getD_lt {α : Type} (l : List α) (i : Nat) (x : α) (d : α)
    {j : Nat} (hj : j < i) (hjl : j < l.length) :
    (pyInsertAt l i x).getD j d = l.getD j d := by
  unfold pyInsertAt
  rw [List.getD_append _ _ d j (by simp; omega)]
  exact getD_take l i j d hj hjl

theorem pyInsertAt_getD_self {α : Type} (l : List α) (i : Nat) (x : α) (d : α)
    (hi : i ≤ l.length) :
    (pyInsertAt l i x).getD i d = x := by
  unfold pyInsertAt
  have hlen : (l.take i).length = i := by simp; omega
  rw [List.getD_append_right _ _ d i (by omega), hlen]
  simp

theorem pyInsertAt_getD_gt {α : Type} (l : List α) (i : Nat) (x : α) (d : α)
    {j : Nat} (hj : i < j) (hjl : j ≤ l.length) :
    (pyInsertAt l i x).getD j d = l.getD (j - 1) d := by
  unfold pyInsertAt
  have hlen : (l.take i).length = i := by simp; omega
  rw [List.getD_append_right _ _ d j (by omega), hlen]
  have hji : j - i = (j - i - 1) + 1 := by omega
  rw [hji]
  show (l.drop i).getD (j - i - 1) d = l.getD (j - 1) d
  by_cases hlast : j = l.length
  · by_cases hz : l.length = 0
    · omega
    · rw [getD_drop l i (j - i - 1) d (by omega)]
      congr 1; omega
  · rw [getD_drop l i (j - i - 1) d (by omega)]
    congr 1; omega

/-- Inserting `x` anywhere inside a run of copies of `x` yields the same
list: `pyInsertAt` at `j` equals `pyInsertAt` at `i` when all elements at
positions `[j, i)` are `x`. -/
theorem pyInsertAt_shift {α : Type} (l : List α) (x : α) :
    ∀ (j i : Nat), j ≤ i → i ≤ l.length →
    (∀ k, j ≤ k → k < i → l.getD k x = x) →
    pyInsertAt l j x = pyInsertAt l i x := by
  intro j i
  induction i with
  | zero =>
    intro h1 _ _
    have hz : j = 0 := by omega
    subst hz; rfl
  | succ i ih =>
    intro hji hil hrun
    by_cases hj : j = i + 1
    · subst hj; rfl
    · have hji' : j ≤ i := by omega
      rw [ih hji' (by omega) (fun k h1 h2 => hrun k h1 (by omega))]
      have hil' : i < l.length := by omega
      have hix : l.getD i x = x := hrun i (by omega) (by omega)
      unfold pyInsertAt
      have htake : l.take (i + 1) = l.take i ++ [x] := by
        rw [List.take_succ, List.getElem?_eq_getElem hil']
        rw [getD_eq_getElem l x hil'] at hix
        rw [hix]
        rfl
      have hdrop : l.drop i = x :: l.drop (i + 1) := by
        rw [List.drop_eq_getElem_cons hil']
        rw [getD_eq_getElem l x hil'] at hix
        rw [hix]
      rw [htake, hdrop]
      simp

theorem insort_left_perm {a : List Int} (_ : List.Sorted (· ≤ ·) a)
    (x : Int) : (insort_left a x).Perm (x :: a) :=
  pyInsertAt_perm a (bisect_left a x) x

theorem insort_left_sorted {a : List Int} (hs : List.Sorted (· ≤ ·) a)
    (x : Int) : List.Sorted (· ≤ ·) (insort_left a x) := by
  unfold insort_left pyInsertAt
  rw [bisect_left_eq_countP hs]
  set m := a.countP (fun k => decide (k < x)) with hm
  have hpt := sorted_countP_pointwise
    (p := fun k => decide (k < x))
    (fun {u v} huv hv => by simp at hv ⊢; omega) hs
  have hml : m ≤ a.length := countP_le_len _ a
  rw [List.Sorted, List.pairwise_append]
  refine ⟨hs.sublist (List.take_sublist m a), ?_, ?_⟩
  · rw [List.pairwise_cons]
    refine ⟨?_, hs.sublist (List.drop_sublist m a)⟩
    intro y hy
    rcases mem_getD_form 0 hy with ⟨j, hj, hjy⟩
    have hjlen : m + j < a.length := by simp at hj; omega
    rw [getD_drop a m j 0 hjlen] at hjy
    have hny := hpt.2 (m + j) (by omega) hjlen
    simp only [decide_eq_true_eq] at hny
    rw [← hjy]
    omega
  · intro y hy z hz
    rcases mem_getD_form 0 hy with ⟨j, hj, hjy⟩
    have hjm : j < m := by simp at hj; omega
    have hjlen : j < a.length := by omega
    rw [getD_take a m j 0 hjm hjlen] at hjy
    have hylt : a.getD j 0 < x := by
      have := (hpt.1 j hjm).2; simpa using this
    rcases List.mem_cons.mp hz with hzx | hzd
    · subst hzx; omega
    · rcases mem_getD_form 0 hzd with ⟨j2, hj2, hj2z⟩
      have hj2len : m + j2 < a.length := by simp at hj2; omega
      rw [getD_drop a m j2 0 hj2len] at hj2z
      have hzge : ¬ a.getD (m + j2) 0 < x := by
        have := hpt.2 (m + j2) (by omega) hj2len
        simpa using this
      rw [← hjy, ← hj2z]
      omega

/-- `insort_left` into a sorted list equals a plain insertion at any
position `i` with `countP (<x) ≤ i ≤ countP (≤x)` (positions inside the
run of copies of `x`). -/
theorem insort_left_eq_pyInsertAt {a : List Int}
    (hs : List.Sorted (· ≤ ·) a) (x : Int) {i : Nat}
    (h1 : a.countP (fun k => decide (k < x)) ≤ i)
    (h2 : i ≤ a.countP (fun k => decide (k ≤ x))) :
    insort_left a x = pyInsertAt a i x := by
  unfold insort_left
  rw [bisect_left_eq_countP hs]
  have hle := countP_le_len (fun k => decide (k ≤ x)) a
  apply pyInsertAt_shift a x _ i h1 (by omega)
  intro k hk1 hk2
  have hptLt := sorted_countP_pointwise
    (p := fun k => decide (k < x))
    (fun {u v} huv hv => by simp at hv ⊢; omega) hs
  have hptLe := sorted_countP_pointwise
    (p := fun k => decide (k ≤ x))
    (fun {u v} huv hv => by simp at hv ⊢; omega) hs
  have hklen : k < a.length := by omega
  have hge : ¬ a.getD k 0 < x := by
    have := hptLt.2 k hk1 hklen; simpa using this
  have hle2 : a.getD k 0 ≤ x := by
    have := (hptLe.1 k (by omega)).2; simpa using this
  have : a.getD k 0 = x := by omega
  rw [getD_eq_getElem a x hklen, ← getD_eq_getElem a 0 hklen, this]

/-- Removing the element at a valid index is a permutation inverse of
consing it on. -/
theorem eraseIdx_perm_int (l : List Int) (i : Nat) (h : i < l.length) :
    l.Perm (l.getD i 0 :: l.eraseIdx i) := by
  have hsplit : l = l.take i ++ l.getD i 0 :: l.drop (i + 1) := by
    conv_lhs => rw [← List.take_append_drop i l]
    rw [getD_eq_getElem l 0 h, List.drop_eq_getElem_cons h]
  have herase : l.eraseIdx i = l.take i ++ l.drop (i + 1) :=
    List.eraseIdx_eq_take_drop_succ l i
  rw [herase]
  conv_lhs => rw [hsplit]
  exact List.perm_middle

theorem pmLookup_store_self (pages : List (Nat × Node)) (p : Nat) (n : Node) :
    pmLookup (pmStore pages p n) p = some n := by
  simp [pmStore, pmLookup]

theorem pmLookup_store_ne (pages : List (Nat × Node)) {p q : Nat} (n : Node)
    (h : q ≠ p) : pmLookup (pmStore pages p n) q = pmLookup pages q := by
  simp [pmStore, pmLookup]
  intro he; exact absurd he.symm h

/-! ### Lemmas about the `Good` representation predicate -/

theorem okLo_trans {lo : Option Int} {b x : Int} (h1 : okLo lo b)
    (h2 : b ≤ x) : okLo lo x := by
  cases lo with
  | none => trivial
  | some c => exact le_trans h1 h2

theorem okHi_trans {hi : Option Int} {b x : Int} (h1 : okHi b hi)
    (h2 : x ≤ b) : okHi x hi := by
  cases hi with
  | none => trivial
  | some c => exact le_trans h2 h1

theorem mem_unionFS {Ss : List (Finset Nat)} {q : Nat} :
    ∀ {i : Nat}, i < Ss.length → q ∈ Ss.getD i ∅ → q ∈ unionFS Ss := by
  induction Ss with
  | nil => intro i hi; simp at hi
  | cons T Ts ih =>
    intro i hi hq
    unfold unionFS
    simp only [List.foldr_cons]
    match i with
    | 0 =>
      simp only [List.getD, List.getElem?_cons_zero, Option.getD_some] at hq
      exact Finset.mem_union_left _ hq
    | i + 1 =>
      have : q ∈ unionFS Ts := ih (by simpa using hi) (by simpa [List.getD] using hq)
      exact Finset.mem_union_right _ this

theorem unionFS_mem_inv {Ss : List (Finset Nat)} {q : Nat}
    (h : q ∈ unionFS Ss) : ∃ i, i < Ss.length ∧ q ∈ Ss.getD i ∅ := by
  induction Ss with
  | nil => simp [unionFS] at h
  | cons T Ts ih =>
    unfold unionFS at h
    simp only [List.foldr_cons] at h
    rcases Finset.mem_union.mp h with hT | hTs
    · exact ⟨0, by simp, by simpa [List.getD] using hT⟩
    · rcases ih hTs with ⟨i, hi, hq⟩
      exact ⟨i + 1, by simpa using hi, by simpa [List.getD] using hq⟩

theorem Good.mem_self {M : Int} {pages : List (Nat × Node)} {p : Nat}
    {lo hi : Option Int} {h : Nat} {S : Finset Nat}
    (hg : Good M pages p lo hi h S) : p ∈ S := by
  cases hg with
  | leaf => exact Finset.mem_singleton_self p
  | node => exact Finset.mem_insert_self _ _

theorem Good.subtree_subset {M : Int} {pages : List (Nat × Node)} {p : Nat}
    {lo hi : Option Int} {h : Nat} {S : Finset Nat} {n : Node}
    {Ss : List (Finset Nat)}
    (hS : S = insert p (unionFS Ss)) (hsl : Ss.length = n.children.length)
    {i : Nat} (hi : i < n.children.length) : Ss.getD i ∅ ⊆ S := by
  intro q hq
  rw [hS]
  exact Finset.mem_insert_of_mem (mem_unionFS (by omega) hq)

/-- `Good` only depends on the pages in its footprint `S`. -/
theorem good_frame {M : Int} {pages pages' : List (Nat × Node)} {p : Nat}
    {lo hi : Option Int} {h : Nat} {S : Finset Nat}
    (hg : Good M pages p lo hi h S) :
    (∀ q ∈ S, pmLookup pages' q = pmLookup pages q) →
    Good M pages' p lo hi h S := by
  induction hg with
  | leaf p n lo hi h hl hpid hleaf hM hsort hb =>
    intro hfr
    exact Good.leaf p n lo hi h
      (by rw [hfr p (Finset.mem_singleton_self p)]; exact hl)
      hpid hleaf hM hsort hb
  | node p n lo hi h Ss hl hpid hleaf hM hsort hb hcl hsl hch hnp hdisj ih =>
    intro hfr
    refine Good.node p n lo hi h Ss ?_ hpid hleaf hM hsort hb hcl hsl ?_ hnp hdisj
    · rw [hfr p (Finset.mem_insert_self _ _)]; exact hl
    · intro i hi
      refine ih i hi ?_
      intro q hq
      exact hfr q (Finset.mem_insert_of_mem (mem_unionFS (by omega) hq))

/-- The height index of `Good` is an upper bound: it can be weakened. -/
theorem good_mono {M : Int} {pages : List (Nat × Node)} {p : Nat}
    {lo hi : Option Int} {h : Nat} {S : Finset Nat}
    (hg : Good M pages p lo hi h S) :
    ∀ {h' : Nat}, h ≤ h' → Good M pages p lo hi h' S := by
  induction hg with
  | leaf p n lo hi h hl hpid hleaf hM hsort hb =>
    intro h' _
    exact Good.leaf p n lo hi h' hl hpid hleaf hM hsort hb
  | node p n lo hi h Ss hl hpid hleaf hM hsort hb hcl hsl hch hnp hdisj ih =>
    intro h' hh
    have hh1 : h + 1 ≤ h' := hh
    have : h' = (h' - 1) + 1 := by omega
    rw [this]
    refine Good.node p n lo hi (h' - 1) Ss hl hpid hleaf hM hsort hb hcl hsl ?_ hnp hdisj
    intro i hi
    exact ih i hi (by omega)

/-- A `Good` tree over footprint `S` is `Good` at height `S.card - 1`:
each level of the tree contributes at least one distinct page. -/
theorem good_card {M : Int} {pages : List (Nat × Node)} {p : Nat}
    {lo hi : Option Int} {h : Nat} {S : Finset Nat}
    (hg : Good M pages p lo hi h S) :
    Good M pages p lo hi (S.card - 1) S := by
  induction hg with
  | leaf p n lo hi h hl hpid hleaf hM hsort hb =>
    exact Good.leaf p n lo hi _ hl hpid hleaf hM hsort hb
  | node p n lo hi h Ss hl hpid hleaf hM hsort hb hcl hsl hch hnp hdisj ih =>
    have hcard : ∀ i, i < n.children.length →
        (Ss.getD i ∅).card ≤ (insert p (unionFS Ss)).card - 1 := by
      intro i hi
      have hsub : Ss.getD i ∅ ⊆ (insert p (unionFS Ss)).erase p := by
        intro q hq
        refine Finset.mem_erase.mpr ⟨?_, ?_⟩
        · intro he; subst he; exact hnp i hi hq
        · exact Finset.mem_insert_of_mem (mem_unionFS (by omega) hq)
      have := Finset.card_le_card hsub
      rwa [Finset.card_erase_of_mem (Finset.mem_insert_self _ _)] at this
    have hpos : 1 ≤ (insert p (unionFS Ss)).card :=
      Finset.card_pos.mpr ⟨p, Finset.mem_insert_self _ _⟩
    have hstep : (insert p (unionFS Ss)).card - 1 =
        ((insert p (unionFS Ss)).card - 2) + 1 ∨
        (insert p (unionFS Ss)).card - 1 = 0 := by omega
    -- children exist: an internal node has ≥ 1 child, whose footprint is
    -- nonempty, so the total card is ≥ 2.
    have hchild0 : 0 < n.children.length := by omega
    have hne : (Ss.getD 0 ∅).Nonempty := by
      have := (ih 0 hchild0)
      exact ⟨_, Good.mem_self this⟩
    have hsub0 : Ss.getD 0 ∅ ⊆ (insert p (unionFS Ss)).erase p := by
      intro q hq
      refine Finset.mem_erase.mpr ⟨?_, ?_⟩
      · intro he; subst he; exact hnp 0 hchild0 hq
      · exact Finset.mem_insert_of_mem (mem_unionFS (by omega) hq)
    have hcard2 : 2 ≤ (insert p (unionFS Ss)).card := by
      have h1 : 1 ≤ (Ss.getD 0 ∅).card := Finset.card_pos.mpr hne
      have h2 := Finset.card_le_card hsub0
      have h3 := Finset.card_erase_of_mem
        (Finset.mem_insert_self p (unionFS Ss))
      omega
    have heq : (insert p (unionFS Ss)).card - 1 =
        ((insert p (unionFS Ss)).card - 2) + 1 := by omega
    rw [heq]
    refine Good.node p n lo hi _ Ss hl hpid hleaf hM hsort hb hcl hsl ?_ hnp hdisj
    intro i hi
    exact good_mono (ih i hi) (by have := hcard i hi; omega)

/-! ### Lemmas about `treeKeys` -/

theorem treeKeys_zero (pages : List (Nat × Node)) (p : Nat) :
    treeKeys pages 0 p = [] := rfl

theorem treeKeys_lookup_none {pages : List (Nat × Node)} {p : Nat}
    (f : Nat) (h : pmLookup pages p = none) :
    treeKeys pages (f + 1) p = [] := by
  rw [treeKeys, h]

theorem treeKeys_lookup_some {pages : List (Nat × Node)} {p : Nat} {n : Node}
    (f : Nat) (h : pmLookup pages p = some n) :
    treeKeys pages (f + 1) p =
      if n.is_leaf then n.keys
      else n.keys ++ (n.children.map (treeKeys pages f)).flatten := by
  rw [treeKeys, h]

theorem treeKeys_leaf_eq {pages : List (Nat × Node)} {p : Nat} {n : Node}
    (f : Nat) (hl : pmLookup pages p = some n) (hleaf : n.is_leaf = true) :
    treeKeys pages (f + 1) p = n.keys := by
  rw [treeKeys_lookup_some f hl, hleaf]; simp

theorem treeKeys_node_eq {pages : List (Nat × Node)} {p : Nat} {n : Node}
    (f : Nat) (hl : pmLookup pages p = some n) (hleaf : n.is_leaf = false) :
    treeKeys pages (f + 1) p =
      n.keys ++ (n.children.map (treeKeys pages f)).flatten := by
  rw [treeKeys_lookup_some f hl, hleaf]; simp

theorem treeKeys_mono {pages : List (Nat × Node)} {x : Int} :
    ∀ (f : Nat) (p : Nat), x ∈ treeKeys pages f p → x ∈ treeKeys pages (f + 1) p := by
  intro f
  induction f with
  | zero => intro p hx; simp [treeKeys] at hx
  | succ f ih =>
    intro p hx
    cases hl : pmLookup pages p with
    | none => rw [treeKeys_lookup_none f hl] at hx; simp at hx
    | some n =>
      by_cases hleaf : n.is_leaf
      · rw [treeKeys_leaf_eq f hl hleaf] at hx
        rw [treeKeys_leaf_eq (f + 1) hl hleaf]; exact hx
      · rw [treeKeys_node_eq f hl (by simpa using hleaf)] at hx
        rw [treeKeys_node_eq (f + 1) hl (by simpa using hleaf)]
        rcases List.mem_append.mp hx with hk | hfl
        · exact List.mem_append_left _ hk
        · refine List.mem_append_right _ ?_
          rcases List.mem_flatten.mp hfl with ⟨l, hlmem, hxl⟩
          rcases List.mem_map.mp hlmem with ⟨c, hc, hcl⟩
          subst hcl
          refine List.mem_flatten.mpr ⟨treeKeys pages (f + 1) c, ?_, ih c hxl⟩
          exact List.mem_map.mpr ⟨c, hc, rfl⟩

/-- `treeKeys` of a `Good` subtree only reads pages in its footprint. -/
theorem treeKeys_frame {M : Int} {pages pages' : List (Nat × Node)} :
    ∀ (f : Nat) {p : Nat} {lo hi : Option Int} {h : Nat} {S : Finset Nat},
    Good M pages p lo hi h S →
    (∀ q ∈ S, pmLookup pages' q = pmLookup pages q) →
    treeKeys pages' f p = treeKeys pages f p
  | 0, p, _, _, _, _, _, _ => rfl
  | f + 1, p, lo, hi, h, S, hg, hfr => by
    cases hg with
    | leaf _ n _ _ _ hl hpid hleaf _ _ _ =>
      have hl' : pmLookup pages' p = some n := by
        rw [hfr p (Finset.mem_singleton_self p)]; exact hl
      rw [treeKeys_leaf_eq f hl' hleaf, treeKeys_leaf_eq f hl hleaf]
    | node _ n _ _ h' Ss hl hpid hleaf hM hsort hb hcl hsl hch hnp hdisj =>
      have hl' : pmLookup pages' p = some n := by
        rw [hfr p (Finset.mem_insert_self _ _)]; exact hl
      rw [treeKeys_node_eq f hl' hleaf, treeKeys_node_eq f hl hleaf]
      congr 1
      refine congrArg List.flatten (List.map_congr_left ?_)
      intro c hc
      rcases mem_getD_form 0 hc with ⟨i, hilen, hieq⟩
      subst hieq
      exact treeKeys_frame f (hch i hilen)
        (fun q hq => hfr q
          (Finset.mem_insert_of_mem (mem_unionFS (by omega) hq)))

/-- With fuel at least `h + 1`, `treeKeys` of a `Good` tree of height `h`
is independent of the fuel. -/
theorem treeKeys_stable {M : Int} {pages : List (Nat × Node)} :
    ∀ (f : Nat) {p : Nat} {lo hi : Option Int} {h : Nat} {S : Finset Nat},
    Good M pages p lo hi h S → h + 1 ≤ f →
    treeKeys pages f p = treeKeys pages (h + 1) p
  | 0, p, _, _, h, _, _, hf => by omega
  | f + 1, p, lo, hi, h, S, hg, hf => by
    cases hg with
    | leaf _ n _ _ _ hl hpid hleaf _ _ _ =>
      rw [treeKeys_leaf_eq f hl hleaf, treeKeys_leaf_eq h hl hleaf]
    | node _ n _ _ h' Ss hl hpid hleaf hM hsort hb hcl hsl hch hnp hdisj =>
      rw [treeKeys_node_eq f hl hleaf, treeKeys_node_eq (h' + 1) hl hleaf]
      congr 1
      refine congrArg List.flatten (List.map_congr_left ?_)
      intro c hc
      rcases mem_getD_form 0 hc with ⟨i, hilen, hieq⟩
      subst hieq
      rw [treeKeys_stable f (hch i hilen) (by omega)]

/-- Every key of a `Good` subtree lies within its bounds. -/
theorem treeKeys_bounds {M : Int} {pages : List (Nat × Node)} :
    ∀ (f : Nat) {p : Nat} {lo hi : Option Int} {h : Nat} {S : Finset Nat},
    Good M pages p lo hi h S →
    ∀ x ∈ treeKeys pages f p, inB lo hi x
  | 0, p, _, _, _, _, _, x, hx => by simp [treeKeys] at hx
  | f + 1, p, lo, hi, h, S, hg, x, hx => by
    cases hg with
    | leaf _ n _ _ _ hl hpid hleaf _ _ hb =>
      rw [treeKeys_leaf_eq f hl hleaf] at hx
      exact hb x hx
    | node _ n _ _ h' Ss hl hpid hleaf hM hsort hb hcl hsl hch hnp hdisj =>
      rw [treeKeys_node_eq f hl hleaf] at hx
      rcases List.mem_append.mp hx with hk | hfl
      · exact hb x hk
      · rcases List.mem_flatten.mp hfl with ⟨l, hlmem, hxl⟩
        rcases List.mem_map.mp hlmem with ⟨c, hc, hcl⟩
        subst hcl
        rcases mem_getD_form 0 hc with ⟨i, hilen, hieq⟩
        subst hieq
        have hxin := treeKeys_bounds f (hch i hilen) x hxl
        constructor
        · rcases hxin with ⟨hxlo, _⟩
          unfold boundL at hxlo
          by_cases hi0 : i = 0
          · rw [if_pos hi0] at hxlo; exact hxlo
          · rw [if_neg hi0] at hxlo
            have hmem : n.keys.getD (i - 1) 0 ∈ n.keys :=
              mem_of_getD (by omega)
            exact okLo_trans (hb _ hmem).1 hxlo
        · rcases hxin with ⟨_, hxhi⟩
          unfold boundR at hxhi
          by_cases hik : i = n.keys.length
          · rw [if_pos hik] at hxhi; exact hxhi
          · rw [if_neg hik] at hxhi
            have hmem : n.keys.getD i 0 ∈ n.keys :=
              mem_of_getD (by omega)
            exact okHi_trans (hb _ hmem).2 hxhi

/-! ### Search correctness: membership implies found -/

theorem searchGo_succ_some {s : NodeStore} {key : Int} {f p : Nat}
    {path : List (Nat × Nat)} {n : Node} (hl : loadNode s p = some n) :
    searchGo s key (f + 1) p path =
      (if bisect_left n.keys key < n.keys.length ∧
          n.keys.getD (bisect_left n.keys key) 0 = key then
        .ok (true, path ++ [(p, bisect_left n.keys key)])
      else if n.is_leaf then
        .ok (false, path ++ [(p, bisect_left n.keys key)])
      else
        match n.children[bisect_left n.keys key]? with
        | none => .error .indexError
        | some child =>
            searchGo s key f child (path ++ [(p, bisect_left n.keys key)])) := by
  rw [searchGo, hl]

theorem searchGo_succ_none {s : NodeStore} {key : Int} {f p : Nat}
    {path : List (Nat × Nat)} (hl : loadNode s p = none) :
    searchGo s key (f + 1) p path = .ok (false, path) := by
  rw [searchGo, hl]

/-- If `key` is among the keys of a `Good` subtree, the descent loop finds
it, given fuel exceeding the height. -/
theorem searchGo_finds {M : Int} {next : Nat} :
    ∀ (fuel : Nat) {pages : List (Nat × Node)} {p : Nat}
    {lo hi : Option Int} {h : Nat} {S : Finset Nat} {key : Int}
    (path : List (Nat × Nat)),
    Good M pages p lo hi h S → h + 1 ≤ fuel →
    key ∈ treeKeys pages (h + 1) p →
    ∃ pr, searchGo ⟨pages, next⟩ key fuel p path = .ok (true, pr)
  | 0, _, _, _, _, h, _, _, _, _, hf, _ => by omega
  | fuel + 1, pages, p, lo, hi, h, S, key, path, hg, hf, hx => by
    have hload : loadNode ⟨pages, next⟩ p = pmLookup pages p := rfl
    cases hg with
    | leaf _ n _ _ _ hl hpid hleaf hM hsort hb =>
      rw [treeKeys_leaf_eq h hl hleaf] at hx
      have hfound := sorted_getD_countLt hsort hx
      rw [searchGo_succ_some (hload.trans hl)]
      rw [bisect_left_eq_countP hsort]
      rw [if_pos hfound]
      exact ⟨_, rfl⟩
    | node _ n _ _ h' Ss hl hpid hleaf hM hsort hb hcl hsl hch hnp hdisj =>
      rw [treeKeys_node_eq (h' + 1) hl hleaf] at hx
      by_cases hkmem : key ∈ n.keys
      · have hfound := sorted_getD_countLt hsort hkmem
        rw [searchGo_succ_some (hload.trans hl)]
        rw [bisect_left_eq_countP hsort]
        rw [if_pos hfound]
        exact ⟨_, rfl⟩
      · have hfl : key ∈ (n.children.map (treeKeys pages (h' + 1))).flatten := by
          rcases List.mem_append.mp hx with hk | hfl
          · exact absurd hk hkmem
          · exact hfl
        rcases List.mem_flatten.mp hfl with ⟨l, hlmem, hxl⟩
        rcases List.mem_map.mp hlmem with ⟨c, hcmem, hcl⟩
        subst hcl
        rcases mem_getD_form 0 hcmem with ⟨i, hilen, hieq⟩
        subst hieq
        -- key lies strictly between the separators around child `i`
        have hkb := treeKeys_bounds (h' + 1) (hch i hilen) key hxl
        have hki : n.keys.countP (fun k => decide (k < key)) = i := by
          apply countP_eq_of_pointwise
          · omega
          · intro j hj
            have hij : i - 1 < n.keys.length := by omega
            have h1 : n.keys.getD (i - 1) 0 ≤ key := by
              have := hkb.1
              unfold boundL at this
              rw [if_neg (by omega)] at this
              exact this
            have h2 : n.keys.getD (i - 1) 0 ≠ key := by
              intro he
              exact hkmem (he ▸ mem_of_getD hij)
            have h3 : n.keys.getD j 0 ≤ n.keys.getD (i - 1) 0 :=
              sorted_getD_le hsort (by omega) hij
            simp only [decide_eq_true_eq]
            omega
          · intro j hj hjl
            have hil : i < n.keys.length := by omega
            have h1 : key ≤ n.keys.getD i 0 := by
              have := hkb.2
              unfold boundR at this
              rw [if_neg (by omega)] at this
              exact this
            have h2 : n.keys.getD i 0 ≠ key := by
              intro he
              exact hkmem (he ▸ mem_of_getD hil)
            have h3 : n.keys.getD i 0 ≤ n.keys.getD j 0 :=
              sorted_getD_le hsort hj hjl
            simp only [decide_eq_true_eq]
            omega
        rw [searchGo_succ_some (hload.trans hl)]
        rw [bisect_left_eq_countP hsort, hki]
        rw [if_neg ?hniff]
        case hniff =>
          intro hcon
          exact hkmem (hcon.2 ▸ mem_of_getD hcon.1)
        rw [if_neg (by simp [hleaf])]
        have hgetI : n.children[i]? = some (n.children.getD i 0) := by
          rw [List.getElem?_eq_getElem hilen, getD_eq_getElem _ 0 hilen]
        rw [hgetI]
        exact searchGo_finds fuel _ (hch i hilen) (by omega) hxl

/-! ### Helper lemmas for the split proof -/

theorem okLo_boundL {lo hi : Option Int} {ks : List Int} {i : Nat}
    (hb : ∀ k ∈ ks, inB lo hi k) (hle : i ≤ ks.length) {x : Int}
    (hx : okLo (boundL lo ks i) x) : okLo lo x := by
  unfold boundL at hx
  by_cases h0 : i = 0
  · rw [if_pos h0] at hx; exact hx
  · rw [if_neg h0] at hx
    exact okLo_trans (hb _ (mem_of_getD (by omega))).1 hx

theorem okHi_boundR {lo hi : Option Int} {ks : List Int} {i : Nat}
    (hb : ∀ k ∈ ks, inB lo hi k) (hle : i ≤ ks.length) {x : Int}
    (hx : okHi x (boundR ks hi i)) : okHi x hi := by
  unfold boundR at hx
  by_cases h0 : i = ks.length
  · rw [if_pos h0] at hx; exact hx
  · rw [if_neg h0] at hx
    exact okHi_trans (hb _ (mem_of_getD (by omega))).2 hx

theorem sorted_take {a : List Int} (hs : List.Sorted (· ≤ ·) a) (m : Nat) :
    List.Sorted (· ≤ ·) (a.take m) := hs.sublist (List.take_sublist m a)

theorem sorted_drop {a : List Int} (hs : List.Sorted (· ≤ ·) a) (m : Nat) :
    List.Sorted (· ≤ ·) (a.drop m) := hs.sublist (List.drop_sublist m a)

theorem pyInsertAt_sorted {ks : List Int} {x : Int} {i : Nat}
    (hs : List.Sorted (· ≤ ·) ks) (hi : i ≤ ks.length)
    (h1 : i ≠ 0 → ks.getD (i - 1) 0 ≤ x)
    (h2 : i < ks.length → x ≤ ks.getD i 0) :
    List.Sorted (· ≤ ·) (pyInsertAt ks i x) := by
  unfold pyInsertAt
  rw [List.Sorted, List.pairwise_append]
  refine ⟨sorted_take hs i, ?_, ?_⟩
  · rw [List.pairwise_cons]
    refine ⟨?_, sorted_drop hs i⟩
    intro y hy
    rcases mem_getD_form 0 hy with ⟨j, hj, hjy⟩
    have hjlen : i + j < ks.length := by simp at hj; omega
    rw [getD_drop ks i j 0 hjlen] at hjy
    have hxi : x ≤ ks.getD i 0 := h2 (by omega)
    have hmono : ks.getD i 0 ≤ ks.getD (i + j) 0 :=
      sorted_getD_le hs (by omega) hjlen
    omega
  · intro y hy z hz
    rcases mem_getD_form 0 hy with ⟨j, hj, hjy⟩
    have hji : j < i := by simp at hj; omega
    have hjlen : j < ks.length := by omega
    rw [getD_take ks i j 0 hji hjlen] at hjy
    have hyi : ks.getD j 0 ≤ ks.getD (i - 1) 0 :=
      sorted_getD_le hs (by omega) (by omega)
    have hix : ks.getD (i - 1) 0 ≤ x := h1 (by omega)
    rcases List.mem_cons.mp hz with hzx | hzd
    · subst hzx; omega
    · rcases mem_getD_form 0 hzd with ⟨j2, hj2, hj2z⟩
      have hj2len : i + j2 < ks.length := by simp at hj2; omega
      rw [getD_drop ks i j2 0 hj2len] at hj2z
      have hxz : x ≤ ks.getD i 0 := h2 (by omega)
      have hmono : ks.getD i 0 ≤ ks.getD (i + j2) 0 :=
        sorted_getD_le hs (by omega) hj2len
      omega

theorem getD_set_self {β : Type} (l : List β) (i : Nat) (v d : β)
    (h : i < l.length) : (l.set i v).getD i d = v := by
  rw [getD_eq_getElem _ d (by simpa using h)]
  exact List.getElem_set_self _

theorem getD_set_ne {β : Type} (l : List β) {i j : Nat} (v d : β)
    (h : j ≠ i) : (l.set i v).getD j d = l.getD j d := by
  by_cases hj : j < l.length
  · rw [getD_eq_getElem _ d (by simpa using hj),
      getD_eq_getElem l d hj]
    exact List.getElem_set_ne (Ne.symm h) _
  · have hlen : (l.set i v).length ≤ j := by
      rw [List.length_set]; omega
    have h1 : (l.set i v).getD j d = d := by
      simp [List.getD, List.getElem?_eq_none hlen]
    have h2 : l.getD j d = d := by
      simp [List.getD, List.getElem?_eq_none (not_lt.mp hj)]
    rw [h1, h2]

theorem unionFS_append (l₁ l₂ : List (Finset Nat)) :
    unionFS (l₁ ++ l₂) = unionFS l₁ ∪ unionFS l₂ := by
  induction l₁ with
  | nil => simp [unionFS]
  | cons T Ts ih =>
    unfold unionFS at ih ⊢
    simp only [List.cons_append, List.foldr_cons]
    rw [ih, Finset.union_assoc]

theorem pairwise_disjoint_getElem {Ss : List (Finset Nat)}
    (h : List.Pairwise Disjoint Ss) {i j : Nat} (hij : i ≠ j)
    (hi : i < Ss.length) (hj : j < Ss.length) :
    Disjoint (Ss.getD i ∅) (Ss.getD j ∅) := by
  rw [getD_eq_getElem _ ∅ hi, getD_eq_getElem _ ∅ hj]
  rcases Nat.lt_or_ge i j with hlt | hge
  · exact (List.pairwise_iff_getElem.mp h) i j hi hj hlt
  · have hlt : j < i := by omega
    exact ((List.pairwise_iff_getElem.mp h) j i hj hi hlt).symm

/-- Coercion helpers: lists to multisets of keys. -/
theorem mcoe_append (l₁ l₂ : List Int) :
    ((l₁ ++ l₂ : List Int) : Multiset Int) = ↑l₁ + ↑l₂ :=
  (Multiset.coe_add l₁ l₂).symm

theorem mcoe_cons (x : Int) (l : List Int) :
    ((x :: l : List Int) : Multiset Int) = {x} + ↑l := by
  rw [← Multiset.cons_coe, ← Multiset.singleton_add]

theorem mem_take_of_sorted_le {a : List Int} (hs : List.Sorted (· ≤ ·) a)
    {m : Nat} (hm : m < a.length) {y : Int} (hy : y ∈ a.take m) :
    y ≤ a.getD m 0 := by
  rcases mem_getD_form 0 hy with ⟨j, hj, hjy⟩
  have hjm : j < m := by simp at hj; omega
  rw [getD_take a m j 0 hjm (by omega)] at hjy
  rw [← hjy]
  exact sorted_getD_le hs (by omega) hm

theorem mem_drop_of_sorted_ge {a : List Int} (hs : List.Sorted (· ≤ ·) a)
    {m d : Nat} (hm : m < a.length) (hmd : m ≤ d) {y : Int}
    (hy : y ∈ a.drop d) : a.getD m 0 ≤ y := by
  rcases mem_getD_form 0 hy with ⟨j, hj, hjy⟩
  have hjlen : d + j < a.length := by simp at hj; omega
  rw [getD_drop a d j 0 hjlen] at hjy
  rw [← hjy]
  exact sorted_getD_le hs (by omega) hjlen

theorem take_succ_getD {α : Type} (l : List α) (i : Nat) (d : α)
    (h : i < l.length) : l.take (i + 1) = l.take i ++ [l.getD i d] := by
  rw [List.take_succ, List.getElem?_eq_getElem h, getD_eq_getElem l d h]
  rfl

theorem drop_cons_getD {α : Type} (l : List α) (i : Nat) (d : α)
    (h : i < l.length) : l.drop i = l.getD i d :: l.drop (i + 1) := by
  rw [getD_eq_getElem l d h]
  exact List.drop_eq_getElem_cons h

/-- Splitting a list of keys at `spiN` decomposes its multiset. -/
theorem keys_split_multiset (ks : List Int) (spiN : Nat)
    (h : spiN < ks.length) :
    (ks : Multiset Int) =
      ↑(ks.take spiN) + {ks.getD spiN 0} + ↑(ks.drop (spiN + 1)) := by
  conv_lhs => rw [← List.take_append_drop spiN ks]
  rw [drop_cons_getD ks spiN 0 h]
  rw [mcoe_append, mcoe_cons]
  abel

/-- After a full child at `cid` is split into `left` (stored back at `cid`)
and `right` (stored at a fresh page `rid`), both halves are `Good` against
the promoted key, and together with the promoted key they carry the same
key multiset as the original child. -/
theorem splitchild_good {M : Int} {pages pages' : List (Nat × Node)}
    {cid rid : Nat} {loC hiC : Option Int} {H : Nat} {SC : Finset Nat}
    {c left right : Node} {spiN : Nat}
    (hgC : Good M pages cid loC hiC H SC)
    (hcLoad : pmLookup pages cid = some c)
    (hspi1 : 1 ≤ spiN) (hspi2 : spiN + 2 ≤ c.keys.length)
    (hleft : left = { c with keys := c.keys.take spiN, children := if c.is_leaf then c.children else c.children.take (spiN + 1) })
    (hright : right = { page_id := some rid, max_keys_per_node := c.max_keys_per_node, is_leaf := c.is_leaf, keys := c.keys.drop (spiN + 1), children := if c.is_leaf then [] else c.children.drop (spiN + 1) })
    (hlookL : pmLookup pages' cid = some left)
    (hlookR : pmLookup pages' rid = some right)
    (hframe : ∀ q ∈ SC, q ≠ cid → pmLookup pages' q = pmLookup pages q)
    (hridSC : rid ∉ SC) :
    ∃ SL SR : Finset Nat,
      Good M pages' cid loC (some (c.keys.getD spiN 0)) H SL ∧
      Good M pages' rid (some (c.keys.getD spiN 0)) hiC H SR ∧
      cid ∈ SL ∧ rid ∈ SR ∧ SL ∪ SR = insert rid SC ∧ Disjoint SL SR ∧
      ((treeKeys pages' (H + 1) cid : Multiset Int) +
        (treeKeys pages' (H + 1) rid : Multiset Int) +
        {c.keys.getD spiN 0}
        = (treeKeys pages (H + 1) cid : Multiset Int)) := by
  cases hgC with
  | leaf _ n _ _ _ hl hpid hcleaf hM hsort hb =>
    have hnc : n = c := by rw [hl] at hcLoad; exact Option.some.inj hcLoad
    subst hnc
    have hLleaf : left.is_leaf = true := by rw [hleft]; exact hcleaf
    have hRleaf : right.is_leaf = true := by rw [hright]; exact hcleaf
    have hLkeys : left.keys = n.keys.take spiN := by rw [hleft]
    have hRkeys : right.keys = n.keys.drop (spiN + 1) := by rw [hright]
    refine ⟨{cid}, {rid}, ?_, ?_, Finset.mem_singleton_self cid,
      Finset.mem_singleton_self rid, ?_, ?_, ?_⟩
    · refine Good.leaf cid left loC _ H hlookL ?_ hLleaf ?_ ?_ ?_
      · rw [hleft]; exact hpid
      · rw [hleft]; exact hM
      · rw [hLkeys]; exact sorted_take hsort spiN
      · rw [hLkeys]
        intro k hk
        exact ⟨(hb k (List.mem_of_mem_take hk)).1,
          mem_take_of_sorted_le hsort (by omega) hk⟩
    · refine Good.leaf rid right _ _ H hlookR ?_ hRleaf ?_ ?_ ?_
      · rw [hright]
      · rw [hright]; exact hM
      · rw [hRkeys]; exact sorted_drop hsort (spiN + 1)
      · rw [hRkeys]
        intro k hk
        exact ⟨mem_drop_of_sorted_ge hsort (by omega) (by omega) hk,
          (hb k (List.mem_of_mem_drop hk)).2⟩
    · rw [Finset.insert_eq, Finset.union_comm]
    · have hne : rid ≠ cid := by
        intro he; subst he; exact hridSC (Finset.mem_singleton_self rid)
      simp [Finset.disjoint_singleton, hne, Ne.symm hne]
    · rw [treeKeys_leaf_eq H hlookL hLleaf, treeKeys_leaf_eq H hlookR hRleaf,
        treeKeys_leaf_eq H hl hcleaf, hLkeys, hRkeys]
      rw [keys_split_multiset n.keys spiN (by omega)]
      abel
  | node _ n _ _ h₀ Ts hl hpid hcleaf hM hsort hb hcl hsl hch hnp hdisj =>
    have hnc : n = c := by rw [hl] at hcLoad; exact Option.some.inj hcLoad
    subst hnc
    have hLleaf : left.is_leaf = false := by rw [hleft]; exact hcleaf
    have hRleaf : right.is_leaf = false := by rw [hright]; exact hcleaf
    have hLkeys : left.keys = n.keys.take spiN := by rw [hleft]
    have hRkeys : right.keys = n.keys.drop (spiN + 1) := by rw [hright]
    have hLch : left.children = n.children.take (spiN + 1) := by
      rw [hleft]; simp [hcleaf]
    have hRch : right.children = n.children.drop (spiN + 1) := by
      rw [hright]; simp [hcleaf]
    have hcidrid : cid ≠ rid := by
      intro he; subst he; exact hridSC (Finset.mem_insert_self _ _)
    have hgch' : ∀ j, j < n.children.length →
        Good M pages' (n.children.getD j 0) (boundL loC n.keys j)
          (boundR n.keys hiC j) h₀ (Ts.getD j ∅) := by
      intro j hj
      refine good_frame (hch j hj) ?_
      intro q hq
      refine hframe q (Finset.mem_insert_of_mem (mem_unionFS (by omega) hq)) ?_
      intro he; subst he; exact hnp j hj hq
    have htkgch : ∀ j, j < n.children.length →
        treeKeys pages' (h₀ + 1) (n.children.getD j 0) =
        treeKeys pages (h₀ + 1) (n.children.getD j 0) := by
      intro j hj
      refine treeKeys_frame (h₀ + 1) (hch j hj) ?_
      intro q hq
      refine hframe q (Finset.mem_insert_of_mem (mem_unionFS (by omega) hq)) ?_
      intro he; subst he; exact hnp j hj hq
    refine ⟨insert cid (unionFS (Ts.take (spiN + 1))),
      insert rid (unionFS (Ts.drop (spiN + 1))), ?_, ?_,
      Finset.mem_insert_self _ _, Finset.mem_insert_self _ _, ?_, ?_, ?_⟩
    · -- the left half is Good
      refine Good.node cid left loC _ h₀ (Ts.take (spiN + 1)) hlookL ?_
        hLleaf ?_ ?_ ?_ ?_ ?_ ?_ ?_ ?_
      · rw [hleft]; exact hpid
      · rw [hleft]; exact hM
      · rw [hLkeys]; exact sorted_take hsort spiN
      · rw [hLkeys]
        intro k hk
        exact ⟨(hb k (List.mem_of_mem_take hk)).1,
          mem_take_of_sorted_le hsort (by omega) hk⟩
      · rw [hLch, hLkeys, List.length_take, List.length_take]
        omega
      · rw [hLch, List.length_take, List.length_take]
        omega
      · intro j hj
        rw [hLch, List.length_take] at hj
        have hjlt : j < spiN + 1 := by omega
        have hjc : j < n.children.length := by omega
        have hgetc : left.children.getD j 0 = n.children.getD j 0 := by
          rw [hLch]; exact getD_take _ _ _ _ hjlt hjc
        have hgets : (Ts.take (spiN + 1)).getD j ∅ = Ts.getD j ∅ :=
          getD_take _ _ _ _ hjlt (by omega)
        have hbl : boundL loC left.keys j = boundL loC n.keys j := by
          unfold boundL
          by_cases h0 : j = 0
          · rw [if_pos h0, if_pos h0]
          · rw [if_neg h0, if_neg h0, hLkeys]
            rw [getD_take _ _ _ _ (by omega) (by omega)]
        have hbr : boundR left.keys (some (n.keys.getD spiN 0)) j =
            boundR n.keys hiC j := by
          unfold boundR
          rw [hLkeys, List.length_take]
          by_cases hjs : j = spiN
          · rw [if_pos (by omega), if_neg (by omega), hjs]
          · rw [if_neg (by omega), if_neg (by omega)]
            rw [getD_take _ _ _ _ (by omega) (by omega)]
        rw [hgetc, hgets, hbl, hbr]
        exact hgch' j hjc
      · intro j hj
        rw [hLch, List.length_take] at hj
        have hjlt : j < spiN + 1 := by omega
        rw [getD_take _ _ _ _ hjlt (by omega)]
        exact hnp j (by omega)
      · exact hdisj.sublist (List.take_sublist _ _)
    · -- the right half is Good
      refine Good.node rid right _ _ h₀ (Ts.drop (spiN + 1)) hlookR ?_
        hRleaf ?_ ?_ ?_ ?_ ?_ ?_ ?_ ?_
      · rw [hright]
      · rw [hright]; exact hM
      · rw [hRkeys]; exact sorted_drop hsort (spiN + 1)
      · rw [hRkeys]
        intro k hk
        exact ⟨mem_drop_of_sorted_ge hsort (by omega) (by omega) hk,
          (hb k (List.mem_of_mem_drop hk)).2⟩
      · rw [hRch, hRkeys, List.length_drop, List.length_drop]
        omega
      · rw [hRch, List.length_drop, List.length_drop]
        omega
      · intro j hj
        rw [hRch, List.length_drop] at hj
        have hjc : spiN + 1 + j < n.children.length := by omega
        have hgetc : right.children.getD j 0 =
            n.children.getD (spiN + 1 + j) 0 := by
          rw [hRch]; exact getD_drop _ _ _ _ (by omega)
        have hgets : (Ts.drop (spiN + 1)).getD j ∅ =
            Ts.getD (spiN + 1 + j) ∅ :=
          getD_drop _ _ _ _ (by omega)
        have hbl : boundL (some (n.keys.getD spiN 0)) right.keys j =
            boundL loC n.keys (spiN + 1 + j) := by
          unfold boundL
          by_cases h0 : j = 0
          · rw [if_pos h0, if_neg (by omega), h0]
            have hidx : spiN + 1 + 0 - 1 = spiN := by omega
            rw [hidx]
          · rw [if_neg h0, if_neg (by omega), hRkeys]
            rw [getD_drop _ _ _ _ (by omega)]
            have hidx : spiN + 1 + (j - 1) = spiN + 1 + j - 1 := by omega
            rw [hidx]
        have hbr : boundR right.keys hiC j =
            boundR n.keys hiC (spiN + 1 + j) := by
          unfold boundR
          rw [hRkeys, List.length_drop]
          by_cases hjs : j = n.keys.length - (spiN + 1)
          · rw [if_pos (by omega), if_pos (by omega)]
          · rw [if_neg (by omega), if_neg (by omega)]
            rw [getD_drop _ _ _ _ (by omega)]
        rw [hgetc, hgets, hbl, hbr]
        exact hgch' (spiN + 1 + j) hjc
      · intro j hj
        rw [hRch, List.length_drop] at hj
        rw [getD_drop _ _ _ _ (by omega)]
        intro hq
        exact hridSC (Finset.mem_insert_of_mem (mem_unionFS (by omega) hq))
      · exact hdisj.sublist (List.drop_sublist _ _)
    · -- the two footprints cover the old one plus the fresh page
      rw [Finset.ext_iff]
      intro q
      simp only [Finset.mem_union, Finset.mem_insert]
      constructor
      · rintro ((hq | hq) | (hq | hq))
        · exact Or.inr (Or.inl hq)
        · refine Or.inr (Or.inr ?_)
          rcases unionFS_mem_inv hq with ⟨j, hj, hqj⟩
          rw [List.length_take] at hj
          rw [getD_take _ _ _ _ (by omega) (by omega)] at hqj
          exact mem_unionFS (by omega) hqj
        · exact Or.inl hq
        · refine Or.inr (Or.inr ?_)
          rcases unionFS_mem_inv hq with ⟨j, hj, hqj⟩
          rw [List.length_drop] at hj
          rw [getD_drop _ _ _ _ (by omega)] at hqj
          exact mem_unionFS (by omega) hqj
      · rintro (hq | (hq | hq))
        · exact Or.inr (Or.inl hq)
        · exact Or.inl (Or.inl hq)
        · rcases unionFS_mem_inv hq with ⟨j, hj, hqj⟩
          by_cases hjs : j < spiN + 1
          · refine Or.inl (Or.inr ?_)
            have hrw : (Ts.take (spiN + 1)).getD j ∅ = Ts.getD j ∅ :=
              getD_take _ _ _ _ hjs (by omega)
            exact mem_unionFS (i := j) (by rw [List.length_take]; omega)
              (by rw [hrw]; exact hqj)
          · refine Or.inr (Or.inr ?_)
            have hrw : (Ts.drop (spiN + 1)).getD (j - (spiN + 1)) ∅ =
                Ts.getD j ∅ := by
              rw [getD_drop _ _ _ _ (by omega)]
              have hidx : spiN + 1 + (j - (spiN + 1)) = j := by omega
              rw [hidx]
            exact mem_unionFS (i := j - (spiN + 1))
              (by rw [List.length_drop]; omega) (by rw [hrw]; exact hqj)
    · -- disjointness of the two footprints
      rw [Finset.disjoint_left]
      intro q hq hq'
      rcases Finset.mem_insert.mp hq with hqc | hqU
      · subst hqc
        rcases Finset.mem_insert.mp hq' with hqr | hqU'
        · exact hcidrid hqr
        · rcases unionFS_mem_inv hqU' with ⟨j, hj, hqj⟩
          rw [List.length_drop] at hj
          rw [getD_drop _ _ _ _ (by omega)] at hqj
          exact hnp (spiN + 1 + j) (by omega) hqj
      · rcases Finset.mem_insert.mp hq' with hqr | hqU'
        · subst hqr
          rcases unionFS_mem_inv hqU with ⟨j, hj, hqj⟩
          rw [List.length_take] at hj
          rw [getD_take _ _ _ _ (by omega) (by omega)] at hqj
          exact hridSC
            (Finset.mem_insert_of_mem (mem_unionFS (by omega) hqj))
        · rcases unionFS_mem_inv hqU with ⟨j, hj, hqj⟩
          rcases unionFS_mem_inv hqU' with ⟨j', hj', hqj'⟩
          rw [List.length_take] at hj
          rw [List.length_drop] at hj'
          rw [getD_take _ _ _ _ (by omega) (by omega)] at hqj
          rw [getD_drop _ _ _ _ (by omega)] at hqj'
          have hne : j ≠ spiN + 1 + j' := by omega
          exact Finset.disjoint_left.mp
            (pairwise_disjoint_getElem hdisj hne (by omega) (by omega))
            hqj hqj'
    · -- key multiset preservation
      have htkL := treeKeys_node_eq (f := h₀ + 1) hlookL hLleaf
      have htkR := treeKeys_node_eq (f := h₀ + 1) hlookR hRleaf
      have htkO := treeKeys_node_eq (f := h₀ + 1) hl hcleaf
      have hmapL : left.children.map (treeKeys pages' (h₀ + 1)) =
          (n.children.take (spiN + 1)).map (treeKeys pages (h₀ + 1)) := by
        rw [hLch]
        apply List.map_congr_left
        intro cpg hcpg
        rcases mem_getD_form 0 hcpg with ⟨j, hj, hjq⟩
        rw [List.length_take] at hj
        rw [getD_take _ _ _ _ (by omega) (by omega)] at hjq
        subst hjq
        exact htkgch j (by omega)
      have hmapR : right.children.map (treeKeys pages' (h₀ + 1)) =
          (n.children.drop (spiN + 1)).map (treeKeys pages (h₀ + 1)) := by
        rw [hRch]
        apply List.map_congr_left
        intro cpg hcpg
        rcases mem_getD_form 0 hcpg with ⟨j, hj, hjq⟩
        rw [List.length_drop] at hj
        rw [getD_drop _ _ _ _ (by omega)] at hjq
        subst hjq
        exact htkgch (spiN + 1 + j) (by omega)
      have hsplitch : n.children.map (treeKeys pages (h₀ + 1)) =
          (n.children.take (spiN + 1)).map (treeKeys pages (h₀ + 1)) ++
          (n.children.drop (spiN + 1)).map (treeKeys pages (h₀ + 1)) := by
        rw [← List.map_append, List.take_append_drop]
      rw [htkL, htkR, htkO, hmapL, hmapR, hLkeys, hRkeys, hsplitch]
      rw [List.flatten_append]
      rw [mcoe_append, mcoe_append, mcoe_append, mcoe_append]
      rw [keys_split_multiset n.keys spiN (by omega)]
      abel

/-- Computation of `Node.split_into_two_nodes` on a full node with
`max_keys_per_node ≥ 3`: the split index is in range, so the method
returns the promoted key `keys[spiN]`, the truncated left node and the
fresh right sibling, where `spiN` is `min_degree - 1` as a natural
number. -/
theorem split_full_spec {n : Node} {spiN : Nat}
    (hM : 3 ≤ n.max_keys_per_node)
    (hfull : n.max_keys_per_node ≤ (n.keys.length : Int))
    (hspi : (spiN : Int) = n.min_degree_from_capacity - 1) :
    n.split_into_two_nodes = .ok (n.keys.getD spiN 0,
      { n with keys := n.keys.take spiN, children := if n.is_leaf then n.children else n.children.take (spiN + 1) },
      { page_id := none, max_keys_per_node := n.max_keys_per_node, is_leaf := n.is_leaf, keys := n.keys.drop (spiN + 1), children := if n.is_leaf then [] else n.children.drop (spiN + 1) }) ∧
    1 ≤ spiN ∧ spiN + 2 ≤ n.keys.length := by
  have htdef : n.min_degree_from_capacity = (n.max_keys_per_node + 1) / 2 :=
    rfl
  rw [htdef] at hspi
  have hb1 : 1 ≤ spiN := by omega
  have hb2 : (spiN : Int) + 2 ≤ n.max_keys_per_node := by omega
  have hb3 : spiN + 2 ≤ n.keys.length := by omega
  refine ⟨?_, hb1, hb3⟩
  have e1 : pyGetInt n.keys (n.min_degree_from_capacity - 1) =
      .ok (n.keys.getD spiN 0) := by
    unfold pyGetInt
    rw [htdef, if_pos (by omega)]
    unfold pyGet
    have htn : ((n.max_keys_per_node + 1) / 2 - 1).toNat = spiN := by omega
    rw [htn]
    rw [List.getElem?_eq_getElem (by omega), getD_eq_getElem n.keys 0 (by omega)]
  have e2 : mkNode n.max_keys_per_node n.is_leaf none =
      .ok { page_id := none, max_keys_per_node := n.max_keys_per_node, is_leaf := n.is_leaf, keys := [], children := [] } := by
    unfold mkNode
    rw [if_neg (by omega)]
  have e3 : pySliceFrom n.keys (n.min_degree_from_capacity - 1 + 1) =
      n.keys.drop (spiN + 1) := by
    unfold pySliceFrom
    rw [htdef, if_pos (by omega)]
    congr 1
    omega
  have e4 : pySliceFrom n.children (n.min_degree_from_capacity - 1 + 1) =
      n.children.drop (spiN + 1) := by
    unfold pySliceFrom
    rw [htdef, if_pos (by omega)]
    congr 1
    omega
  have e5 : pySliceTo n.keys (n.min_degree_from_capacity - 1) =
      n.keys.take spiN := by
    unfold pySliceTo
    rw [htdef, if_pos (by omega)]
    congr 1
    omega
  have e6 : pySliceTo n.children (n.min_degree_from_capacity - 1 + 1) =
      n.children.take (spiN + 1) := by
    unfold pySliceTo
    rw [htdef, if_pos (by omega)]
    congr 1
    omega
  simp only [Node.split_into_two_nodes]
  rw [e1, e2]
  show Except.ok _ = Except.ok _
  rw [e3, e4, e5, e6]

/-- Member characterization of `pyInsertAt`. -/
theorem mem_pyInsertAt {α : Type} {l : List α} {i : Nat} {x k : α}
    (h : k ∈ pyInsertAt l i x) : k = x ∨ k ∈ l := by
  have := (pyInsertAt_perm l i x).mem_iff.mp h
  simpa using this

/-- Rebuilding the parent's `Good` after a child split: the parent node
`n'` holds the promoted key at position `ci` and the fresh sibling's page
id at position `ci + 1`; child `ci` is now `Good` against the promoted key
from the left and the sibling from the right. -/
theorem good_insert_sep {M : Int} {pages : List (Nat × Node)} {p : Nat}
    {lo hi : Option Int} {H : Nat} {n n' : Node} {Ss : List (Finset Nat)}
    {ci : Nat} {kstar : Int} {rid : Nat} {SL SR : Finset Nat}
    (hl' : pmLookup pages p = some n')
    (hpid' : n'.page_id = some p) (hleaf' : n'.is_leaf = false)
    (hM' : n'.max_keys_per_node = M)
    (hkeys' : n'.keys = pyInsertAt n.keys ci kstar)
    (hchn' : n'.children = pyInsertAt n.children (ci + 1) rid)
    (hsort : List.Sorted (· ≤ ·) n.keys)
    (hb : ∀ k ∈ n.keys, inB lo hi k)
    (hkstarB : inB lo hi kstar)
    (hkL : ci ≠ 0 → n.keys.getD (ci - 1) 0 ≤ kstar)
    (hkR : ci < n.keys.length → kstar ≤ n.keys.getD ci 0)
    (hcl : n.children.length = n.keys.length + 1)
    (hsl : Ss.length = n.children.length)
    (hci : ci < n.children.length)
    (hgs : ∀ i, i < n.children.length → i ≠ ci →
      Good M pages (n.children.getD i 0) (boundL lo n.keys i)
        (boundR n.keys hi i) H (Ss.getD i ∅))
    (hgL : Good M pages (n.children.getD ci 0) (boundL lo n.keys ci)
      (some kstar) H SL)
    (hgR : Good M pages rid (some kstar) (boundR n.keys hi ci) H SR)
    (hnps : ∀ i, i < n.children.length → i ≠ ci → p ∉ Ss.getD i ∅)
    (hnpL : p ∉ SL) (hnpR : p ∉ SR)
    (hdisj' : List.Pairwise Disjoint (pyInsertAt (Ss.set ci SL) (ci + 1) SR)) :
    Good M pages p lo hi (H + 1)
      (insert p (unionFS (pyInsertAt (Ss.set ci SL) (ci + 1) SR))) := by
  have hcik : ci ≤ n.keys.length := by omega
  have hkeyslen : n'.keys.length = n.keys.length + 1 := by
    rw [hkeys']; exact pyInsertAt_length _ _ _ hcik
  have hchlen : n'.children.length = n.children.length + 1 := by
    rw [hchn']; exact pyInsertAt_length _ _ _ (by omega)
  have hslen : (Ss.set ci SL).length = Ss.length := List.length_set _ _ _
  refine Good.node p n' lo hi H (pyInsertAt (Ss.set ci SL) (ci + 1) SR)
    hl' hpid' hleaf' hM' ?_ ?_ ?_ ?_ ?_ ?_ hdisj'
  · rw [hkeys']
    exact pyInsertAt_sorted hsort hcik hkL hkR
  · intro k hk
    rw [hkeys'] at hk
    rcases mem_pyInsertAt hk with hkx | hkm
    · subst hkx; exact hkstarB
    · exact hb k hkm
  · omega
  · rw [pyInsertAt_length _ _ _ (by omega), hslen]
    omega
  · intro j hj
    rw [hchlen] at hj
    have hSget : ∀ jj, jj < ci + 1 → jj < Ss.length →
        (pyInsertAt (Ss.set ci SL) (ci + 1) SR).getD jj ∅ =
          (Ss.set ci SL).getD jj ∅ := by
      intro jj h1 h2
      exact pyInsertAt_getD_lt _ _ _ _ h1 (by omega)
    rcases Nat.lt_trichotomy j ci with hjci | hjci
    · -- j < ci: untouched child
      have hc : n'.children.getD j 0 = n.children.getD j 0 := by
        rw [hchn']; apply pyInsertAt_getD_lt <;> omega
      have hS : (pyInsertAt (Ss.set ci SL) (ci + 1) SR).getD j ∅ =
          Ss.getD j ∅ := by
        rw [hSget j (by omega) (by omega)]
        apply getD_set_ne <;> omega
      have hbl : boundL lo n'.keys j = boundL lo n.keys j := by
        unfold boundL
        by_cases h0 : j = 0
        · rw [if_pos h0, if_pos h0]
        · rw [if_neg h0, if_neg h0, hkeys']
          exact congrArg some (by apply pyInsertAt_getD_lt <;> omega)
      have hbr : boundR n'.keys hi j = boundR n.keys hi j := by
        unfold boundR
        rw [hkeyslen]
        rw [if_neg (by omega), if_neg (by omega), hkeys']
        exact congrArg some (by apply pyInsertAt_getD_lt <;> omega)
      rw [hc, hS, hbl, hbr]
      exact hgs j (by omega) (by omega)
    rcases hjci with hjci | hjci
    · -- j = ci: the left half
      subst hjci
      have hc : n'.children.getD j 0 = n.children.getD j 0 := by
        rw [hchn']; apply pyInsertAt_getD_lt <;> omega
      have hS : (pyInsertAt (Ss.set j SL) (j + 1) SR).getD j ∅ = SL := by
        rw [hSget j (by omega) (by omega)]
        exact getD_set_self _ _ _ _ (by omega)
      have hbl : boundL lo n'.keys j = boundL lo n.keys j := by
        unfold boundL
        by_cases h0 : j = 0
        · rw [if_pos h0, if_pos h0]
        · rw [if_neg h0, if_neg h0, hkeys']
          exact congrArg some (by apply pyInsertAt_getD_lt <;> omega)
      have hbr : boundR n'.keys hi j = some kstar := by
        unfold boundR
        rw [hkeyslen, if_neg (by omega), hkeys']
        rw [pyInsertAt_getD_self _ _ _ _ hcik]
      rw [hc, hS, hbl, hbr]
      exact hgL
    · -- j = ci + 1 (the fresh sibling) or a shifted child
      rcases Nat.lt_trichotomy j (ci + 1) with hlt | hj1
      · omega
      rcases hj1 with hj1 | hgt
      · -- j = ci + 1: the right sibling
        subst hj1
        have hc : n'.children.getD (ci + 1) 0 = rid := by
          rw [hchn']
          exact pyInsertAt_getD_self _ _ _ _ (by omega)
        have hS : (pyInsertAt (Ss.set ci SL) (ci + 1) SR).getD (ci + 1) ∅ =
            SR := by
          exact pyInsertAt_getD_self _ _ _ _ (by omega)
        have hbl : boundL lo n'.keys (ci + 1) = some kstar := by
          unfold boundL
          rw [if_neg (by omega), hkeys']
          have : ci + 1 - 1 = ci := by omega
          rw [this, pyInsertAt_getD_self _ _ _ _ hcik]
        have hbr : boundR n'.keys hi (ci + 1) = boundR n.keys hi ci := by
          unfold boundR
          rw [hkeyslen]
          by_cases hce : ci = n.keys.length
          · rw [if_pos (by omega), if_pos hce]
          · rw [if_neg (by omega), if_neg hce, hkeys']
            have hg := pyInsertAt_getD_gt n.keys ci kstar 0
              (j := ci + 1) (by omega) (by omega)
            rw [hg]
            have : ci + 1 - 1 = ci := by omega
            rw [this]
        rw [hc, hS, hbl, hbr]
        exact hgR
      · -- j > ci + 1: untouched child shifted right by one
        have hc : n'.children.getD j 0 = n.children.getD (j - 1) 0 := by
          rw [hchn']
          apply pyInsertAt_getD_gt <;> omega
        have hS : (pyInsertAt (Ss.set ci SL) (ci + 1) SR).getD j ∅ =
            Ss.getD (j - 1) ∅ := by
          have h1 := pyInsertAt_getD_gt (Ss.set ci SL) (ci + 1) SR ∅
            (j := j) (by omega) (by omega)
          rw [h1]
          apply getD_set_ne <;> omega
        have hbl : boundL lo n'.keys j = boundL lo n.keys (j - 1) := by
          unfold boundL
          rw [if_neg (by omega), if_neg (by omega), hkeys']
          have h1 := pyInsertAt_getD_gt n.keys ci kstar 0
            (j := j - 1) (by omega) (by omega)
          rw [h1]
        have hbr : boundR n'.keys hi j = boundR n.keys hi (j - 1) := by
          unfold boundR
          rw [hkeyslen]
          by_cases hce : j - 1 = n.keys.length
          · rw [if_pos (by omega), if_pos hce]
          · rw [if_neg (by omega), if_neg hce, hkeys']
            have h1 := pyInsertAt_getD_gt n.keys ci kstar 0
              (j := j) (by omega) (by omega)
            rw [h1]
        rw [hc, hS, hbl, hbr]
        exact hgs (j - 1) (by omega) (by omega)
  · intro j hj
    rw [hchlen] at hj
    rcases Nat.lt_trichotomy j ci with hjci | hjci
    · have h1 : (pyInsertAt (Ss.set ci SL) (ci + 1) SR).getD j ∅ =
          (Ss.set ci SL).getD j ∅ := by
        apply pyInsertAt_getD_lt <;> omega
      have h2 : (Ss.set ci SL).getD j ∅ = Ss.getD j ∅ := by
        apply getD_set_ne <;> omega
      rw [h1, h2]
      exact hnps j (by omega) (by omega)
    rcases hjci with hjci | hjci
    · subst hjci
      have h1 : (pyInsertAt (Ss.set j SL) (j + 1) SR).getD j ∅ =
          (Ss.set j SL).getD j ∅ := by
        apply pyInsertAt_getD_lt <;> omega
      rw [h1, getD_set_self _ _ _ _ (by omega)]
      exact hnpL
    · rcases Nat.lt_trichotomy j (ci + 1) with hlt | hj1
      · omega
      rcases hj1 with hj1 | hgt
      · subst hj1
        rw [pyInsertAt_getD_self _ _ _ _ (by omega)]
        exact hnpR
      · have h1 : (pyInsertAt (Ss.set ci SL) (ci + 1) SR).getD j ∅ =
            (Ss.set ci SL).getD (j - 1) ∅ := by
          apply pyInsertAt_getD_gt <;> omega
        have h2 : (Ss.set ci SL).getD (j - 1) ∅ = Ss.getD (j - 1) ∅ := by
          apply getD_set_ne <;> omega
        rw [h1, h2]
        exact hnps (j - 1) (by omega) (by omega)

theorem good_fields {M : Int} {pages : List (Nat × Node)} {p : Nat}
    {lo hi : Option Int} {h : Nat} {S : Finset Nat} {n : Node}
    (hg : Good M pages p lo hi h S) (hl : pmLookup pages p = some n) :
    n.page_id = some p ∧ n.max_keys_per_node = M ∧
    List.Sorted (· ≤ ·) n.keys ∧ (∀ k ∈ n.keys, inB lo hi k) := by
  cases hg with
  | leaf _ m _ _ _ hl' hpid hleaf hM hsort hb =>
    have : m = n := by rw [hl'] at hl; exact Option.some.inj hl
    subst this
    exact ⟨hpid, hM, hsort, hb⟩
  | node _ m _ _ _ _ hl' hpid hleaf hM hsort hb _ _ _ _ _ =>
    have : m = n := by rw [hl'] at hl; exact Option.some.inj hl
    subst this
    exact ⟨hpid, hM, hsort, hb⟩

theorem pairwise_disjoint_of_getD {Ss : List (Finset Nat)}
    (h : ∀ i j, i < j → j < Ss.length →
      Disjoint (Ss.getD i ∅) (Ss.getD j ∅)) :
    List.Pairwise Disjoint Ss := by
  rw [List.pairwise_iff_getElem]
  intro i j hi hj hij
  have := h i j hij hj
  rwa [getD_eq_getElem _ ∅ hi, getD_eq_getElem _ ∅ hj] at this

/-- Full specification of `_split_full_child_of_parent` on a `Good`
internal parent (given by its components) whose `ci`-th child is full:
the call succeeds, allocates exactly the page `next_page_id` for the new
right sibling, rewrites the parent with the promoted key at position `ci`
and the sibling pointer at `ci + 1`, preserves `Good`-ness at the same
height and the tree's key multiset, and touches no page outside the
parent's footprint plus the fresh page. -/
theorem splitFullChildOfParent_spec {M : Int} {s : NodeStore} {p : Nat}
    {lo hi : Option Int} {H : Nat} {n : Node} {Ss : List (Finset Nat)}
    {ci : Nat}
    (hM : 3 ≤ M)
    (hl : pmLookup s.pages p = some n) (hpid : n.page_id = some p)
    (hleaf : n.is_leaf = false) (hMn : n.max_keys_per_node = M)
    (hsort : List.Sorted (· ≤ ·) n.keys)
    (hb : ∀ k ∈ n.keys, inB lo hi k)
    (hcl : n.children.length = n.keys.length + 1)
    (hsl : Ss.length = n.children.length)
    (hch : ∀ i, i < n.children.length →
      Good M s.pages (n.children.getD i 0) (boundL lo n.keys i)
        (boundR n.keys hi i) H (Ss.getD i ∅))
    (hnp : ∀ i, i < n.children.length → p ∉ Ss.getD i ∅)
    (hdisj : List.Pairwise Disjoint Ss)
    (hrange : ∀ q ∈ insert p (unionFS Ss), q < s.next_page_id)
    (hci : ci < n.children.length)
    {c : Node} (hcLoad : pmLookup s.pages (n.children.getD ci 0) = some c)
    (hcfull : c.is_full = true) :
    ∃ s' n' kstar,
      splitFullChildOfParent s p ci = .ok s' ∧
      s'.next_page_id = s.next_page_id + 1 ∧
      pmLookup s'.pages p = some n' ∧
      n' = { n with keys := pyInsertAt n.keys ci kstar, children := pyInsertAt n.children (ci + 1) s.next_page_id } ∧
      Good M s'.pages p lo hi (H + 1)
        (insert s.next_page_id (insert p (unionFS Ss))) ∧
      (∀ q, q ∉ insert p (unionFS Ss) → q ≠ s.next_page_id →
        pmLookup s'.pages q = pmLookup s.pages q) ∧
      ((treeKeys s'.pages (H + 2) p : Multiset Int) =
        (treeKeys s.pages (H + 2) p : Multiset Int)) := by
  obtain ⟨hcpid, hcM, hcsort, hcb⟩ := good_fields (hch ci hci) hcLoad
  have hcfull' : c.max_keys_per_node ≤ (c.keys.length : Int) := by
    simpa [Node.is_full] using hcfull
  have hcM3 : 3 ≤ c.max_keys_per_node := by omega
  have hspiT : c.min_degree_from_capacity = (c.max_keys_per_node + 1) / 2 :=
    rfl
  have hspi : (((c.max_keys_per_node + 1) / 2 - 1).toNat : Int) =
      c.min_degree_from_capacity - 1 := by
    rw [hspiT]; omega
  obtain ⟨hsplit, hspi1, hspi2⟩ := split_full_spec hcM3 hcfull' hspi
  set spiN : Nat := ((c.max_keys_per_node + 1) / 2 - 1).toNat with hspiN
  set kstar : Int := c.keys.getD spiN 0 with hkstar
  set cid : Nat := n.children.getD ci 0 with hcid
  set rid : Nat := s.next_page_id with hrid
  -- names for the three stored nodes
  set left : Node := { c with keys := c.keys.take spiN, children := if c.is_leaf then c.children else c.children.take (spiN + 1) } with hleftdef
  set right : Node := { page_id := none, max_keys_per_node := c.max_keys_per_node, is_leaf := c.is_leaf, keys := c.keys.drop (spiN + 1), children := if c.is_leaf then [] else c.children.drop (spiN + 1) } with hrightdef
  set rightS : Node := { right with page_id := some rid } with hrightS
  -- the child's promoted key sits between the parent separators around `ci`
  have hcilen : ci ≤ n.keys.length := by omega
  have hkmem : kstar ∈ c.keys := mem_of_getD (by omega)
  have hkc := hcb kstar hkmem
  have hkL : ci ≠ 0 → n.keys.getD (ci - 1) 0 ≤ kstar := by
    intro h0
    have := hkc.1
    unfold boundL at this
    rwa [if_neg h0] at this
  have hkR : ci < n.keys.length → kstar ≤ n.keys.getD ci 0 := by
    intro hlen
    have := hkc.2
    unfold boundR at this
    rwa [if_neg (by omega)] at this
  have hptLt := sorted_countP_pointwise
    (p := fun k => decide (k < kstar))
    (fun {u v} huv hv => by simp at hv ⊢; omega) hsort
  have hptLe := sorted_countP_pointwise
    (p := fun k => decide (k ≤ kstar))
    (fun {u v} huv hv => by simp at hv ⊢; omega) hsort
  have hcnt1 : n.keys.countP (fun k => decide (k < kstar)) ≤ ci := by
    by_contra hcon
    have h1 := (hptLt.1 ci (by omega))
    have h2 := hkR (by omega)
    simp only [decide_eq_true_eq] at h1
    omega
  have hcnt2 : ci ≤ n.keys.countP (fun k => decide (k ≤ kstar)) := by
    by_contra hcon
    have hci0 : ci ≠ 0 := by omega
    have h1 := hptLe.2 (ci - 1) (by omega) (by omega)
    have h2 := hkL hci0
    simp only [decide_eq_true_eq] at h1
    omega
  have hinsort : insort_left n.keys kstar = pyInsertAt n.keys ci kstar :=
    insort_left_eq_pyInsertAt hsort kstar hcnt1 hcnt2
  set nEnd : Node := { n with keys := pyInsertAt n.keys ci kstar, children := pyInsertAt n.children (ci + 1) rid } with hnEnd
  set pages4 : List (Nat × Node) := pmStore (pmStore (pmStore (pmStore s.pages rid rightS) p nEnd) cid left) rid rightS with hpages4
  -- page-id distinctness facts
  have hcidS : cid ∈ Ss.getD ci ∅ := Good.mem_self (hch ci hci)
  have hcidSp : cid ∈ insert p (unionFS Ss) :=
    Finset.mem_insert_of_mem (mem_unionFS (by omega) hcidS)
  have hpS : p ∈ insert p (unionFS Ss) := Finset.mem_insert_self _ _
  have hcidlt : cid < s.next_page_id := hrange cid hcidSp
  have hplt : p < s.next_page_id := hrange p hpS
  have hpcid : p ≠ cid := by
    intro he; rw [he] at hnp; exact hnp ci hci hcidS
  -- the run itself
  have eload : loadNode s p = some n := hl
  have eget : pyGet n.children ci = .ok cid := by
    unfold pyGet
    rw [List.getElem?_eq_getElem hci]
    rw [hcid, getD_eq_getElem n.children 0 hci]
  have eloadc : loadNode s cid = some c := hcLoad
  have hrun : splitFullChildOfParent s p ci =
      .ok ⟨pages4, s.next_page_id + 1⟩ := by
    simp only [splitFullChildOfParent, eload, eget, eloadc, hsplit,
      storeNode, Node.add_key, Node.add_child, hinsort, hpid, hcpid,
      Except.instMonad, Bind.bind, Except.bind, pure, Pure.pure,
      Except.pure]
    rw [hpages4, hrightS, hrightdef, hnEnd, hrid, hpid]
  -- lookups in the final page map
  have hlookP : pmLookup pages4 p = some nEnd := by
    rw [hpages4]
    rw [pmLookup_store_ne _ _ (by omega)]
    rw [pmLookup_store_ne _ _ hpcid]
    exact pmLookup_store_self _ _ _
  have hlookL : pmLookup pages4 cid = some left := by
    rw [hpages4]
    rw [pmLookup_store_ne _ _ (by omega)]
    exact pmLookup_store_self _ _ _
  have hlookR : pmLookup pages4 rid = some rightS := by
    rw [hpages4]
    exact pmLookup_store_self _ _ _
  have hframe4 : ∀ q, q ≠ rid → q ≠ p → q ≠ cid →
      pmLookup pages4 q = pmLookup s.pages q := by
    intro q h1 h2 h3
    rw [hpages4]
    rw [pmLookup_store_ne _ _ h1, pmLookup_store_ne _ _ h3,
      pmLookup_store_ne _ _ h2, pmLookup_store_ne _ _ h1]
  -- split the child's Good into the two halves
  have hsplitgood := splitchild_good (hch ci hci) hcLoad hspi1 hspi2
    rfl rfl hlookL hlookR ?_ ?_
  rotate_left
  · intro q hq hqcid
    refine hframe4 q ?_ ?_ hqcid
    · have : q < s.next_page_id :=
        hrange q (Finset.mem_insert_of_mem (mem_unionFS (by omega) hq))
      omega
    · intro he; rw [he] at hq; exact hnp ci hci hq
  · intro hcon
    have : rid < s.next_page_id :=
      hrange rid (Finset.mem_insert_of_mem (mem_unionFS (by omega) hcon))
    omega
  obtain ⟨SL, SR, hgL, hgR, hcidSL, hridSR, hLR, hdisjLR, hmsplit⟩ :=
    hsplitgood
  -- untouched siblings stay Good
  have hsib : ∀ j, j < n.children.length → j ≠ ci →
      Good M pages4 (n.children.getD j 0) (boundL lo n.keys j)
        (boundR n.keys hi j) H (Ss.getD j ∅) := by
    intro j hj hjci
    refine good_frame (hch j hj) ?_
    intro q hq
    have hqS : q ∈ insert p (unionFS Ss) :=
      Finset.mem_insert_of_mem (mem_unionFS (by omega) hq)
    refine hframe4 q (by have := hrange q hqS; omega) ?_ ?_
    · intro he; rw [he] at hq; exact hnp j hj hq
    · intro he
      rw [he] at hq
      exact Finset.disjoint_left.mp
        (pairwise_disjoint_getElem hdisj hjci (by omega) (by omega)) hq hcidS
  have hsibtk : ∀ j, j < n.children.length → j ≠ ci →
      treeKeys pages4 (H + 1) (n.children.getD j 0) =
      treeKeys s.pages (H + 1) (n.children.getD j 0) := by
    intro j hj hjci
    refine treeKeys_frame (H + 1) (hch j hj) ?_
    intro q hq
    have hqS : q ∈ insert p (unionFS Ss) :=
      Finset.mem_insert_of_mem (mem_unionFS (by omega) hq)
    refine hframe4 q (by have := hrange q hqS; omega) ?_ ?_
    · intro he; rw [he] at hq; exact hnp j hj hq
    · intro he
      rw [he] at hq
      exact Finset.disjoint_left.mp
        (pairwise_disjoint_getElem hdisj hjci (by omega) (by omega)) hq hcidS
  -- memberships of the two half footprints
  have hSLsub : SL ⊆ insert rid (Ss.getD ci ∅) := by
    intro q hq; rw [← hLR]; exact Finset.mem_union_left _ hq
  have hSRsub : SR ⊆ insert rid (Ss.getD ci ∅) := by
    intro q hq; rw [← hLR]; exact Finset.mem_union_right _ hq
  have hpSL : p ∉ SL := by
    intro hq
    rcases Finset.mem_insert.mp (hSLsub hq) with he | hin
    · omega
    · exact hnp ci hci hin
  have hpSR : p ∉ SR := by
    intro hq
    rcases Finset.mem_insert.mp (hSRsub hq) with he | hin
    · omega
    · exact hnp ci hci hin
  -- pairwise disjointness of the new footprint list
  have hdisj' : List.Pairwise Disjoint (pyInsertAt (Ss.set ci SL) (ci + 1) SR) := by
    have hlen1 : (Ss.set ci SL).length = Ss.length := List.length_set _ _ _
    have hget : ∀ j, j < Ss.length + 1 →
        (pyInsertAt (Ss.set ci SL) (ci + 1) SR).getD j ∅ =
          if j = ci then SL else if j = ci + 1 then SR
          else if j < ci + 1 then Ss.getD j ∅ else Ss.getD (j - 1) ∅ := by
      intro j hj
      by_cases h1 : j = ci
      · rw [if_pos h1]
        have hlt := pyInsertAt_getD_lt (Ss.set ci SL) (ci + 1) SR ∅
          (j := j) (by omega) (by omega)
        rw [hlt, h1]
        exact getD_set_self _ _ _ _ (by omega)
      · rw [if_neg h1]
        by_cases h2 : j = ci + 1
        · rw [if_pos h2, h2]
          exact pyInsertAt_getD_self _ _ _ _ (by omega)
        · rw [if_neg h2]
          by_cases h3 : j < ci + 1
          · rw [if_pos h3]
            have := pyInsertAt_getD_lt (Ss.set ci SL) (ci + 1) SR ∅
              (j := j) (by omega) (by omega)
            rw [this]
            exact getD_set_ne _ _ _ h1
          · rw [if_neg h3]
            have := pyInsertAt_getD_gt (Ss.set ci SL) (ci + 1) SR ∅
              (j := j) (by omega) (by omega)
            rw [this]
            exact getD_set_ne _ _ _ (by omega)
    apply pairwise_disjoint_of_getD
    intro i j hij hjlen
    rw [pyInsertAt_length _ _ _ (by omega), hlen1] at hjlen
    rw [hget i (by omega), hget j (by omega)]
    have hdisjSold : ∀ a b, a ≠ b → a < Ss.length → b < Ss.length →
        Disjoint (Ss.getD a ∅) (Ss.getD b ∅) := by
      intro a b hab ha hb'
      exact pairwise_disjoint_getElem hdisj hab ha hb'
    have hdSL : ∀ a, a < Ss.length → a ≠ ci → Disjoint (Ss.getD a ∅) SL := by
      intro a ha hane
      rw [Finset.disjoint_right]
      intro q hq
      rcases Finset.mem_insert.mp (hSLsub hq) with he | hin
      · subst he
        intro hcon
        have : rid < s.next_page_id := hrange rid
          (Finset.mem_insert_of_mem (mem_unionFS (by omega) hcon))
        omega
      · exact fun hcon => Finset.disjoint_left.mp
          (hdisjSold a ci hane ha (by omega)) hcon hin
    have hdSR : ∀ a, a < Ss.length → a ≠ ci → Disjoint (Ss.getD a ∅) SR := by
      intro a ha hane
      rw [Finset.disjoint_right]
      intro q hq
      rcases Finset.mem_insert.mp (hSRsub hq) with he | hin
      · subst he
        intro hcon
        have : rid < s.next_page_id := hrange rid
          (Finset.mem_insert_of_mem (mem_unionFS (by omega) hcon))
        omega
      · exact fun hcon => Finset.disjoint_left.mp
          (hdisjSold a ci hane ha (by omega)) hcon hin
    by_cases hi1 : i = ci
    · rw [if_pos hi1]
      by_cases hj2 : j = ci + 1
      · rw [if_neg (by omega), if_pos hj2]; exact hdisjLR
      · rw [if_neg (by omega), if_neg hj2, if_neg (by omega)]
        exact (hdSL (j - 1) (by omega) (by omega)).symm
    · rw [if_neg hi1]
      by_cases hi2 : i = ci + 1
      · rw [if_pos hi2, if_neg (by omega), if_neg (by omega), if_neg (by omega)]
        exact (hdSR (j - 1) (by omega) (by omega)).symm
      · rw [if_neg hi2]
        by_cases hi3 : i < ci + 1
        · rw [if_pos hi3]
          by_cases hj1 : j = ci
          · rw [if_pos hj1]
            rw [hj1] at hij
            exact hdSL i (by omega) (by omega)
          · rw [if_neg hj1]
            by_cases hj2 : j = ci + 1
            · rw [if_pos hj2]
              exact hdSR i (by omega) (by omega)
            · rw [if_neg hj2]
              by_cases hj3 : j < ci + 1
              · rw [if_pos hj3]
                exact hdisjSold i j (by omega) (by omega) (by omega)
              · rw [if_neg hj3]
                exact hdisjSold i (j - 1) (by omega) (by omega) (by omega)
        · rw [if_neg hi3]
          rw [if_neg (by omega), if_neg (by omega), if_neg (by omega)]
          exact hdisjSold (i - 1) (j - 1) (by omega) (by omega) (by omega)
  -- rebuild the parent's Good
  have hgood : Good M pages4 p lo hi (H + 1)
      (insert p (unionFS (pyInsertAt (Ss.set ci SL) (ci + 1) SR))) := by
    refine good_insert_sep hlookP ?_ ?_ ?_ ?_ ?_ hsort hb
      ⟨okLo_boundL hb hcilen hkc.1, okHi_boundR hb hcilen hkc.2⟩
      hkL hkR hcl hsl hci ?_ hgL hgR ?_ hpSL hpSR hdisj'
    · rw [hnEnd]; exact hpid
    · rw [hnEnd]; exact hleaf
    · rw [hnEnd]; exact hMn
    · rw [hnEnd]
    · rw [hnEnd]
    · intro j hj hjne
      exact hsib j hj hjne
    · intro j hj hjne
      exact hnp j hj
  -- identify the new footprint
  have hSeq : insert p (unionFS (pyInsertAt (Ss.set ci SL) (ci + 1) SR)) =
      insert rid (insert p (unionFS Ss)) := by
    have hlen1 : (Ss.set ci SL).length = Ss.length := List.length_set _ _ _
    apply Finset.ext
    intro q
    simp only [Finset.mem_insert]
    constructor
    · rintro (hq | hq)
      · exact Or.inr (Or.inl hq)
      · rcases unionFS_mem_inv hq with ⟨j, hj, hqj⟩
        rw [pyInsertAt_length _ _ _ (by omega), hlen1] at hj
        by_cases h1 : j = ci
        · subst h1
          have hrw : (pyInsertAt (Ss.set j SL) (j + 1) SR).getD j ∅ = SL := by
            have := pyInsertAt_getD_lt (Ss.set j SL) (j + 1) SR ∅
              (j := j) (by omega) (by omega)
            rw [this]
            exact getD_set_self _ _ _ _ (by omega)
          rw [hrw] at hqj
          rcases Finset.mem_insert.mp (hSLsub hqj) with he | hin
          · exact Or.inl he
          · exact Or.inr (Or.inr (mem_unionFS (by omega) hin))
        · by_cases h2 : j = ci + 1
          · subst h2
            have hrw : (pyInsertAt (Ss.set ci SL) (ci + 1) SR).getD (ci + 1) ∅ =
                SR := pyInsertAt_getD_self _ _ _ _ (by omega)
            rw [hrw] at hqj
            rcases Finset.mem_insert.mp (hSRsub hqj) with he | hin
            · exact Or.inl he
            · exact Or.inr (Or.inr (mem_unionFS (by omega) hin))
          · by_cases h3 : j < ci + 1
            · have hrw : (pyInsertAt (Ss.set ci SL) (ci + 1) SR).getD j ∅ =
                  Ss.getD j ∅ := by
                have := pyInsertAt_getD_lt (Ss.set ci SL) (ci + 1) SR ∅
                  (j := j) (by omega) (by omega)
                rw [this]
                exact getD_set_ne _ _ _ h1
              rw [hrw] at hqj
              exact Or.inr (Or.inr (mem_unionFS (by omega) hqj))
            · have hrw : (pyInsertAt (Ss.set ci SL) (ci + 1) SR).getD j ∅ =
                  Ss.getD (j - 1) ∅ := by
                have := pyInsertAt_getD_gt (Ss.set ci SL) (ci + 1) SR ∅
                  (j := j) (by omega) (by omega)
                rw [this]
                exact getD_set_ne _ _ _ (by omega)
              rw [hrw] at hqj
              exact Or.inr (Or.inr (mem_unionFS (by omega) hqj))
    · rintro (hq | (hq | hq))
      · subst hq
        refine Or.inr ?_
        have hrw : (pyInsertAt (Ss.set ci SL) (ci + 1) SR).getD (ci + 1) ∅ =
            SR := pyInsertAt_getD_self _ _ _ _ (by omega)
        refine mem_unionFS (i := ci + 1) ?_ ?_
        · rw [pyInsertAt_length _ _ _ (by omega), hlen1]; omega
        · rw [hrw]; exact hridSR
      · exact Or.inl hq
      · rcases unionFS_mem_inv hq with ⟨j, hj, hqj⟩
        refine Or.inr ?_
        by_cases h1 : j = ci
        · subst h1
          by_cases hqSL : q ∈ SL
          · have hrw : (pyInsertAt (Ss.set j SL) (j + 1) SR).getD j ∅ = SL := by
              have := pyInsertAt_getD_lt (Ss.set j SL) (j + 1) SR ∅
                (j := j) (by omega) (by omega)
              rw [this]
              exact getD_set_self _ _ _ _ (by omega)
            refine mem_unionFS (i := j) ?_ ?_
            · rw [pyInsertAt_length _ _ _ (by omega), hlen1]; omega
            · rw [hrw]; exact hqSL
          · have hqSR : q ∈ SR := by
              have : q ∈ SL ∪ SR := by
                rw [hLR]; exact Finset.mem_insert_of_mem hqj
              rcases Finset.mem_union.mp this with h | h
              · exact absurd h hqSL
              · exact h
            have hrw : (pyInsertAt (Ss.set j SL) (j + 1) SR).getD (j + 1) ∅ =
                SR := pyInsertAt_getD_self _ _ _ _ (by omega)
            refine mem_unionFS (i := j + 1) ?_ ?_
            · rw [pyInsertAt_length _ _ _ (by omega), hlen1]; omega
            · rw [hrw]; exact hqSR
        · by_cases h3 : j < ci
          · have hrw : (pyInsertAt (Ss.set ci SL) (ci + 1) SR).getD j ∅ =
                Ss.getD j ∅ := by
              have := pyInsertAt_getD_lt (Ss.set ci SL) (ci + 1) SR ∅
                (j := j) (by omega) (by omega)
              rw [this]
              exact getD_set_ne _ _ _ h1
            refine mem_unionFS (i := j) ?_ ?_
            · rw [pyInsertAt_length _ _ _ (by omega), hlen1]; omega
            · rw [hrw]; exact hqj
          · have hrw : (pyInsertAt (Ss.set ci SL) (ci + 1) SR).getD (j + 1) ∅ =
                Ss.getD j ∅ := by
              have := pyInsertAt_getD_gt (Ss.set ci SL) (ci + 1) SR ∅
                (j := j + 1) (by omega) (by omega)
              rw [this]
              have : j + 1 - 1 = j := by omega
              rw [this]
              exact getD_set_ne _ _ _ (by omega)
            refine mem_unionFS (i := j + 1) ?_ ?_
            · rw [pyInsertAt_length _ _ _ (by omega), hlen1]; omega
            · rw [hrw]; exact hqj
  -- key multiset preservation for the whole parent subtree
  have hmult : (treeKeys pages4 (H + 2) p : Multiset Int) =
      (treeKeys s.pages (H + 2) p : Multiset Int) := by
    have hnewleaf : nEnd.is_leaf = false := by rw [hnEnd]; exact hleaf
    have e1 := treeKeys_node_eq (f := H + 1) hlookP hnewleaf
    have e2 := treeKeys_node_eq (f := H + 1) hl hleaf
    have hnchE : nEnd.children =
        (n.children.take ci ++ [cid]) ++ rid :: n.children.drop (ci + 1) := by
      rw [hnEnd]
      show pyInsertAt n.children (ci + 1) rid = _
      unfold pyInsertAt
      rw [take_succ_getD n.children ci 0 (by omega)]
    have hochE : n.children =
        n.children.take ci ++ cid :: n.children.drop (ci + 1) := by
      conv_lhs => rw [← List.take_append_drop ci n.children]
      rw [drop_cons_getD n.children ci 0 (by omega)]
    have hmaptake : (n.children.take ci).map (treeKeys pages4 (H + 1)) =
        (n.children.take ci).map (treeKeys s.pages (H + 1)) := by
      apply List.map_congr_left
      intro u hu
      rcases mem_getD_form 0 hu with ⟨j, hj, hju⟩
      rw [List.length_take] at hj
      rw [getD_take _ _ _ _ (by omega) (by omega)] at hju
      subst hju
      exact hsibtk j (by omega) (by omega)
    have hmapdrop : (n.children.drop (ci + 1)).map (treeKeys pages4 (H + 1)) =
        (n.children.drop (ci + 1)).map (treeKeys s.pages (H + 1)) := by
      apply List.map_congr_left
      intro u hu
      rcases mem_getD_form 0 hu with ⟨j, hj, hju⟩
      rw [List.length_drop] at hj
      rw [getD_drop _ _ _ _ (by omega)] at hju
      subst hju
      exact hsibtk (ci + 1 + j) (by omega) (by omega)
    have hkeyseq : ((pyInsertAt n.keys ci kstar : List Int) : Multiset Int) =
        {kstar} + ↑n.keys := by
      rw [Multiset.coe_eq_coe.mpr (pyInsertAt_perm n.keys ci kstar)]
      rw [mcoe_cons]
    rw [e1, e2, hnchE]
    conv_rhs => rw [hochE]
    rw [hnEnd]
    simp only [List.map_append, List.map_cons, List.map_nil,
      List.flatten_append, List.flatten_cons, List.flatten_nil,
      List.append_nil]
    rw [hmaptake, hmapdrop]
    simp only [mcoe_append]
    rw [hkeyseq]
    rw [← hcid, ← hkstar] at hmsplit
    rw [← hmsplit]
    abel
  refine ⟨⟨pages4, s.next_page_id + 1⟩, nEnd, kstar, hrun, rfl, hlookP,
    rfl, ?_, ?_, hmult⟩
  · rw [← hSeq]
    exact hgood
  · intro q hq1 hq2
    refine hframe4 q hq2 ?_ ?_
    · intro he; rw [he] at hq1; exact hq1 hpS
    · intro he; rw [he] at hq1; exact hq1 hcidSp

/-- A `Good` root page is present in the store. -/
theorem good_lookup {M : Int} {pages : List (Nat × Node)} {p : Nat}
    {lo hi : Option Int} {h : Nat} {S : Finset Nat}
    (hg : Good M pages p lo hi h S) : ∃ n, pmLookup pages p = some n := by
  cases hg with
  | leaf _ n _ _ _ hl _ _ _ _ _ => exact ⟨n, hl⟩
  | node _ n _ _ _ _ hl _ _ _ _ _ _ _ _ _ _ => exact ⟨n, hl⟩

/-- Inversion of `Good` at a leaf: the footprint is the root page alone. -/
theorem good_leaf_S {M : Int} {pages : List (Nat × Node)} {p : Nat}
    {lo hi : Option Int} {h : Nat} {S : Finset Nat} {n : Node}
    (hg : Good M pages p lo hi h S) (hl : pmLookup pages p = some n)
    (hleaf : n.is_leaf = true) : S = {p} := by
  cases hg with
  | leaf _ m _ _ _ hl' _ _ _ _ _ => rfl
  | node _ m _ _ _ _ hl' _ hmleaf _ _ _ _ _ _ _ _ =>
    have : m = n := by rw [hl'] at hl; exact Option.some.inj hl
    subst this
    rw [hleaf] at hmleaf
    exact absurd hmleaf (by simp)

/-- Inversion of `Good` at an internal node: recover the child subtrees,
their footprints, and the structural facts of the `node` constructor. -/
theorem good_node_inv {M : Int} {pages : List (Nat × Node)} {p : Nat}
    {lo hi : Option Int} {h : Nat} {S : Finset Nat} {n : Node}
    (hg : Good M pages p lo hi h S) (hl : pmLookup pages p = some n)
    (hleaf : n.is_leaf = false) :
    ∃ (H : Nat) (Ss : List (Finset Nat)),
      h = H + 1 ∧ S = insert p (unionFS Ss) ∧
      n.children.length = n.keys.length + 1 ∧
      Ss.length = n.children.length ∧
      (∀ i, i < n.children.length →
        Good M pages (n.children.getD i 0) (boundL lo n.keys i)
          (boundR n.keys hi i) H (Ss.getD i ∅)) ∧
      (∀ i, i < n.children.length → p ∉ Ss.getD i ∅) ∧
      List.Pairwise Disjoint Ss := by
  cases hg with
  | leaf _ m _ _ _ hl' _ hmleaf _ _ _ =>
    have : m = n := by rw [hl'] at hl; exact Option.some.inj hl
    subst this
    rw [hleaf] at hmleaf
    exact absurd hmleaf (by simp)
  | node _ m _ _ H Ss hl' hpid hmleaf hM hsort hb hcl hsl hch hnp hdisj =>
    have : m = n := by rw [hl'] at hl; exact Option.some.inj hl
    subst this
    exact ⟨H, Ss, rfl, rfl, hcl, hsl, hch, hnp, hdisj⟩

/-- Membership in the union after replacing the `j`-th footprint. -/
theorem mem_unionFS_set {Ss : List (Finset Nat)} {j : Nat} {T : Finset Nat}
    {q : Nat} (hj : j < Ss.length) :
    q ∈ unionFS (Ss.set j T) ↔
      q ∈ T ∨ ∃ i, i < Ss.length ∧ i ≠ j ∧ q ∈ Ss.getD i ∅ := by
  constructor
  · intro hq
    rcases unionFS_mem_inv hq with ⟨i, hi, hqi⟩
    rw [List.length_set] at hi
    by_cases hij : i = j
    · subst hij
      rw [getD_set_self _ _ _ _ hi] at hqi
      exact Or.inl hqi
    · rw [getD_set_ne _ _ _ hij] at hqi
      exact Or.inr ⟨i, hi, hij, hqi⟩
  · rintro (hq | ⟨i, hi, hij, hqi⟩)
    · refine mem_unionFS (i := j) (by rw [List.length_set]; exact hj) ?_
      rw [getD_set_self _ _ _ _ hj]; exact hq
    · refine mem_unionFS (i := i) (by rw [List.length_set]; exact hi) ?_
      rw [getD_set_ne _ _ _ hij]; exact hqi

/-- `list[i]` under Python semantics succeeds below the length. -/
theorem pyGet_ok {α : Type} (l : List α) (d : α) {i : Nat}
    (h : i < l.length) : pyGet l i = .ok (l.getD i d) := by
  unfold pyGet
  rw [List.getElem?_eq_getElem h, getD_eq_getElem l d h]

/-- After a recursive insert into child `j` of a `Good` internal parent,
the parent is `Good` again with the child's footprint replaced by the
(possibly grown) one `T`, pages outside stay untouched, and the subtree's
key multiset gains one copy of `key`. -/
theorem good_descend_rebuild {M key : Int} {s₁ s₂ : NodeStore} {p : Nat}
    {lo hi : Option Int} {H : Nat} {n : Node} {Ss : List (Finset Nat)}
    {j : Nat} {T : Finset Nat}
    (hl : pmLookup s₁.pages p = some n) (hpid : n.page_id = some p)
    (hleaf : n.is_leaf = false) (hMn : n.max_keys_per_node = M)
    (hsort : List.Sorted (· ≤ ·) n.keys)
    (hb : ∀ k ∈ n.keys, inB lo hi k)
    (hcl : n.children.length = n.keys.length + 1)
    (hsl : Ss.length = n.children.length)
    (hch : ∀ i, i < n.children.length →
      Good M s₁.pages (n.children.getD i 0) (boundL lo n.keys i)
        (boundR n.keys hi i) H (Ss.getD i ∅))
    (hnp : ∀ i, i < n.children.length → p ∉ Ss.getD i ∅)
    (hdisj : List.Pairwise Disjoint Ss)
    (hrange : ∀ q ∈ insert p (unionFS Ss), q < s₁.next_page_id)
    (hj : j < n.children.length)
    (hgc : Good M s₂.pages (n.children.getD j 0) (boundL lo n.keys j)
      (boundR n.keys hi j) H T)
    (hsub : Ss.getD j ∅ ⊆ T)
    (hnew : ∀ q ∈ T, q ∈ Ss.getD j ∅ ∨ s₁.next_page_id ≤ q)
    (hfr : ∀ q, q ∉ T → pmLookup s₂.pages q = pmLookup s₁.pages q)
    (hmk : (treeKeys s₂.pages (H + 1) (n.children.getD j 0) : Multiset Int) =
      key ::ₘ
        (treeKeys s₁.pages (H + 1) (n.children.getD j 0) : Multiset Int)) :
    Good M s₂.pages p lo hi (H + 1) (insert p (unionFS (Ss.set j T))) ∧
    (∀ q ∈ insert p (unionFS (Ss.set j T)),
      q ∈ insert p (unionFS Ss) ∨ q ∈ T) ∧
    (insert p (unionFS Ss) ⊆ insert p (unionFS (Ss.set j T))) ∧
    (∀ q, q ∉ insert p (unionFS (Ss.set j T)) →
      pmLookup s₂.pages q = pmLookup s₁.pages q) ∧
    ((treeKeys s₂.pages (H + 2) p : Multiset Int) =
      key ::ₘ (treeKeys s₁.pages (H + 2) p : Multiset Int)) := by
  have hjS : j < Ss.length := by omega
  have hpn : p ∉ T := by
    intro hq
    rcases hnew p hq with hin | hge
    · exact hnp j hj hin
    · have := hrange p (Finset.mem_insert_self _ _)
      omega
  have hTdisj : ∀ a, a < Ss.length → a ≠ j →
      Disjoint (Ss.getD a ∅) T := by
    intro a ha haj
    rw [Finset.disjoint_right]
    intro q hq
    rcases hnew q hq with hin | hge
    · exact fun hcon => Finset.disjoint_left.mp
        (pairwise_disjoint_getElem hdisj haj ha hjS) hcon hin
    · intro hcon
      have := hrange q
        (Finset.mem_insert_of_mem (mem_unionFS (by omega) hcon))
      omega
  have hsibfr : ∀ i, i < n.children.length → i ≠ j →
      ∀ q ∈ Ss.getD i ∅, pmLookup s₂.pages q = pmLookup s₁.pages q := by
    intro i hi hij q hq
    refine hfr q ?_
    exact fun hcon =>
      Finset.disjoint_left.mp (hTdisj i (by omega) hij) hq hcon
  have hl₂ : pmLookup s₂.pages p = some n := by
    rw [hfr p hpn]; exact hl
  have hsib : ∀ i, i < n.children.length → i ≠ j →
      Good M s₂.pages (n.children.getD i 0) (boundL lo n.keys i)
        (boundR n.keys hi i) H (Ss.getD i ∅) := by
    intro i hi hij
    exact good_frame (hch i hi) (hsibfr i hi hij)
  have hgood : Good M s₂.pages p lo hi (H + 1)
      (insert p (unionFS (Ss.set j T))) := by
    refine Good.node p n lo hi H (Ss.set j T) hl₂ hpid hleaf hMn hsort hb
      hcl (by rw [List.length_set]; exact hsl) ?_ ?_ ?_
    · intro i hi
      by_cases hij : i = j
      · rw [hij, getD_set_self _ _ _ _ hjS]
        exact hgc
      · rw [getD_set_ne _ _ _ hij]
        exact hsib i hi hij
    · intro i hi
      by_cases hij : i = j
      · rw [hij, getD_set_self _ _ _ _ hjS]
        exact hpn
      · rw [getD_set_ne _ _ _ hij]
        exact hnp i hi
    · apply pairwise_disjoint_of_getD
      intro a b hab hblen
      rw [List.length_set] at hblen
      by_cases haj : a = j
      · rw [haj, getD_set_self _ _ _ _ hjS,
          getD_set_ne _ _ _ (by omega)]
        exact (hTdisj b hblen (by omega)).symm
      · rw [getD_set_ne _ _ _ haj]
        by_cases hbj : b = j
        · rw [hbj, getD_set_self _ _ _ _ hjS]
          exact hTdisj a (by omega) haj
        · rw [getD_set_ne _ _ _ hbj]
          exact pairwise_disjoint_getElem hdisj (by omega) (by omega) hblen
  refine ⟨hgood, ?_, ?_, ?_, ?_⟩
  · intro q hq
    rcases Finset.mem_insert.mp hq with hqp | hqU
    · exact Or.inl (by rw [hqp]; exact Finset.mem_insert_self _ _)
    · rcases (mem_unionFS_set hjS).mp hqU with hqT | ⟨i, hi, hij, hqi⟩
      · exact Or.inr hqT
      · exact Or.inl
          (Finset.mem_insert_of_mem (mem_unionFS (by omega) hqi))
  · intro q hq
    rcases Finset.mem_insert.mp hq with hqp | hqU
    · rw [hqp]; exact Finset.mem_insert_self _ _
    · rcases unionFS_mem_inv hqU with ⟨i, hi, hqi⟩
      refine Finset.mem_insert_of_mem ((mem_unionFS_set hjS).mpr ?_)
      by_cases hij : i = j
      · rw [hij] at hqi
        exact Or.inl (hsub hqi)
      · exact Or.inr ⟨i, hi, hij, hqi⟩
  · intro q hq
    refine hfr q ?_
    intro hqT
    exact hq (Finset.mem_insert_of_mem
      ((mem_unionFS_set hjS).mpr (Or.inl hqT)))
  · have e2 := treeKeys_node_eq (f := H + 1) hl₂ hleaf
    have e1 := treeKeys_node_eq (f := H + 1) hl hleaf
    have hochE : n.children =
        n.children.take j ++ n.children.getD j 0 :: n.children.drop (j + 1) := by
      conv_lhs => rw [← List.take_append_drop j n.children]
      rw [drop_cons_getD n.children j 0 (by omega)]
    have hmaptake : (n.children.take j).map (treeKeys s₂.pages (H + 1)) =
        (n.children.take j).map (treeKeys s₁.pages (H + 1)) := by
      apply List.map_congr_left
      intro u hu
      rcases mem_getD_form 0 hu with ⟨i, hi, hiu⟩
      rw [List.length_take] at hi
      rw [getD_take _ _ _ _ (by omega) (by omega)] at hiu
      subst hiu
      exact treeKeys_frame (H + 1) (hch i (by omega))
        (hsibfr i (by omega) (by omega))
    have hmapdrop :
        (n.children.drop (j + 1)).map (treeKeys s₂.pages (H + 1)) =
        (n.children.drop (j + 1)).map (treeKeys s₁.pages (H + 1)) := by
      apply List.map_congr_left
      intro u hu
      rcases mem_getD_form 0 hu with ⟨i, hi, hiu⟩
      rw [List.length_drop] at hi
      rw [getD_drop _ _ _ _ (by omega)] at hiu
      subst hiu
      exact treeKeys_frame (H + 1) (hch (j + 1 + i) (by omega))
        (hsibfr (j + 1 + i) (by omega) (by omega))
    rw [e2, e1, hochE]
    simp only [List.map_append, List.map_cons, List.map_nil,
      List.flatten_append, List.flatten_cons, List.flatten_nil,
      List.append_nil]
    rw [hmaptake, hmapdrop]
    simp only [mcoe_append]
    rw [hmk]
    rw [← Multiset.singleton_add, ← Multiset.singleton_add]
    abel

/-- `_insert_into_node_with_space` on a leaf: insort the key, store. -/
theorem insertIntoNodeWithSpace_leaf {key : Int} {fuel : Nat}
    {s : NodeStore} {p : Nat} {n : Node}
    (hl : loadNode s p = some n) (hleaf : n.is_leaf = true) :
    insertIntoNodeWithSpace key (fuel + 1) s p =
      .ok (storeNode s (n.add_key key)).1 := by
  simp only [insertIntoNodeWithSpace, hl, hleaf, if_true,
    Except.instMonad, Bind.bind, Except.bind, pure, Pure.pure, Except.pure]

/-- `_insert_into_node_with_space`, internal node, chosen child not full:
plain recursive descent into that child. -/
theorem insertIntoNodeWithSpace_notfull {key : Int} {fuel : Nat}
    {s : NodeStore} {p : Nat} {n : Node} {cid : Nat} {c : Node}
    (hl : loadNode s p = some n) (hleaf : n.is_leaf = false)
    (hget : pyGet n.children (bisect_right n.keys key) = .ok cid)
    (hlc : loadNode s cid = some c) (hnf : c.is_full = false) :
    insertIntoNodeWithSpace key (fuel + 1) s p =
      insertIntoNodeWithSpace key fuel s cid := by
  simp only [insertIntoNodeWithSpace, hl, hleaf, hget, hlc, hnf,
    Bool.false_eq_true, if_false,
    Except.instMonad, Bind.bind, Except.bind, pure, Pure.pure, Except.pure]

/-- `_insert_into_node_with_space`, internal node, chosen child full:
split it, re-read the parent, compare the promoted separator with the key,
and descend right of it or into the (truncated) original child. -/
theorem insertIntoNodeWithSpace_full {key : Int} {fuel : Nat}
    {s s₁ : NodeStore} {p : Nat} {n : Node} {cid : Nat} {c : Node}
    {n₁ : Node} {sep : Int} {rcid : Nat}
    (hl : loadNode s p = some n) (hleaf : n.is_leaf = false)
    (hget : pyGet n.children (bisect_right n.keys key) = .ok cid)
    (hlc : loadNode s cid = some c) (hf : c.is_full = true)
    (hsp : splitFullChildOfParent s p (bisect_right n.keys key) = .ok s₁)
    (hl₁ : loadNode s₁ p = some n₁)
    (hsep : pyGet n₁.keys (bisect_right n.keys key) = .ok sep)
    (hrc : pyGet n₁.children (bisect_right n.keys key + 1) = .ok rcid) :
    insertIntoNodeWithSpace key (fuel + 1) s p =
      if sep < key then insertIntoNodeWithSpace key fuel s₁ rcid
      else insertIntoNodeWithSpace key fuel s₁ cid := by
  simp only [insertIntoNodeWithSpace, hl, hleaf, hget, hlc, hf, if_true,
    hsp, hl₁, hsep, hrc, Bool.false_eq_true, if_false,
    Except.instMonad, Bind.bind, Except.bind, pure, Pure.pure, Except.pure]

/-- Full specification of `_insert_into_node_with_space` on a `Good`
subtree with enough fuel: the call succeeds, the subtree stays `Good` at
the same height bound over a footprint that only grows by freshly
allocated pages, pages outside the new footprint are untouched, and the
subtree's key multiset gains exactly one copy of `key`. -/
theorem insertIntoNodeWithSpace_spec {M : Int} (key : Int) :
    ∀ (fuel : Nat) (s : NodeStore) (p : Nat) (lo hi : Option Int)
      (h : Nat) (S : Finset Nat),
      3 ≤ M →
      Good M s.pages p lo hi h S →
      inB lo hi key →
      (∀ q ∈ S, q < s.next_page_id) →
      h + 1 ≤ fuel →
      ∃ (s' : NodeStore) (S' : Finset Nat),
        insertIntoNodeWithSpace key fuel s p = .ok s' ∧
        s.next_page_id ≤ s'.next_page_id ∧
        Good M s'.pages p lo hi h S' ∧
        S ⊆ S' ∧
        (∀ q ∈ S', q ∈ S ∨ s.next_page_id ≤ q) ∧
        (∀ q ∈ S', q < s'.next_page_id) ∧
        (∀ q, q ∉ S' → pmLookup s'.pages q = pmLookup s.pages q) ∧
        ((treeKeys s'.pages (h + 1) p : Multiset Int) =
          key ::ₘ (treeKeys s.pages (h + 1) p : Multiset Int)) := by
  intro fuel
  induction fuel with
  | zero =>
    intro s p lo hi h S _ _ _ _ hfuel
    omega
  | succ fuel ih =>
    intro s p lo hi h S hM hg hkey hrange hfuel
    obtain ⟨n, hl⟩ := good_lookup hg
    obtain ⟨hpid, hMn, hsort, hbnd⟩ := good_fields hg hl
    by_cases hleafB : n.is_leaf = true
    · -- leaf: insort the key into this node and store it back
      have hSp : S = {p} := good_leaf_S hg hl hleafB
      subst hSp
      have hpidA : (n.add_key key).page_id = some p := hpid
      have hsA : storeNode s (n.add_key key) =
          (⟨pmStore s.pages p (n.add_key key), s.next_page_id⟩, p,
            n.add_key key) := by
        unfold storeNode
        rw [hpidA]
      refine ⟨⟨pmStore s.pages p (n.add_key key), s.next_page_id⟩, {p},
        ?_, le_refl _, ?_, Finset.Subset.refl _, ?_, ?_, ?_, ?_⟩
      · rw [insertIntoNodeWithSpace_leaf hl hleafB, hsA]
      · refine Good.leaf p (n.add_key key) lo hi h
          (pmLookup_store_self _ _ _) hpidA hleafB hMn
          (insort_left_sorted hsort key) ?_
        intro k hk
        have hk' : k ∈ key :: n.keys :=
          (insort_left_perm hsort key).mem_iff.mp hk
        rcases List.mem_cons.mp hk' with hkx | hkm
        · rw [hkx]; exact hkey
        · exact hbnd k hkm
      · intro q hq; exact Or.inl hq
      · intro q hq
        have hqp : q = p := Finset.mem_singleton.mp hq
        rw [hqp]
        exact hrange p (Finset.mem_singleton_self p)
      · intro q hq
        have hqp : q ≠ p := by simpa using hq
        exact pmLookup_store_ne _ _ hqp
      · have hleafA : (n.add_key key).is_leaf = true := hleafB
        rw [treeKeys_leaf_eq h (pmLookup_store_self _ _ _) hleafA,
          treeKeys_leaf_eq h hl hleafB]
        show ((insort_left n.keys key : List Int) : Multiset Int) = _
        rw [Multiset.coe_eq_coe.mpr (insort_left_perm hsort key)]
        exact Multiset.cons_coe key n.keys
    · -- internal node
      have hleaf : n.is_leaf = false := by simpa using hleafB
      obtain ⟨H, Ss, hH, hS, hcl, hsl, hch, hnp, hdisj⟩ :=
        good_node_inv hg hl hleaf
      subst hH
      subst hS
      have hciP : bisect_right n.keys key =
          n.keys.countP (fun k => decide (k ≤ key)) :=
        bisect_right_eq_countP hsort key
      set ci : Nat := bisect_right n.keys key with hcidef
      have hciLe : ci ≤ n.keys.length := by
        rw [hciP]; exact countP_le_len _ _
      have hciC : ci < n.children.length := by omega
      have hpt := sorted_countP_pointwise
        (p := fun k => decide (k ≤ key))
        (fun {u v} huv hv => by simp at hv ⊢; omega) hsort
      have hkeyL : okLo (boundL lo n.keys ci) key := by
        unfold boundL
        by_cases h0 : ci = 0
        · rw [if_pos h0]; exact hkey.1
        · rw [if_neg h0]
          have h1 := hpt.1 (ci - 1) (by omega)
          simp only [decide_eq_true_eq] at h1
          exact h1.2
      have hkeyR : okHi key (boundR n.keys hi ci) := by
        unfold boundR
        by_cases hE : ci = n.keys.length
        · rw [if_pos hE]; exact hkey.2
        · rw [if_neg hE]
          have h1 := hpt.2 ci (by omega) (by omega)
          simp only [decide_eq_true_eq] at h1
          show key ≤ n.keys.getD ci 0
          omega
      have hgci := hch ci hciC
      obtain ⟨c, hlc⟩ := good_lookup hgci
      have hgetc : pyGet n.children ci = .ok (n.children.getD ci 0) :=
        pyGet_ok _ 0 hciC
      have hrangec : ∀ q ∈ Ss.getD ci ∅, q < s.next_page_id := by
        intro q hq
        exact hrange q (Finset.mem_insert_of_mem (mem_unionFS (by omega) hq))
      by_cases hcf : c.is_full = true
      · -- the chosen child is full: split first, then descend
        obtain ⟨s₁, n₁, kstar, hsp, hnext1, hl₁, hn₁, hgood1, hfr1, hmk1⟩ :=
          splitFullChildOfParent_spec hM hl hpid hleaf hMn hsort hbnd hcl hsl
            hch hnp hdisj hrange hciC hlc hcf
        have hleaf₁ : n₁.is_leaf = false := by rw [hn₁]; exact hleaf
        have hpid₁ : n₁.page_id = some p := by rw [hn₁]; exact hpid
        have hMn₁ : n₁.max_keys_per_node = M := by rw [hn₁]; exact hMn
        have hk₁ : n₁.keys = pyInsertAt n.keys ci kstar := by rw [hn₁]
        have hc₁ : n₁.children =
            pyInsertAt n.children (ci + 1) s.next_page_id := by rw [hn₁]
        have hklen₁ : n₁.keys.length = n.keys.length + 1 := by
          rw [hk₁]; exact pyInsertAt_length _ _ _ hciLe
        have hclen₁ : n₁.children.length = n.children.length + 1 := by
          rw [hc₁]; exact pyInsertAt_length _ _ _ (by omega)
        obtain ⟨hpid₁', hMn₁', hsort₁, hbnd₁⟩ := good_fields hgood1 hl₁
        have hsep : pyGet n₁.keys ci = .ok kstar := by
          have hb1 : ci < n₁.keys.length := by omega
          rw [pyGet_ok n₁.keys 0 hb1, hk₁,
            pyInsertAt_getD_self _ _ _ _ hciLe]
        have hrc : pyGet n₁.children (ci + 1) = .ok s.next_page_id := by
          have hb1 : ci + 1 < n₁.children.length := by omega
          rw [pyGet_ok n₁.children 0 hb1, hc₁,
            pyInsertAt_getD_self _ _ _ _ (by omega)]
        obtain ⟨H₁, Ss₁, hH₁, hS₁, hcl₁, hsl₁, hch₁, hnp₁, hdisj₁⟩ :=
          good_node_inv hgood1 hl₁ hleaf₁
        obtain rfl : H = H₁ := by omega
        have hrange₁ : ∀ q ∈ insert p (unionFS Ss₁),
            q < s₁.next_page_id := by
          intro q hq
          rw [← hS₁] at hq
          rcases Finset.mem_insert.mp hq with hqn | hqo
          · omega
          · have := hrange q hqo; omega
        by_cases hck : kstar < key
        · -- descend into the fresh right sibling (index ci + 1)
          have hjC : ci + 1 < n₁.children.length := by omega
          have hgcj := hch₁ (ci + 1) hjC
          have hcid₁ : n₁.children.getD (ci + 1) 0 = s.next_page_id := by
            rw [hc₁]; exact pyInsertAt_getD_self _ _ _ _ (by omega)
          have hbL : okLo (boundL lo n₁.keys (ci + 1)) key := by
            unfold boundL
            rw [if_neg (by omega)]
            show n₁.keys.getD (ci + 1 - 1) 0 ≤ key
            have he : ci + 1 - 1 = ci := by omega
            rw [he, hk₁, pyInsertAt_getD_self _ _ _ _ hciLe]
            omega
          have hbR : okHi key (boundR n₁.keys hi (ci + 1)) := by
            unfold boundR
            by_cases hE : ci + 1 = n₁.keys.length
            · rw [if_pos hE]; exact hkey.2
            · rw [if_neg hE]
              show key ≤ n₁.keys.getD (ci + 1) 0
              rw [hk₁, pyInsertAt_getD_gt _ _ _ _ (by omega) (by omega)]
              have he : ci + 1 - 1 = ci := by omega
              rw [he]
              have h1 := hpt.2 ci (by omega) (by omega)
              simp only [decide_eq_true_eq] at h1
              omega
          have hrangej : ∀ q ∈ Ss₁.getD (ci + 1) ∅,
              q < s₁.next_page_id := by
            intro q hq
            exact hrange₁ q
              (Finset.mem_insert_of_mem (mem_unionFS (by omega) hq))
          obtain ⟨s₂, T, hrun2, hnext2, hgc2, hsub2, hmem2, hlt2, hfr2, hmk2⟩ :=
            ih s₁ (n₁.children.getD (ci + 1) 0) (boundL lo n₁.keys (ci + 1))
              (boundR n₁.keys hi (ci + 1)) H (Ss₁.getD (ci + 1) ∅)
              hM hgcj ⟨hbL, hbR⟩ hrangej (by omega)
          obtain ⟨hgood, hmem, hsubS, hfrS, hmkS⟩ :=
            good_descend_rebuild hl₁ hpid₁ hleaf₁ hMn₁ hsort₁ hbnd₁ hcl₁ hsl₁
              hch₁ hnp₁ hdisj₁ hrange₁ hjC hgc2 hsub2 hmem2 hfr2 hmk2
          refine ⟨s₂, insert p (unionFS (Ss₁.set (ci + 1) T)), ?_,
            by omega, hgood, ?_, ?_, ?_, ?_, ?_⟩
          · rw [insertIntoNodeWithSpace_full hl hleaf hgetc hlc hcf hsp hl₁
              hsep hrc, if_pos hck]
            rw [hcid₁] at hrun2
            exact hrun2
          · intro q hq
            refine hsubS ?_
            rw [← hS₁]
            exact Finset.mem_insert_of_mem hq
          · intro q hq
            rcases hmem q hq with hold | hT
            · rw [← hS₁] at hold
              rcases Finset.mem_insert.mp hold with hqn | hqo
              · exact Or.inr (by omega)
              · exact Or.inl hqo
            · rcases hmem2 q hT with hin | hge
              · have hq1 : q ∈ insert p (unionFS Ss₁) :=
                  Finset.mem_insert_of_mem (mem_unionFS (by omega) hin)
                rw [← hS₁] at hq1
                rcases Finset.mem_insert.mp hq1 with hqn | hqo
                · exact Or.inr (by omega)
                · exact Or.inl hqo
              · exact Or.inr (by omega)
          · intro q hq
            rcases hmem q hq with hold | hT
            · exact lt_of_lt_of_le (hrange₁ q hold) hnext2
            · exact hlt2 q hT
          · intro q hq
            have h2 : pmLookup s₂.pages q = pmLookup s₁.pages q := hfrS q hq
            have hqS₁ : q ∉ insert p (unionFS Ss₁) :=
              fun hcon => hq (hsubS hcon)
            rw [← hS₁] at hqS₁
            have h1 : pmLookup s₁.pages q = pmLookup s.pages q := by
              refine hfr1 q ?_ ?_
              · intro hcon
                exact hqS₁ (Finset.mem_insert_of_mem hcon)
              · intro hcon
                exact hqS₁ (by rw [hcon]; exact Finset.mem_insert_self _ _)
            rw [h2, h1]
          · show (treeKeys s₂.pages (H + 2) p : Multiset Int) =
              key ::ₘ (treeKeys s.pages (H + 2) p : Multiset Int)
            rw [hmkS, hmk1]
        · -- descend into the (now truncated) original child at index ci
          have hjC : ci < n₁.children.length := by omega
          have hgcj := hch₁ ci hjC
          have hcid₁ : n₁.children.getD ci 0 = n.children.getD ci 0 := by
            rw [hc₁]
            exact pyInsertAt_getD_lt _ _ _ _ (by omega) (by omega)
          have hbL : okLo (boundL lo n₁.keys ci) key := by
            unfold boundL
            by_cases h0 : ci = 0
            · rw [if_pos h0]; exact hkey.1
            · rw [if_neg h0]
              show n₁.keys.getD (ci - 1) 0 ≤ key
              rw [hk₁, pyInsertAt_getD_lt _ _ _ _ (by omega) (by omega)]
              have h1 := hpt.1 (ci - 1) (by omega)
              simp only [decide_eq_true_eq] at h1
              exact h1.2
          have hbR : okHi key (boundR n₁.keys hi ci) := by
            unfold boundR
            rw [if_neg (by omega)]
            show key ≤ n₁.keys.getD ci 0
            rw [hk₁, pyInsertAt_getD_self _ _ _ _ hciLe]
            omega
          have hrangej : ∀ q ∈ Ss₁.getD ci ∅, q < s₁.next_page_id := by
            intro q hq
            exact hrange₁ q
              (Finset.mem_insert_of_mem (mem_unionFS (by omega) hq))
          obtain ⟨s₂, T, hrun2, hnext2, hgc2, hsub2, hmem2, hlt2, hfr2, hmk2⟩ :=
            ih s₁ (n₁.children.getD ci 0) (boundL lo n₁.keys ci)
              (boundR n₁.keys hi ci) H (Ss₁.getD ci ∅)
              hM hgcj ⟨hbL, hbR⟩ hrangej (by omega)
          obtain ⟨hgood, hmem, hsubS, hfrS, hmkS⟩ :=
            good_descend_rebuild hl₁ hpid₁ hleaf₁ hMn₁ hsort₁ hbnd₁ hcl₁ hsl₁
              hch₁ hnp₁ hdisj₁ hrange₁ hjC hgc2 hsub2 hmem2 hfr2 hmk2
          refine ⟨s₂, insert p (unionFS (Ss₁.set ci T)), ?_,
            by omega, hgood, ?_, ?_, ?_, ?_, ?_⟩
          · rw [insertIntoNodeWithSpace_full hl hleaf hgetc hlc hcf hsp hl₁
              hsep hrc, if_neg hck]
            rw [hcid₁] at hrun2
            exact hrun2
          · intro q hq
            refine hsubS ?_
            rw [← hS₁]
            exact Finset.mem_insert_of_mem hq
          · intro q hq
            rcases hmem q hq with hold | hT
            · rw [← hS₁] at hold
              rcases Finset.mem_insert.mp hold with hqn | hqo
              · exact Or.inr (by omega)
              · exact Or.inl hqo
            · rcases hmem2 q hT with hin | hge
              · have hq1 : q ∈ insert p (unionFS Ss₁) :=
                  Finset.mem_insert_of_mem (mem_unionFS (by omega) hin)
                rw [← hS₁] at hq1
                rcases Finset.mem_insert.mp hq1 with hqn | hqo
                · exact Or.inr (by omega)
                · exact Or.inl hqo
              · exact Or.inr (by omega)
          · intro q hq
            rcases hmem q hq with hold | hT
            · exact lt_of_lt_of_le (hrange₁ q hold) hnext2
            · exact hlt2 q hT
          · intro q hq
            have h2 : pmLookup s₂.pages q = pmLookup s₁.pages q := hfrS q hq
            have hqS₁ : q ∉ insert p (unionFS Ss₁) :=
              fun hcon => hq (hsubS hcon)
            rw [← hS₁] at hqS₁
            have h1 : pmLookup s₁.pages q = pmLookup s.pages q := by
              refine hfr1 q ?_ ?_
              · intro hcon
                exact hqS₁ (Finset.mem_insert_of_mem hcon)
              · intro hcon
                exact hqS₁ (by rw [hcon]; exact Finset.mem_insert_self _ _)
            rw [h2, h1]
          · show (treeKeys s₂.pages (H + 2) p : Multiset Int) =
              key ::ₘ (treeKeys s.pages (H + 2) p : Multiset Int)
            rw [hmkS, hmk1]
      · -- the chosen child has space: plain descent
        have hcf' : c.is_full = false := by simpa using hcf
        obtain ⟨s₂, T, hrun2, hnext2, hgc2, hsub2, hmem2, hlt2, hfr2, hmk2⟩ :=
          ih s (n.children.getD ci 0) (boundL lo n.keys ci)
            (boundR n.keys hi ci) H (Ss.getD ci ∅)
            hM hgci ⟨hkeyL, hkeyR⟩ hrangec (by omega)
        obtain ⟨hgood, hmem, hsubS, hfrS, hmkS⟩ :=
          good_descend_rebuild hl hpid hleaf hMn hsort hbnd hcl hsl
            hch hnp hdisj hrange hciC hgc2 hsub2 hmem2 hfr2 hmk2
        refine ⟨s₂, insert p (unionFS (Ss.set ci T)), ?_,
          hnext2, hgood, hsubS, ?_, ?_, hfrS, ?_⟩
        · rw [insertIntoNodeWithSpace_notfull hl hleaf hgetc hlc hcf']
          exact hrun2
        · intro q hq
          rcases hmem q hq with hold | hT
          · exact Or.inl hold
          · rcases hmem2 q hT with hin | hge
            · exact Or.inl
                (Finset.mem_insert_of_mem (mem_unionFS (by omega) hin))
            · exact Or.inr hge
        · intro q hq
          rcases hmem q hq with hold | hT
          · exact lt_of_lt_of_le (hrange q hold) hnext2
          · exact hlt2 q hT
        · exact hmkS

/-- `WF` through its non-empty-root case. -/
theorem WF_of_root {st : BT} {root : Nat}
    (hroot : st.root_page_id = some root) {h : Nat} {S : Finset Nat}
    (hg : Good st.max_keys_per_node st.storage.pages root none none h S)
    (hsub : S ⊆ Finset.range st.storage.next_page_id) : WF st := by
  unfold WF
  rw [hroot]
  exact ⟨h, S, hg, hsub⟩

/-- `keylist` through its non-empty-root case. -/
theorem keylist_of_root {st : BT} {root : Nat}
    (hroot : st.root_page_id = some root) :
    st.keylist = treeKeys st.storage.pages st.storage.next_page_id root := by
  unfold BT.keylist
  rw [hroot]

/-- `keylist` of an empty tree. -/
theorem keylist_of_none {st : BT} (hroot : st.root_page_id = none) :
    st.keylist = [] := by
  unfold BT.keylist
  rw [hroot]

/-- `BTree.insert` on a well-formed tree with `max_keys_per_node ≥ 3`
succeeds, keeps the tree well-formed, keeps `max_keys_per_node`, makes the
root non-empty, and adds exactly one copy of `key` to the key multiset. -/
theorem BT_insert_spec {st : BT} (key : Int)
    (hM : 3 ≤ st.max_keys_per_node) (hwf : WF st) :
    ∃ st' : BT, st.insert key = .ok st' ∧ WF st' ∧
      st'.max_keys_per_node = st.max_keys_per_node ∧
      st'.root_page_id.isSome = true ∧
      ((st'.keylist : Multiset Int) = key ::ₘ (st.keylist : Multiset Int)) := by
  cases hroot : st.root_page_id with
  | none =>
    -- empty tree: create the first leaf
    have hmk : mkNode st.max_keys_per_node true none =
        .ok { page_id := none, max_keys_per_node := st.max_keys_per_node,
              is_leaf := true, keys := [], children := [] } := by
      unfold mkNode
      rw [if_neg (by omega)]
    refine ⟨{ st with
        root_page_id := some st.storage.next_page_id,
        storage := ⟨pmStore st.storage.pages st.storage.next_page_id
          { page_id := some st.storage.next_page_id,
            max_keys_per_node := st.max_keys_per_node, is_leaf := true,
            keys := insort_left [] key, children := [] },
          st.storage.next_page_id + 1⟩ }, ?_, ?_, rfl, rfl, ?_⟩
    · unfold BT.insert
      rw [hroot]
      simp only [hmk, Node.add_key, storeNode,
        Except.instMonad, Bind.bind, Except.bind, pure, Pure.pure,
        Except.pure]
    · show ∃ h S, _ ∧ _
      refine ⟨0, {st.storage.next_page_id}, ?_, ?_⟩
      · refine Good.leaf _ _ none none 0 (pmLookup_store_self _ _ _) rfl rfl
          rfl (insort_left_sorted List.sorted_nil key) ?_
        intro k _
        exact ⟨trivial, trivial⟩
      · intro q hq
        rw [Finset.mem_singleton.mp hq]
        refine Finset.mem_range.mpr ?_
        show st.storage.next_page_id < st.storage.next_page_id + 1
        omega
    · show ((treeKeys _ (st.storage.next_page_id + 1)
          st.storage.next_page_id : List Int) : Multiset Int) = _
      rw [treeKeys_leaf_eq st.storage.next_page_id
        (pmLookup_store_self _ _ _) rfl]
      show ((insort_left [] key : List Int) : Multiset Int) = _
      rw [Multiset.coe_eq_coe.mpr (insort_left_perm List.sorted_nil key)]
      have hnilkl : (BT.keylist st : List Int) = [] := by
        unfold BT.keylist
        rw [hroot]
      rw [hnilkl]
      exact Multiset.cons_coe key []
  | some root =>
    have hwf' : ∃ h S,
        Good st.max_keys_per_node st.storage.pages root none none h S ∧
        S ⊆ Finset.range st.storage.next_page_id := by
      unfold WF at hwf
      rw [hroot] at hwf
      exact hwf
    obtain ⟨h₀, S, hg₀, hSr⟩ := hwf'
    have hg := good_card hg₀
    set h : Nat := S.card - 1 with hhdef
    have hrangeS : ∀ q ∈ S, q < st.storage.next_page_id := by
      intro q hq
      exact Finset.mem_range.mp (hSr hq)
    have hh : h + 1 ≤ st.storage.next_page_id := by
      have h1 : S.card ≤ st.storage.next_page_id := by
        have := Finset.card_le_card hSr
        rwa [Finset.card_range] at this
      have h2 : 0 < S.card := Finset.card_pos.mpr ⟨root, Good.mem_self hg⟩
      omega
    obtain ⟨rn, hlr⟩ := good_lookup hg
    have hlr' : loadNode st.storage root = some rn := hlr
    have hkl : (BT.keylist st : List Int) =
        treeKeys st.storage.pages (h + 1) root := by
      unfold BT.keylist
      rw [hroot]
      exact treeKeys_stable st.storage.next_page_id hg hh
    by_cases hfull : rn.is_full = true
    · -- full root: grow the tree by one level, split, then descend
      set rid : Nat := st.storage.next_page_id with hriddef
      have hmkr : mkNode st.max_keys_per_node false none =
          .ok { page_id := none,
                max_keys_per_node := st.max_keys_per_node,
                is_leaf := false, keys := [], children := [] } := by
        unfold mkNode
        rw [if_neg (by omega)]
      set nr2 : Node := { page_id := some rid, max_keys_per_node := st.max_keys_per_node, is_leaf := false, keys := [], children := [root] } with hnr2
      set s₀ : NodeStore :=
        ⟨pmStore st.storage.pages rid nr2, rid + 1⟩ with hs₀
      have hs₀n : s₀.next_page_id = rid + 1 := rfl
      have hfr₀ : ∀ q, q ≠ rid →
          pmLookup s₀.pages q = pmLookup st.storage.pages q := by
        intro q hq
        exact pmLookup_store_ne _ _ hq
      have hg₀' : Good st.max_keys_per_node s₀.pages root none none h S :=
        good_frame hg (fun q hq => hfr₀ q (by have := hrangeS q hq; omega))
      have hlroot₀ : pmLookup s₀.pages root = some rn := by
        rw [hfr₀ root (by have := hrangeS root (Good.mem_self hg); omega)]
        exact hlr
      have hchn : ∀ i, i < nr2.children.length →
          Good st.max_keys_per_node s₀.pages (nr2.children.getD i 0)
            (boundL none nr2.keys i) (boundR nr2.keys none i) h
            ([S].getD i ∅) := by
        intro i hi
        have hi0 : i = 0 := by
          simp only [hnr2] at hi
          simp at hi
          omega
        subst hi0
        exact hg₀'
      have hrange₀ : ∀ q ∈ insert rid (unionFS [S]),
          q < s₀.next_page_id := by
        intro q hq
        rcases Finset.mem_insert.mp hq with hqr | hqU
        · rw [hqr]; omega
        · rcases unionFS_mem_inv hqU with ⟨i, hi, hqi⟩
          have hi0 : i = 0 := by simp at hi; omega
          subst hi0
          have := hrangeS q hqi
          omega
      have hnparg : ∀ i, i < nr2.children.length →
          rid ∉ [S].getD i ∅ := by
        intro i hi
        have hi0 : i = 0 := by
          simp only [hnr2] at hi
          simp at hi
          omega
        subst hi0
        intro hcon
        have hconS : rid ∈ S := hcon
        have := hrangeS rid hconS
        omega
      obtain ⟨s₁, n₁, kstar, hsp, hnext1, hl₁, hn₁, hgood1, hfr1, hmk1⟩ :=
        @splitFullChildOfParent_spec st.max_keys_per_node s₀ rid none none h
          nr2 [S] 0 hM (pmLookup_store_self _ _ _) rfl rfl rfl
          List.sorted_nil (by intro k hk; exact ⟨trivial, trivial⟩)
          rfl rfl hchn hnparg (List.pairwise_singleton _ _) hrange₀
          Nat.one_pos rn hlroot₀ hfull
      have hrange₁ : ∀ q ∈ insert s₀.next_page_id
          (insert rid (unionFS [S])), q < s₁.next_page_id := by
        intro q hq
        rcases Finset.mem_insert.mp hq with hqn | hqo
        · rw [hqn]
          show s₀.next_page_id < s₁.next_page_id
          omega
        · have := hrange₀ q hqo
          omega
      obtain ⟨s₂, S', hrun2, hnext2, hgood2, hsub2, hmem2, hlt2, hfr2, hmk2⟩ :=
        insertIntoNodeWithSpace_spec key s₁.next_page_id s₁ rid none none
          (h + 1) (insert s₀.next_page_id (insert rid (unionFS [S])))
          hM hgood1 ⟨trivial, trivial⟩ hrange₁
          (by show h + 1 + 1 ≤ s₁.next_page_id; omega)
      refine ⟨{ st with root_page_id := some rid, storage := s₂ },
        ?_, ?_, rfl, rfl, ?_⟩
      · unfold BT.insert
        rw [hroot]
        simp only [hlr', hfull, if_true, hmkr, Node.add_child, storeNode,
          Except.instMonad, Bind.bind, Except.bind, pure, Pure.pure,
          Except.pure]
        have hins0 : pyInsertAt ([] : List Nat) 0 root = [root] := rfl
        simp only [hins0]
        rw [← hnr2, ← hriddef, ← hs₀, hsp]
        simp only [Except.bind, hrun2]
      · show ∃ hh SS, _ ∧ _
        refine ⟨h + 1, S', hgood2, ?_⟩
        intro q hq
        exact Finset.mem_range.mpr (hlt2 q hq)
      · show ((treeKeys s₂.pages s₂.next_page_id rid : List Int) :
            Multiset Int) = _
        rw [treeKeys_stable s₂.next_page_id hgood2 (by omega)]
        have hms2 : ((treeKeys s₂.pages (h + 1 + 1) rid : List Int) :
            Multiset Int) =
            key ::ₘ ↑(treeKeys s₁.pages (h + 1 + 1) rid) := hmk2
        rw [hms2]
        have hms1 : ((treeKeys s₁.pages (h + 1 + 1) rid : List Int) :
            Multiset Int) = ↑(treeKeys s₀.pages (h + 1 + 1) rid) := hmk1
        rw [hms1]
        have hnr2leaf : nr2.is_leaf = false := rfl
        have htk₀ : treeKeys s₀.pages (h + 1 + 1) rid =
            treeKeys s₀.pages (h + 1) root := by
          rw [treeKeys_node_eq (f := h + 1) (pmLookup_store_self _ _ _)
            hnr2leaf]
          show ([] : List Int) ++
            ((([root] : List Nat).map (treeKeys s₀.pages (h + 1))).flatten)
            = _
          simp
        rw [htk₀]
        have htkfr : treeKeys s₀.pages (h + 1) root =
            treeKeys st.storage.pages (h + 1) root :=
          treeKeys_frame (h + 1) hg
            (fun q hq => hfr₀ q (by have := hrangeS q hq; omega))
        rw [htkfr, hkl]
    · -- root has space: descend directly
      have hfull' : rn.is_full = false := by simpa using hfull
      obtain ⟨s₂, S', hrun2, hnext2, hgood2, hsub2, hmem2, hlt2, hfr2, hmk2⟩ :=
        insertIntoNodeWithSpace_spec key st.storage.next_page_id st.storage
          root none none h S hM hg ⟨trivial, trivial⟩ hrangeS hh
      refine ⟨{ st with storage := s₂ }, ?_, ?_, rfl, ?_, ?_⟩
      · unfold BT.insert
        rw [hroot]
        simp only [hlr', hfull', Bool.false_eq_true, if_false, hrun2,
          Except.instMonad, Bind.bind, Except.bind, pure, Pure.pure,
          Except.pure]
      · refine WF_of_root hroot hgood2 ?_
        intro q hq
        exact Finset.mem_range.mpr (hlt2 q hq)
      · show st.root_page_id.isSome = true
        rw [hroot]
        rfl
      · have hroot2 : ({ st with storage := s₂ } : BT).root_page_id =
            some root := hroot
        rw [keylist_of_root hroot2]
        show ((treeKeys s₂.pages s₂.next_page_id root : List Int) :
            Multiset Int) = _
        rw [treeKeys_stable s₂.next_page_id hgood2 (by omega)]
        rw [hkl]
        exact hmk2

/-- Folding `BTree.insert` over a key list on a well-formed tree: all the
inserts succeed and the key multiset gains exactly the inserted keys. -/
theorem insertAll_spec (ks : List Int) :
    ∀ (st : BT), 3 ≤ st.max_keys_per_node → WF st →
    ∃ st' : BT, insertAll st ks = .ok st' ∧ WF st' ∧
      st'.max_keys_per_node = st.max_keys_per_node ∧
      ((st'.keylist : Multiset Int) =
        (ks : Multiset Int) + (st.keylist : Multiset Int)) := by
  induction ks with
  | nil =>
    intro st hM hwf
    refine ⟨st, rfl, hwf, rfl, ?_⟩
    show (st.keylist : Multiset Int) = ↑([] : List Int) + ↑st.keylist
    simp
  | cons k ks ih =>
    intro st hM hwf
    obtain ⟨st₁, hrun1, hwf1, hM1, hsome1, hmk1⟩ := BT_insert_spec k hM hwf
    obtain ⟨st₂, hrun2, hwf2, hM2, hmk2⟩ := ih st₁ (by omega) hwf1
    refine ⟨st₂, ?_, hwf2, by omega, ?_⟩
    · show insertAll st (k :: ks) = .ok st₂
      unfold insertAll
      rw [List.foldlM_cons]
      show (BT.insert st k).bind _ = _
      rw [hrun1]
      show insertAll st₁ ks = .ok st₂
      exact hrun2
    · rw [hmk2, hmk1]
      rw [mcoe_cons]
      rw [← Multiset.singleton_add]
      abel

/-- On a well-formed tree, `search` finds every key of the key list. -/
theorem BT_search_found {st : BT} {key : Int} (hwf : WF st)
    (hmem : key ∈ st.keylist) :
    ∃ pr, st.search key = .ok (true, pr) := by
  cases hroot : st.root_page_id with
  | none =>
    rw [keylist_of_none hroot] at hmem
    simp at hmem
  | some root =>
    have hwf' : ∃ h S,
        Good st.max_keys_per_node st.storage.pages root none none h S ∧
        S ⊆ Finset.range st.storage.next_page_id := by
      unfold WF at hwf
      rw [hroot] at hwf
      exact hwf
    obtain ⟨h₀, S, hg₀, hSr⟩ := hwf'
    have hg := good_card hg₀
    set h : Nat := S.card - 1 with hhdef
    have hh : h + 1 ≤ st.storage.next_page_id := by
      have h1 : S.card ≤ st.storage.next_page_id := by
        have := Finset.card_le_card hSr
        rwa [Finset.card_range] at this
      have h2 : 0 < S.card := Finset.card_pos.mpr ⟨root, Good.mem_self hg⟩
      omega
    have hmem' : key ∈ treeKeys st.storage.pages (h + 1) root := by
      rw [keylist_of_root hroot] at hmem
      rwa [treeKeys_stable st.storage.next_page_id hg hh] at hmem
    obtain ⟨pr, hpr⟩ := @searchGo_finds st.max_keys_per_node
      st.storage.next_page_id st.storage.next_page_id st.storage.pages root
      none none h S key [] hg hh hmem'
    refine ⟨pr, ?_⟩
    unfold BT.search
    rw [hroot]
    exact hpr

/-- Python `list.index` on a present element: first matching index. -/
theorem pyIndexOf_mem {l : List Int} {x : Int} (h : x ∈ l) :
    ∃ i, pyIndexOf l x = .ok i ∧ i < l.length ∧ l.getD i 0 = x := by
  induction l with
  | nil => simp at h
  | cons a l ih =>
    by_cases hax : a = x
    · refine ⟨0, ?_, by simp, by simp [hax]⟩
      unfold pyIndexOf
      rw [List.findIdx?_cons]
      simp [hax]
    · have hm : x ∈ l := by
        rcases List.mem_cons.mp h with he | hm
        · exact absurd he.symm hax
        · exact hm
      obtain ⟨i, hpy, hlen, hget⟩ := ih hm
      have hfi : l.findIdx? (fun k => decide (k = x)) = some i := by
        unfold pyIndexOf at hpy
        cases hfi : l.findIdx? (fun k => decide (k = x)) with
        | none => rw [hfi] at hpy; cases hpy
        | some j =>
          rw [hfi] at hpy
          cases hpy
          rfl
      refine ⟨i + 1, ?_, by simpa using hlen, by simpa using hget⟩
      unfold pyIndexOf
      rw [List.findIdx?_cons]
      simp [hax, hfi]

/-- **C2.**  For every sequence of inserts applied to an initially empty
tree (with a valid capacity `M ≥ 3`), `search(K)` returns `found = true`
for every key `K` that was inserted. -/
theorem C2_search_finds_inserted (M : Int) (ks : List Int) (K : Int)
    (hM : 3 ≤ M) (hK : K ∈ ks) :
    ∃ (st : BT) (pr : List (Nat × Nat)),
      insertAll (initBT M) ks = .ok st ∧
      st.search K = .ok (true, pr) := by
  obtain ⟨st, hrun, hwf, hMeq, hmk⟩ := insertAll_spec ks (initBT M) hM trivial
  have hmem : K ∈ st.keylist := by
    have hKm : K ∈ (st.keylist : Multiset Int) := by
      rw [hmk]
      have hnil : ((initBT M).keylist : List Int) = [] := rfl
      rw [hnil]
      simp only [Multiset.mem_add, Multiset.mem_coe]
      exact Or.inl hK
    exact Multiset.mem_coe.mp hKm
  obtain ⟨pr, hpr⟩ := BT_search_found hwf hmem
  exact ⟨st, pr, hrun, hpr⟩

/-- Witness for C2 at `M = 5`, keys `1..10`, searched key `3`. -/
theorem C2_search_finds_inserted_witness :
    ∃ (st : BT) (pr : List (Nat × Nat)),
      insertAll (initBT 5) [1, 2, 3, 4, 5, 6, 7, 8, 9, 10] = .ok st ∧
      st.search 3 = .ok (true, pr) :=
  C2_search_finds_inserted 5 [1, 2, 3, 4, 5, 6, 7, 8, 9, 10] 3
    (by decide) (by decide)

/-- **C7.**  `insert` performs no duplicate check: on every well-formed
tree already containing `key`, it succeeds and the key multiset afterwards
holds exactly one more copy of `key`; the tree stays well-formed (`WF`
carries per-node sortedness, so order within each node is preserved). -/
theorem C7_duplicate_insert {st : BT} {key : Int}
    (hM : 3 ≤ st.max_keys_per_node) (hwf : WF st)
    (hpresent : key ∈ st.keylist) :
    ∃ st' : BT, st.insert key = .ok st' ∧ WF st' ∧
      ((st'.keylist : Multiset Int) = key ::ₘ (st.keylist : Multiset Int)) ∧
      Multiset.count key (st'.keylist : Multiset Int) =
        Multiset.count key (st.keylist : Multiset Int) + 1 := by
  obtain ⟨st', hrun, hwf', hMeq, hsome, hmk⟩ := BT_insert_spec key hM hwf
  refine ⟨st', hrun, hwf', hmk, ?_⟩
  rw [hmk]
  exact Multiset.count_cons_self key _

/-- Witness for C7: a one-leaf tree holding `[3]`, inserting `3` again. -/
theorem C7_duplicate_insert_witness :
    ∃ st' : BT,
      BT.insert ⟨5, some 1, ⟨[(1, ⟨some 1, 5, true, [3], []⟩)], 2⟩⟩ 3
        = .ok st' ∧
      WF st' ∧
      ((st'.keylist : Multiset Int) = (3 : Int) ::ₘ
        ↑(BT.keylist ⟨5, some 1, ⟨[(1, ⟨some 1, 5, true, [3], []⟩)], 2⟩⟩)) ∧
      Multiset.count 3 (st'.keylist : Multiset Int) =
        Multiset.count 3
          (BT.keylist ⟨5, some 1, ⟨[(1, ⟨some 1, 5, true, [3], []⟩)], 2⟩⟩ :
            Multiset Int) + 1 :=
  C7_duplicate_insert (by decide)
    ⟨0, {1},
      Good.leaf 1 ⟨some 1, 5, true, [3], []⟩ none none 0 rfl rfl rfl rfl
        (by decide) (by intro k _; exact ⟨trivial, trivial⟩),
      by decide⟩
    (by decide)

/-- **C1.**  On the claim's own scenario — fresh tree, `M = 5`, insert
`1..10`, then `delete(3)` — every insert succeeds, but the delete raises
`AttributeError` (`btree.py` calls `child_node.is_at_minimum_capacity()`,
an attribute `node.py` never defines: its check is named
`has_minimum_keys`), so the claimed post-delete `search` behaviour is
unreachable. -/
theorem C1_delete_after_inserts_raises :
    ∃ st : BT, insertAll (initBT 5) [1, 2, 3, 4, 5, 6, 7, 8, 9, 10]
        = .ok st ∧
      st.delete 3 = .error .attributeError :=
  ⟨_, rfl, rfl⟩

/-- **C6.**  `delete(key)` on a tree whose root is a leaf holding `key`
exactly once: the key is removed at the index Python's `list.index` finds
and the node is stored back at the root page; every other key (with
multiplicity, in order) is kept, and a subsequent `search(key)` reports
not-found. -/
theorem C6_delete_from_root_leaf {st : BT} {r : Nat} {n : Node} {key : Int}
    (hroot : st.root_page_id = some r)
    (hl : pmLookup st.storage.pages r = some n)
    (hpid : n.page_id = some r)
    (hleaf : n.is_leaf = true)
    (hnext : 0 < st.storage.next_page_id)
    (hcount : n.keys.count key = 1) :
    ∃ (i : Nat) (nd : Node),
      pyIndexOf n.keys key = .ok i ∧
      nd = { n with keys := n.keys.eraseIdx i } ∧
      n.keys.getD i 0 = key ∧
      st.delete key = .ok { st with storage := ⟨pmStore st.storage.pages r nd, st.storage.next_page_id⟩ } ∧
      (key ::ₘ (nd.keys : Multiset Int)) = ↑n.keys ∧
      key ∉ nd.keys ∧
      (∃ pr, BT.search { st with storage := ⟨pmStore st.storage.pages r nd, st.storage.next_page_id⟩ } key = .ok (false, pr)) := by
  have hmem : key ∈ n.keys := by
    have hpos : 0 < n.keys.count key := by omega
    exact List.count_pos_iff.mp hpos
  obtain ⟨i, hpy, hilen, hget⟩ := pyIndexOf_mem hmem
  obtain ⟨f, hf⟩ : ∃ f, st.storage.next_page_id = f + 1 :=
    ⟨st.storage.next_page_id - 1, by omega⟩
  set nd : Node := { n with keys := n.keys.eraseIdx i } with hnd
  have hndleaf : nd.is_leaf = true := hleaf
  have hndpid : nd.page_id = some r := hpid
  have hperm : n.keys.Perm (key :: n.keys.eraseIdx i) := by
    have := eraseIdx_perm_int n.keys i hilen
    rwa [hget] at this
  have hmk : key ::ₘ ((n.keys.eraseIdx i : List Int) : Multiset Int) =
      ↑n.keys := by
    rw [Multiset.cons_coe]
    exact Multiset.coe_eq_coe.mpr hperm.symm
  have hnotmem : key ∉ n.keys.eraseIdx i := by
    intro hcon
    have h1 : (1 : Nat) ≤ (n.keys.eraseIdx i).count key :=
      List.count_pos_iff.mpr hcon
    have h2 : ((n.keys : Multiset Int)).count key = 1 := by
      rw [Multiset.coe_count]; exact hcount
    rw [← hmk] at h2
    rw [Multiset.count_cons_self, Multiset.coe_count] at h2
    omega
  have hload : loadNode st.storage r = some n := hl
  have hsA : storeNode st.storage nd =
      (⟨pmStore st.storage.pages r nd, st.storage.next_page_id⟩, r, nd) := by
    unfold storeNode
    rw [hndpid]
  have hdr : deleteRecursively st.storage.next_page_id key st.storage r =
      .ok ⟨pmStore st.storage.pages r nd, st.storage.next_page_id⟩ := by
    rw [hf]
    simp only [deleteRecursively, hload, hpy, hleaf, if_true,
      Except.instMonad, Bind.bind, Except.bind, pure, Pure.pure,
      Except.pure]
    have hndE : ({ page_id := n.page_id, max_keys_per_node := n.max_keys_per_node, is_leaf := true, keys := n.keys.eraseIdx i, children := n.children } : Node) = nd := by
      rw [hnd, hleaf]
    rw [hndE, hsA, hf]
  have hload' : loadNode
      (⟨pmStore st.storage.pages r nd, st.storage.next_page_id⟩ : NodeStore)
      r = some nd := pmLookup_store_self _ _ _
  refine ⟨i, nd, hpy, hnd, hget, ?_, hmk, hnotmem, ?_⟩
  · unfold BT.delete
    rw [hroot]
    simp only [hdr, hload', Except.instMonad, Bind.bind, Except.bind,
      pure, Pure.pure, Except.pure]
    rw [if_neg]
    intro hcon
    rw [hndleaf] at hcon
    simp at hcon
  · refine ⟨[(r, bisect_left nd.keys key)], ?_⟩
    unfold BT.search
    have hroot' : ({ st with storage := ⟨pmStore st.storage.pages r nd, st.storage.next_page_id⟩ } : BT).root_page_id = some r := hroot
    rw [hroot']
    show searchGo (⟨pmStore st.storage.pages r nd, st.storage.next_page_id⟩ : NodeStore) key st.storage.next_page_id r [] = _
    rw [hf]
    have hload2 : loadNode
        (⟨pmStore st.storage.pages r nd, f + 1⟩ : NodeStore) r = some nd :=
      pmLookup_store_self _ _ _
    rw [searchGo_succ_some hload2]
    rw [if_neg, if_pos hndleaf]
    · rfl
    · intro hcon
      have hkm : key ∈ nd.keys := by
        rw [← hcon.2]
        exact mem_of_getD hcon.1
      exact hnotmem hkm

/-- Witness for C6: root leaf `[2, 3, 4]`, deleting `3`. -/
theorem C6_delete_from_root_leaf_witness :
    ∃ (i : Nat) (nd : Node),
      pyIndexOf [2, 3, 4] 3 = .ok i ∧
      nd = { page_id := some 1, max_keys_per_node := 5, is_leaf := true, keys := ([2, 3, 4] : List Int).eraseIdx i, children := [] } ∧
      ([2, 3, 4] : List Int).getD i 0 = 3 ∧
      BT.delete ⟨5, some 1, ⟨[(1, ⟨some 1, 5, true, [2, 3, 4], []⟩)], 2⟩⟩ 3 = .ok { max_keys_per_node := 5, root_page_id := some 1, storage := ⟨pmStore [(1, ⟨some 1, 5, true, [2, 3, 4], []⟩)] 1 nd, 2⟩ } ∧
      ((3 : Int) ::ₘ (nd.keys : Multiset Int)) = ↑([2, 3, 4] : List Int) ∧
      (3 : Int) ∉ nd.keys ∧
      (∃ pr, BT.search { max_keys_per_node := 5, root_page_id := some 1, storage := ⟨pmStore [(1, ⟨some 1, 5, true, [2, 3, 4], []⟩)] 1 nd, 2⟩ } 3 = .ok (false, pr)) :=
  @C6_delete_from_root_leaf ⟨5, some 1, ⟨[(1, ⟨some 1, 5, true, [2, 3, 4], []⟩)], 2⟩⟩ 1 ⟨some 1, 5, true, [2, 3, 4], []⟩ 3
    rfl rfl rfl rfl (by decide) (by decide)

/-- **C4.**  `split_into_two_nodes` on a full node (`len(keys) = M`,
`t = ceil(M/2) = min_degree_from_capacity`): the promoted key is the
original `keys[t-1]`, the right sibling gets `keys[t..]` (and
`children[t..]` when internal), the node itself is left with `keys[..t-1]`
(and `children[..t]`).  The model of the method is a pure function
`Node → Except PyErr (Int × Node × Node)` over the node record alone —
it takes no storage argument and returns none, so it stores nothing. -/
theorem C4_split_into_two_nodes (n : Node)
    (hM : 3 ≤ n.max_keys_per_node)
    (hfull : (n.keys.length : Int) = n.max_keys_per_node) :
    ∃ spi : Nat,
      (spi : Int) = n.min_degree_from_capacity - 1 ∧
      n.min_degree_from_capacity = ceilHalf n.max_keys_per_node ∧
      n.split_into_two_nodes = .ok (n.keys.getD spi 0, { n with keys := n.keys.take spi, children := if n.is_leaf then n.children else n.children.take (spi + 1) }, { page_id := none, max_keys_per_node := n.max_keys_per_node, is_leaf := n.is_leaf, keys := n.keys.drop (spi + 1), children := if n.is_leaf then [] else n.children.drop (spi + 1) }) := by
  have htdef : n.min_degree_from_capacity =
      (n.max_keys_per_node + 1) / 2 := rfl
  refine ⟨((n.max_keys_per_node + 1) / 2 - 1).toNat, by rw [htdef]; omega,
    rfl, ?_⟩
  exact (split_full_spec hM (by omega) (by rw [htdef]; omega)).1

/-- Witness for C4: full leaf `[1, 2, 3, 4, 5]` at `M = 5`
(`t = 3`: promoted `3`, left `[1, 2]`, right `[4, 5]`). -/
theorem C4_split_into_two_nodes_witness :
    ∃ spi : Nat,
      (spi : Int) =
        Node.min_degree_from_capacity ⟨none, 5, true, [1, 2, 3, 4, 5], []⟩
          - 1 ∧
      Node.min_degree_from_capacity ⟨none, 5, true, [1, 2, 3, 4, 5], []⟩ =
        ceilHalf 5 ∧
      Node.split_into_two_nodes ⟨none, 5, true, [1, 2, 3, 4, 5], []⟩ =
        .ok (([1, 2, 3, 4, 5] : List Int).getD spi 0, { page_id := none, max_keys_per_node := 5, is_leaf := true, keys := ([1, 2, 3, 4, 5] : List Int).take spi, children := if true then ([] : List Nat) else ([] : List Nat).take (spi + 1) }, { page_id := none, max_keys_per_node := 5, is_leaf := true, keys := ([1, 2, 3, 4, 5] : List Int).drop (spi + 1), children := if true then ([] : List Nat) else ([] : List Nat).drop (spi + 1) }) :=
  C4_split_into_two_nodes ⟨none, 5, true, [1, 2, 3, 4, 5], []⟩
    (by decide) (by decide)

/-- **C9.**  `Node.__init__` rejects every capacity below 3 with
`ValueError` and accepts every capacity `m ≥ 3`, deriving
`min_degree = ceil(m/2)` (characterized by `2t - 1 ≤ m ≤ 2t`) and
`min_keys = min_degree - 1` on an empty node. -/
theorem C9_node_construction (m : Int) (il : Bool) (pid : Option Nat) :
    (mkNode m il pid = .error .valueError ↔ m < 3) ∧
    (3 ≤ m → ∃ nd : Node,
      mkNode m il pid = .ok nd ∧
      nd.max_keys_per_node = m ∧ nd.is_leaf = il ∧ nd.page_id = pid ∧
      nd.keys = [] ∧ nd.children = [] ∧
      2 * nd.min_degree_from_capacity - 1 ≤ m ∧
      m ≤ 2 * nd.min_degree_from_capacity ∧
      nd.min_keys = nd.min_degree_from_capacity - 1) := by
  constructor
  · constructor
    · intro herr
      by_contra hcon
      unfold mkNode at herr
      rw [if_neg (by omega)] at herr
      cases herr
    · intro hlt
      unfold mkNode
      rw [if_pos hlt]
  · intro hge
    refine ⟨{ page_id := pid, max_keys_per_node := m, is_leaf := il, keys := [], children := [] }, ?_, rfl, rfl, rfl, rfl, rfl, ?_, ?_, rfl⟩
    · unfold mkNode
      rw [if_neg (by omega)]
    · show 2 * ((m + 1) / 2) - 1 ≤ m
      omega
    · show m ≤ 2 * ((m + 1) / 2)
      omega

/-- Witness for C9 at the claim's examples: `m = 2` (rejected), `m = 5`
(`t = 3`, `min_keys = 2`) and `m = 4` (`t = 2`, `min_keys = 1`). -/
theorem C9_node_construction_witness :
    (mkNode 2 true none = .error .valueError ↔ (2 : Int) < 3) ∧
    (3 ≤ (5 : Int)) ∧
    (3 ≤ (4 : Int)) ∧
    (∃ nd : Node,
      mkNode 5 true none = .ok nd ∧
      nd.max_keys_per_node = 5 ∧ nd.is_leaf = true ∧ nd.page_id = none ∧
      nd.keys = [] ∧ nd.children = [] ∧
      2 * nd.min_degree_from_capacity - 1 ≤ 5 ∧
      (5 : Int) ≤ 2 * nd.min_degree_from_capacity ∧
      nd.min_keys = nd.min_degree_from_capacity - 1) ∧
    (∃ nd : Node,
      mkNode 4 false none = .ok nd ∧
      nd.max_keys_per_node = 4 ∧ nd.is_leaf = false ∧ nd.page_id = none ∧
      nd.keys = [] ∧ nd.children = [] ∧
      2 * nd.min_degree_from_capacity - 1 ≤ 4 ∧
      (4 : Int) ≤ 2 * nd.min_degree_from_capacity ∧
      nd.min_keys = nd.min_degree_from_capacity - 1) :=
  ⟨(C9_node_construction 2 true none).1, by decide, by decide,
    (C9_node_construction 5 true none).2 (by decide),
    (C9_node_construction 4 false none).2 (by decide)⟩

/-- **C8.**  `DiskPage.from_bytes` never propagates an error: decode as
UTF-8, right-strip NUL padding, parse; an empty stripped string, a
`UnicodeDecodeError` or a `JSONDecodeError` all yield the empty mapping;
a successful parse yields the parsed value.  (`fromBytes` is a total
function — the `try/except` catches exactly these two error types.) -/
theorem C8_from_bytes_total {α : Type} (C : JsonCodec α) (bd : List Nat) :
    (utf8Decode bd = none → fromBytes C bd = C.emptyMap) ∧
    (∀ s, utf8Decode bd = some s → rstripNul s = [] →
      fromBytes C bd = C.emptyMap) ∧
    (∀ s e, utf8Decode bd = some s → rstripNul s ≠ [] →
      C.loads (rstripNul s) = .error e → fromBytes C bd = C.emptyMap) ∧
    (∀ s v, utf8Decode bd = some s → rstripNul s ≠ [] →
      C.loads (rstripNul s) = .ok v → fromBytes C bd = v) := by
  refine ⟨?_, ?_, ?_, ?_⟩
  · intro h
    unfold fromBytes
    rw [h]
  · intro s h hs
    unfold fromBytes
    rw [h]
    show (if rstripNul s = [] then C.emptyMap else _) = _
    rw [if_pos hs]
  · intro s e h hs hl
    unfold fromBytes
    rw [h]
    show (if rstripNul s = [] then C.emptyMap else _) = _
    rw [if_neg hs]
    show (match C.loads (rstripNul s) with
      | .ok v => v | .error _ => C.emptyMap) = _
    rw [hl]
  · intro s v h hs hl
    unfold fromBytes
    rw [h]
    show (if rstripNul s = [] then C.emptyMap else _) = _
    rw [if_neg hs]
    show (match C.loads (rstripNul s) with
      | .ok v => v | .error _ => C.emptyMap) = _
    rw [hl]

/-- Witness for C8 on the four paths: invalid UTF-8 (`FF`), all-NUL
padding, a string the codec's `loads` rejects (`"x"` plus padding), and a
successfully parsed string (`"ab"` plus padding). -/
theorem C8_from_bytes_total_witness :
    fromBytes testCodec [0xFF] = testCodec.emptyMap ∧
    fromBytes testCodec [0, 0, 0] = testCodec.emptyMap ∧
    fromBytes testCodec [0x78, 0] = testCodec.emptyMap ∧
    fromBytes testCodec [0x61, 0x62, 0] = [Char.ofNat 97, Char.ofNat 98] :=
  ⟨(C8_from_bytes_total testCodec [0xFF]).1 rfl,
   (C8_from_bytes_total testCodec [0, 0, 0]).2.1 _ rfl (by decide),
   (C8_from_bytes_total testCodec [0x78, 0]).2.2.1 _ () rfl (by decide) rfl,
   (C8_from_bytes_total testCodec [0x61, 0x62, 0]).2.2.2 _ _ rfl
     (by decide) rfl⟩

/-- **C3 (counterexample).**  The claim says a cache miss on a page whose
file region is empty returns null, *including an all-zero region inside
the file*.  With `page_size = 4` and an 8-byte all-zero file, page 1's
region is in-file and all zero, the cache misses — and the fetch returns
a page (with empty content), not null: `_read_page_from_disk` returns
`None` only when `file.read` yields zero bytes, i.e. past end-of-file. -/
theorem C3_counterexample :
    odLookup ([] : List (Nat × DiskPage (List Char))) 1 = none ∧
    ((List.replicate 8 0 : List Nat).drop (1 * 4)).take 4 = [0, 0, 0, 0] ∧
    (fetchPageFromCacheOrDisk testCodec
      ⟨100, [], 4, 1, List.replicate 8 0⟩ 1).1.isSome = true :=
  ⟨rfl, by decide, rfl⟩

/-- **C3 (amended).**  On a cache miss (with room in the cache, so no
eviction interferes), `fetch_page_from_cache_or_disk(n)` returns null iff
the read at the page's offset yields zero bytes — the region starts at or
past end-of-file (or `page_size = 0`).  Any nonempty region — all-zero
included — yields a page numbered `n`, clean, whose content is
`from_bytes` of the raw region. -/
theorem C3_fetch_miss_amended {α : Type} (C : JsonCodec α)
    (st : StorageManager α) (pn : Nat)
    (hmiss : odLookup st.page_cache pn = none)
    (hspace : st.page_cache.length < st.max_cached_pages) :
    ((fetchPageFromCacheOrDisk C st pn).1 = none ↔
      st.file.length ≤ pn * st.page_size ∨ st.page_size = 0) ∧
    (∀ pg, (fetchPageFromCacheOrDisk C st pn).1 = some pg →
      pg.page_number = pn ∧ pg.has_unsaved_changes = false ∧
      pg.content =
        fromBytes C ((st.file.drop (pn * st.page_size)).take st.page_size)) := by
  have hnoev : (if st.max_cached_pages ≤ st.page_cache.length
      then evictPageFromCache C st else st) = st := if_neg (by omega)
  have hfe : fetchPageFromCacheOrDisk C st pn =
      (match readPageFromDisk C st pn with
       | none => (none, st)
       | some page =>
          (some page,
            { st with page_cache := odSet st.page_cache pn page })) := by
    unfold fetchPageFromCacheOrDisk
    rw [hmiss, hnoev]
  have hrd : readPageFromDisk C st pn =
      (if ((st.file.drop (pn * st.page_size)).take st.page_size) = []
       then none
       else some ⟨pn, 4096,
        fromBytes C ((st.file.drop (pn * st.page_size)).take st.page_size),
        false⟩) := rfl
  have hchar : ((st.file.drop (pn * st.page_size)).take st.page_size = []) ↔
      (st.file.length ≤ pn * st.page_size ∨ st.page_size = 0) := by
    constructor
    · intro h
      rcases List.take_eq_nil_iff.mp h with h1 | h2
      · exact Or.inr h1
      · have := List.drop_eq_nil_iff.mp h2
        exact Or.inl this
    · intro h
      rcases h with h1 | h2
      · rw [List.drop_eq_nil_iff.mpr h1, List.take_nil]
      · rw [h2, List.take_zero]
  by_cases hraw : (st.file.drop (pn * st.page_size)).take st.page_size = []
  · constructor
    · rw [hfe, hrd, if_pos hraw]
      exact ⟨fun _ => hchar.mp hraw, fun _ => rfl⟩
    · intro pg hpg
      rw [hfe, hrd, if_pos hraw] at hpg
      cases hpg
  · constructor
    · rw [hfe, hrd, if_neg hraw]
      constructor
      · intro hcon
        have : (some (⟨pn, 4096, fromBytes C ((st.file.drop (pn * st.page_size)).take st.page_size), false⟩ : DiskPage α)) = (none : Option (DiskPage α)) := hcon
        cases this
      · intro hcon
        exact absurd (hchar.mpr hcon) hraw
    · intro pg hpg
      rw [hfe, hrd, if_neg hraw] at hpg
      have h2 : (some (⟨pn, 4096, fromBytes C ((st.file.drop (pn * st.page_size)).take st.page_size), false⟩ : DiskPage α)) = some pg := hpg
      have h3 := Option.some.inj h2
      rw [← h3]
      exact ⟨rfl, rfl, rfl⟩

/-- Witness for the amended C3: a 4-byte file, page 1's region starts at
end-of-file, the fetch misses on an empty cache. -/
theorem C3_fetch_miss_amended_witness :
    ((fetchPageFromCacheOrDisk testCodec
        (⟨100, [], 4, 1, [9, 9, 9, 9]⟩ : StorageManager (List Char)) 1).1
          = none ↔
      ([9, 9, 9, 9] : List Nat).length ≤ 1 * 4 ∨ 4 = 0) ∧
    (∀ pg, (fetchPageFromCacheOrDisk testCodec
        (⟨100, [], 4, 1, [9, 9, 9, 9]⟩ : StorageManager (List Char)) 1).1
          = some pg →
      pg.page_number = 1 ∧ pg.has_unsaved_changes = false ∧
      pg.content = fromBytes testCodec
        ((([9, 9, 9, 9] : List Nat).drop (1 * 4)).take 4)) :=
  C3_fetch_miss_amended testCodec ⟨100, [], 4, 1, [9, 9, 9, 9]⟩ 1
    rfl (by decide)

/-- The eviction loop on an all-dirty prefix `todo`: every entry of
`todo` is written to disk (in LRU order), marked clean and re-appended at
the MRU end, and the loop reports no early return. -/
theorem evictLoop_all_dirty {α : Type} (C : JsonCodec α) :
    ∀ (todo done : List (Nat × DiskPage α)) (mcp ps npid : Nat)
      (file : List Nat),
      (∀ e ∈ todo, e.2.has_unsaved_changes = true) →
      evictLoop C todo.length ⟨mcp, todo ++ done, ps, npid, file⟩ =
        (⟨mcp,
          done ++ todo.map
            (fun e => (e.1, { e.2 with has_unsaved_changes := false })),
          ps, npid,
          todo.foldl (fun f e => writePageToDisk C ps f e.2) file⟩,
          false) := by
  intro todo
  induction todo with
  | nil =>
    intro done mcp ps npid file _
    show evictLoop C 0 _ = _
    rw [evictLoop]
    simp
  | cons e todo ih =>
    intro done mcp ps npid file hdirty
    obtain ⟨pn, pg⟩ := e
    have hd : pg.has_unsaved_changes = true :=
      hdirty (pn, pg) (List.mem_cons_self _ _)
    show evictLoop C (todo.length + 1)
      ⟨mcp, (pn, pg) :: (todo ++ done), ps, npid, file⟩ = _
    simp only [evictLoop, hd, if_true]
    rw [List.append_assoc]
    have ih' := ih (done ++ [(pn, { pg with has_unsaved_changes := false })])
      mcp ps npid (writePageToDisk C ps file pg)
      (fun e he => hdirty e (List.mem_cons_of_mem _ he))
    rw [ih']
    simp only [List.append_assoc, List.singleton_append, List.map_cons,
      List.foldl_cons]

/-- **C5.**  Eviction on a cache in which every page is dirty: each page
is written to disk and marked clean, each is given a second chance
(re-appended at the MRU end), and then exactly the entry that was at the
LRU end when eviction began — now clean — is evicted, so the cache ends
as the cleaned tail in original order and shrinks by exactly one. -/
theorem C5_evict_all_dirty {α : Type} (C : JsonCodec α)
    (mcp ps npid : Nat) (file : List Nat) (pn : Nat) (pg : DiskPage α)
    (rest : List (Nat × DiskPage α))
    (hdirty : ∀ e ∈ (pn, pg) :: rest, e.2.has_unsaved_changes = true) :
    evictPageFromCache C ⟨mcp, (pn, pg) :: rest, ps, npid, file⟩ =
      ⟨mcp,
        rest.map (fun e => (e.1, { e.2 with has_unsaved_changes := false })),
        ps, npid,
        ((pn, pg) :: rest).foldl
          (fun f e => writePageToDisk C ps f e.2) file⟩ ∧
    (evictPageFromCache C
      ⟨mcp, (pn, pg) :: rest, ps, npid, file⟩).page_cache.length + 1 =
      ((pn, pg) :: rest).length := by
  have hloop := evictLoop_all_dirty C ((pn, pg) :: rest) [] mcp ps npid
    file hdirty
  rw [List.append_nil] at hloop
  have heq : evictPageFromCache C ⟨mcp, (pn, pg) :: rest, ps, npid, file⟩ =
      ⟨mcp,
        rest.map (fun e => (e.1, { e.2 with has_unsaved_changes := false })),
        ps, npid,
        ((pn, pg) :: rest).foldl
          (fun f e => writePageToDisk C ps f e.2) file⟩ := by
    unfold evictPageFromCache
    rw [hloop]
    rfl
  refine ⟨heq, ?_⟩
  rw [heq]
  show (rest.map _).length + 1 = rest.length + 1
  rw [List.length_map]

/-- Witness for C5: a two-page cache, both pages dirty, `page_size = 2`. -/
theorem C5_evict_all_dirty_witness :
    evictPageFromCache testCodec ⟨2, [(1, ⟨1, 4096, [Char.ofNat 97], true⟩), (2, ⟨2, 4096, [Char.ofNat 98], true⟩)], 2, 3, []⟩ =
      ⟨2,
        ([(2, ⟨2, 4096, [Char.ofNat 98], true⟩)] :
          List (Nat × DiskPage (List Char))).map
            (fun e => (e.1, { e.2 with has_unsaved_changes := false })),
        2, 3,
        ([(1, ⟨1, 4096, [Char.ofNat 97], true⟩), (2, ⟨2, 4096, [Char.ofNat 98], true⟩)] :
          List (Nat × DiskPage (List Char))).foldl
            (fun f e => writePageToDisk testCodec 2 f e.2) []⟩ ∧
    (evictPageFromCache testCodec ⟨2, [(1, ⟨1, 4096, [Char.ofNat 97], true⟩), (2, ⟨2, 4096, [Char.ofNat 98], true⟩)], 2, 3, []⟩).page_cache.length + 1 =
      ([(1, ⟨1, 4096, [Char.ofNat 97], true⟩), (2, ⟨2, 4096, [Char.ofNat 98], true⟩)] :
        List (Nat × DiskPage (List Char))).length :=
  C5_evict_all_dirty testCodec 2 2 3 [] 1 ⟨1, 4096, [Char.ofNat 97], true⟩
    [(2, ⟨2, 4096, [Char.ofNat 98], true⟩)] (by decide)

/-! ### Cache-size lemmas for C10 -/

theorem odSet_length_le {β : Type} (k : Nat) (v : β) :
    ∀ (c : List (Nat × β)), (odSet c k v).length ≤ c.length + 1 := by
  intro c
  induction c with
  | nil => simp [odSet]
  | cons e c ih =>
    obtain ⟨q, w⟩ := e
    by_cases hq : q = k
    · simp [odSet, hq]
    · simp only [odSet, if_neg hq, List.length_cons]
      omega

theorem odSet_length_of_isSome {β : Type} (k : Nat) (v : β) :
    ∀ (c : List (Nat × β)), (odLookup c k).isSome = true →
    (odSet c k v).length = c.length := by
  intro c
  induction c with
  | nil => intro h; simp [odLookup] at h
  | cons e c ih =>
    obtain ⟨q, w⟩ := e
    intro h
    by_cases hq : q = k
    · simp [odSet, hq]
    · simp only [odLookup, if_neg hq] at h
      simp only [odSet, if_neg hq, List.length_cons]
      rw [ih h]

theorem odLookup_odSet_self {β : Type} (k : Nat) (v : β) :
    ∀ (c : List (Nat × β)), (odLookup (odSet c k v) k).isSome = true := by
  intro c
  induction c with
  | nil => simp [odSet, odLookup]
  | cons e c ih =>
    obtain ⟨q, w⟩ := e
    by_cases hq : q = k
    · simp [odSet, odLookup, hq]
    · simp only [odSet, if_neg hq, odLookup]
      exact ih

theorem odLookup_append_isSome {β : Type} (k : Nat)
    {c₂ : List (Nat × β)} (h : (odLookup c₂ k).isSome = true) :
    ∀ (c₁ : List (Nat × β)), (odLookup (c₁ ++ c₂) k).isSome = true := by
  intro c₁
  induction c₁ with
  | nil => exact h
  | cons e c₁ ih =>
    obtain ⟨q, w⟩ := e
    by_cases hq : q = k
    · simp [odLookup, hq]
    · simp only [List.cons_append, odLookup, if_neg hq]
      exact ih

theorem eraseP_len_of_isSome {β : Type} (k : Nat) :
    ∀ (c : List (Nat × β)), (odLookup c k).isSome = true →
    (c.eraseP (fun e => e.1 == k)).length + 1 = c.length := by
  intro c
  induction c with
  | nil => intro h; simp [odLookup] at h
  | cons e c ih =>
    obtain ⟨q, w⟩ := e
    intro h
    by_cases hq : q = k
    · rw [List.eraseP_cons_of_pos (by simp [hq])]
      rfl
    · simp only [odLookup, if_neg hq] at h
      rw [List.eraseP_cons_of_neg (by simp [hq])]
      simp only [List.length_cons]
      rw [ih h]

theorem odMoveToEnd_length {β : Type} (k : Nat) (c : List (Nat × β))
    (h : (odLookup c k).isSome = true) :
    (odMoveToEnd c k).length = c.length := by
  unfold odMoveToEnd
  cases hlk : odLookup c k with
  | none => rfl
  | some v =>
    have := eraseP_len_of_isSome k c h
    simp only [List.length_append, List.length_cons, List.length_nil]
    omega

theorem odLookup_odMoveToEnd_isSome {β : Type} (k : Nat)
    (c : List (Nat × β)) (h : (odLookup c k).isSome = true) :
    (odLookup (odMoveToEnd c k) k).isSome = true := by
  unfold odMoveToEnd
  cases hlk : odLookup c k with
  | none => exact h
  | some v =>
    exact odLookup_append_isSome k (by simp [odLookup]) _

/-- The eviction loop never grows the cache; an early return means it
shrank; `max_cached_pages` is untouched. -/
theorem evictLoop_le {α : Type} (C : JsonCodec α) :
    ∀ (iters : Nat) (st : StorageManager α),
      (evictLoop C iters st).1.page_cache.length ≤
        st.page_cache.length ∧
      ((evictLoop C iters st).2 = true →
        (evictLoop C iters st).1.page_cache.length + 1 ≤
          st.page_cache.length) ∧
      (evictLoop C iters st).1.max_cached_pages = st.max_cached_pages := by
  intro iters
  induction iters with
  | zero =>
    intro st
    refine ⟨le_refl _, ?_, rfl⟩
    intro h
    rw [evictLoop] at h
    simp at h
  | succ iters ih =>
    intro st
    rcases hc : st.page_cache with _ | ⟨⟨pn, pg⟩, rest⟩
    · have heq : evictLoop C (iters + 1) st = (st, false) := by
        rw [evictLoop, hc]
      rw [heq]
      refine ⟨?_, ?_, rfl⟩
      · show st.page_cache.length ≤ ([] : List (Nat × DiskPage α)).length
        rw [hc]
      · intro h
        simp at h
    · by_cases hd : pg.has_unsaved_changes = true
      · have hstep : evictLoop C (iters + 1) st =
            evictLoop C iters { st with
              page_cache := rest ++
                [(pn, { pg with has_unsaved_changes := false })],
              file := writePageToDisk C st.page_size st.file pg } := by
          rw [evictLoop, hc]
          simp only [hd, if_true]
        have := ih { st with
          page_cache := rest ++
            [(pn, { pg with has_unsaved_changes := false })],
          file := writePageToDisk C st.page_size st.file pg }
        rw [← hstep] at this
        obtain ⟨h1, h2, h3⟩ := this
        simp only [List.length_append, List.length_cons,
          List.length_nil] at h1 h2
        refine ⟨?_, ?_, h3⟩
        · show (evictLoop C (iters + 1) st).1.page_cache.length ≤
            ((pn, pg) :: rest).length
          simp only [List.length_cons]
          omega
        · intro hflag
          have := h2 hflag
          show (evictLoop C (iters + 1) st).1.page_cache.length + 1 ≤
            ((pn, pg) :: rest).length
          simp only [List.length_cons]
          omega
      · have hd' : pg.has_unsaved_changes = false := by simpa using hd
        have hstep : evictLoop C (iters + 1) st =
            ({ st with page_cache := rest }, true) := by
          rw [evictLoop, hc]
          simp only [hd', Bool.false_eq_true, if_false]
        rw [hstep]
        refine ⟨?_, ?_, rfl⟩
        · show rest.length ≤ ((pn, pg) :: rest).length
          simp only [List.length_cons]
          omega
        · intro _
          show rest.length + 1 ≤ ((pn, pg) :: rest).length
          simp only [List.length_cons]
          omega

/-- `_evict_page_from_cache` removes at least one entry from a nonempty
cache and keeps `max_cached_pages`. -/
theorem evictPageFromCache_le {α : Type} (C : JsonCodec α)
    (st : StorageManager α) :
    (evictPageFromCache C st).page_cache.length ≤ st.page_cache.length ∧
    (1 ≤ st.page_cache.length →
      (evictPageFromCache C st).page_cache.length + 1 ≤
        st.page_cache.length) ∧
    (evictPageFromCache C st).max_cached_pages = st.max_cached_pages := by
  obtain ⟨h1, h2, h3⟩ := evictLoop_le C st.page_cache.length st
  rcases hres : evictLoop C st.page_cache.length st
    with ⟨⟨mcp', cache', ps', np', file'⟩, flag⟩
  rw [hres] at h1 h2 h3
  simp only at h1 h2 h3
  cases flag with
  | true =>
    have heq : evictPageFromCache C st =
        ⟨mcp', cache', ps', np', file'⟩ := by
      unfold evictPageFromCache
      rw [hres]
    rw [heq]
    exact ⟨h1, fun _ => h2 rfl, h3⟩
  | false =>
    cases cache' with
    | nil =>
      have heq : evictPageFromCache C st =
          ⟨mcp', [], ps', np', file'⟩ := by
        unfold evictPageFromCache
        rw [hres]
      rw [heq]
      refine ⟨h1, ?_, h3⟩
      intro hlen
      show ([] : List (Nat × DiskPage α)).length + 1 ≤ _
      simp only [List.length_nil]
      omega
    | cons e rest =>
      have heq : evictPageFromCache C st =
          ⟨mcp', rest, ps', np', file'⟩ := by
        unfold evictPageFromCache
        rw [hres]
      rw [heq]
      simp only [List.length_cons] at h1
      refine ⟨?_, ?_, h3⟩
      · show rest.length ≤ _
        omega
      · intro _
        show rest.length + 1 ≤ _
        omega

/-- `fetch_page_from_cache_or_disk` keeps the cache within
`max_cached_pages` (which it never changes); a returned page is cached;
a `None` return leaves a strict margin. -/
theorem fetch_cache_bound {α : Type} (C : JsonCodec α)
    (st : StorageManager α) (pn : Nat)
    (hmax : 1 ≤ st.max_cached_pages)
    (hinv : st.page_cache.length ≤ st.max_cached_pages) :
    (fetchPageFromCacheOrDisk C st pn).2.max_cached_pages =
      st.max_cached_pages ∧
    (fetchPageFromCacheOrDisk C st pn).2.page_cache.length ≤
      st.max_cached_pages ∧
    (∀ pg, (fetchPageFromCacheOrDisk C st pn).1 = some pg →
      (odLookup (fetchPageFromCacheOrDisk C st pn).2.page_cache pn).isSome
        = true) ∧
    ((fetchPageFromCacheOrDisk C st pn).1 = none →
      (fetchPageFromCacheOrDisk C st pn).2.page_cache.length + 1 ≤
        st.max_cached_pages) := by
  cases hlk : odLookup st.page_cache pn with
  | some v =>
    have hfe : fetchPageFromCacheOrDisk C st pn =
        (some v, { st with
          page_cache := odMoveToEnd st.page_cache pn }) := by
      unfold fetchPageFromCacheOrDisk
      rw [hlk]
    rw [hfe]
    have hsome : (odLookup st.page_cache pn).isSome = true := by
      rw [hlk]; rfl
    refine ⟨rfl, ?_, ?_, ?_⟩
    · show (odMoveToEnd st.page_cache pn).length ≤ _
      rw [odMoveToEnd_length pn _ hsome]
      exact hinv
    · intro pg _
      exact odLookup_odMoveToEnd_isSome pn _ hsome
    · intro h
      cases h
  | none =>
    set stE : StorageManager α := if st.max_cached_pages ≤
        st.page_cache.length then evictPageFromCache C st else st with hstE
    have hEmax : stE.max_cached_pages = st.max_cached_pages := by
      rw [hstE]
      by_cases hfull : st.max_cached_pages ≤ st.page_cache.length
      · rw [if_pos hfull]
        exact (evictPageFromCache_le C st).2.2
      · rw [if_neg hfull]
    have hElen : stE.page_cache.length + 1 ≤ st.max_cached_pages := by
      rw [hstE]
      by_cases hfull : st.max_cached_pages ≤ st.page_cache.length
      · rw [if_pos hfull]
        have := (evictPageFromCache_le C st).2.1 (by omega)
        omega
      · rw [if_neg hfull]
        omega
    have hfe : fetchPageFromCacheOrDisk C st pn =
        (match readPageFromDisk C stE pn with
         | none => (none, stE)
         | some page =>
            (some page,
              { stE with page_cache := odSet stE.page_cache pn page })) := by
      unfold fetchPageFromCacheOrDisk
      rw [hlk]
    cases hrd : readPageFromDisk C stE pn with
    | none =>
      rw [hrd] at hfe
      rw [hfe]
      refine ⟨hEmax, ?_, ?_, ?_⟩
      · show stE.page_cache.length ≤ st.max_cached_pages
        omega
      · intro pg h
        cases h
      · intro _
        show stE.page_cache.length + 1 ≤ st.max_cached_pages
        omega
    | some page =>
      rw [hrd] at hfe
      rw [hfe]
      refine ⟨hEmax, ?_, ?_, ?_⟩
      · show (odSet stE.page_cache pn page).length ≤ _
        have := odSet_length_le pn page stE.page_cache
        omega
      · intro pg _
        exact odLookup_odSet_self pn page _
      · intro h
        cases h

/-- `store_page_content` keeps the cache within `max_cached_pages`:
the preceding fetch has already made room when the cache was full. -/
theorem store_cache_bound {α : Type} (C : JsonCodec α)
    (st : StorageManager α) (pn : Nat) (content : α)
    (hmax : 1 ≤ st.max_cached_pages)
    (hinv : st.page_cache.length ≤ st.max_cached_pages) :
    (storePageContent C st pn content).max_cached_pages =
      st.max_cached_pages ∧
    (storePageContent C st pn content).page_cache.length ≤
      st.max_cached_pages := by
  obtain ⟨hfmax, hflen, hfsome, hfnone⟩ := fetch_cache_bound C st pn hmax hinv
  rcases hf : fetchPageFromCacheOrDisk C st pn with ⟨res, st₁⟩
  rw [hf] at hfmax hflen hfsome hfnone
  simp only at hfmax hflen hfsome hfnone
  cases res with
  | none =>
    have heq : storePageContent C st pn content = { st₁ with page_cache := odSet st₁.page_cache pn { mkDiskPage C pn with content := content, has_unsaved_changes := true } } := by
      unfold storePageContent
      rw [hf]
    rw [heq]
    refine ⟨hfmax, ?_⟩
    show (odSet st₁.page_cache pn _).length ≤ _
    have h1 := odSet_length_le pn
      ({ mkDiskPage C pn with content := content, has_unsaved_changes := true }) st₁.page_cache
    have h2 := hfnone rfl
    omega
  | some pg =>
    have heq : storePageContent C st pn content = { st₁ with page_cache := odSet st₁.page_cache pn { pg with content := content, has_unsaved_changes := true } } := by
      unfold storePageContent
      rw [hf]
    rw [heq]
    refine ⟨hfmax, ?_⟩
    show (odSet st₁.page_cache pn _).length ≤ _
    rw [odSet_length_of_isSome pn _ _ (hfsome pg rfl)]
    exact hflen

theorem saveAllGo_length {α : Type} (C : JsonCodec α) (ps : Nat) :
    ∀ (c : List (Nat × DiskPage α)) (file : List Nat),
      (saveAllGo C ps file c).2.length = c.length := by
  intro c
  induction c with
  | nil => intro file; rfl
  | cons e c ih =>
    intro file
    obtain ⟨pn, pg⟩ := e
    by_cases hd : pg.has_unsaved_changes = true
    · rcases hres : saveAllGo C ps (writePageToDisk C ps file pg) c
        with ⟨f', r'⟩
      have hr : r'.length = c.length := by
        have := ih (writePageToDisk C ps file pg)
        rw [hres] at this
        exact this
      simp only [saveAllGo, hd, if_true, hres]
      show ((pn, _) :: r').length = c.length + 1
      simp [hr]
    · have hd' : pg.has_unsaved_changes = false := by simpa using hd
      rcases hres : saveAllGo C ps file c with ⟨f', r'⟩
      have hr : r'.length = c.length := by
        have := ih file
        rw [hres] at this
        exact this
      simp only [saveAllGo, hd', Bool.false_eq_true, if_false, hres]
      show ((pn, _) :: r').length = c.length + 1
      simp [hr]

/-- **C10.**  With `max_cached_pages ≥ 1`, every public `StorageManager`
operation preserves the invariant `|page_cache| ≤ max_cached_pages`
(`max_cached_pages` itself never changes): the fetch underlying
`store_page_content` has already run eviction — freeing a slot — before
the store inserts a fresh entry. -/
theorem C10_cache_bound_preserved {α : Type} (C : JsonCodec α)
    (st : StorageManager α) (pn : Nat) (content : α) (node : Node)
    (hmax : 1 ≤ st.max_cached_pages)
    (hinv : st.page_cache.length ≤ st.max_cached_pages) :
    ((fetchPageFromCacheOrDisk C st pn).2.page_cache.length ≤
        (fetchPageFromCacheOrDisk C st pn).2.max_cached_pages ∧
      (fetchPageFromCacheOrDisk C st pn).2.max_cached_pages =
        st.max_cached_pages) ∧
    ((storePageContent C st pn content).page_cache.length ≤
        (storePageContent C st pn content).max_cached_pages ∧
      (storePageContent C st pn content).max_cached_pages =
        st.max_cached_pages) ∧
    ((loadPageContent C st pn).2.page_cache.length ≤
        (loadPageContent C st pn).2.max_cached_pages ∧
      (loadPageContent C st pn).2.max_cached_pages =
        st.max_cached_pages) ∧
    ((smStoreNode C st node).1.page_cache.length ≤
        (smStoreNode C st node).1.max_cached_pages ∧
      (smStoreNode C st node).1.max_cached_pages =
        st.max_cached_pages) ∧
    ((smLoadNode C st pn).2.page_cache.length ≤
        (smLoadNode C st pn).2.max_cached_pages ∧
      (smLoadNode C st pn).2.max_cached_pages = st.max_cached_pages) ∧
    ((saveAllUnsavedPagesToDisk C st).page_cache.length ≤
        (saveAllUnsavedPagesToDisk C st).max_cached_pages ∧
      (saveAllUnsavedPagesToDisk C st).max_cached_pages =
        st.max_cached_pages) := by
  obtain ⟨hfmax, hflen, hfsome, hfnone⟩ := fetch_cache_bound C st pn hmax hinv
  obtain ⟨hsmax, hslen⟩ := store_cache_bound C st pn content hmax hinv
  refine ⟨⟨by omega, hfmax⟩, ⟨by omega, hsmax⟩, ?_, ?_, ?_, ?_⟩
  · -- load_page_content returns the fetch's state
    rcases hf : fetchPageFromCacheOrDisk C st pn with ⟨res, st₁⟩
    rw [hf] at hfmax hflen
    simp only at hfmax hflen
    cases res with
    | none =>
      have heq : loadPageContent C st pn = (none, st₁) := by
        unfold loadPageContent
        rw [hf]
      rw [heq]
      refine ⟨?_, hfmax⟩
      show st₁.page_cache.length ≤ st₁.max_cached_pages
      omega
    | some pg =>
      have heq : loadPageContent C st pn = (some pg.content, st₁) := by
        unfold loadPageContent
        rw [hf]
      rw [heq]
      refine ⟨?_, hfmax⟩
      show st₁.page_cache.length ≤ st₁.max_cached_pages
      omega
  · -- store_node delegates to store_page_content
    cases hpid : node.page_id with
    | none =>
      have heq : smStoreNode C st node =
          (storePageContent C { st with next_page_id := st.next_page_id + 1 }
            st.next_page_id
            (C.nodeToMap { node with page_id := some st.next_page_id }),
          st.next_page_id, { node with page_id := some st.next_page_id }) := by
        unfold smStoreNode
        rw [hpid]
      obtain ⟨hmax', hlen'⟩ := store_cache_bound C
        { st with next_page_id := st.next_page_id + 1 } st.next_page_id
        (C.nodeToMap { node with page_id := some st.next_page_id })
        hmax hinv
      rw [heq]
      refine ⟨?_, hmax'⟩
      show (storePageContent C { st with next_page_id := st.next_page_id + 1 } st.next_page_id (C.nodeToMap { node with page_id := some st.next_page_id })).page_cache.length ≤ (storePageContent C { st with next_page_id := st.next_page_id + 1 } st.next_page_id (C.nodeToMap { node with page_id := some st.next_page_id })).max_cached_pages
      omega
    | some pid =>
      have heq : smStoreNode C st node =
          (storePageContent C st pid (C.nodeToMap node), pid, node) := by
        unfold smStoreNode
        rw [hpid]
      obtain ⟨hmax', hlen'⟩ := store_cache_bound C st pid
        (C.nodeToMap node) hmax hinv
      rw [heq]
      refine ⟨?_, hmax'⟩
      show (storePageContent C st pid (C.nodeToMap node)).page_cache.length ≤ (storePageContent C st pid (C.nodeToMap node)).max_cached_pages
      omega
  · -- load_node delegates to load_page_content
    rcases hf : fetchPageFromCacheOrDisk C st pn with ⟨res, st₁⟩
    rw [hf] at hfmax hflen
    simp only at hfmax hflen
    cases res with
    | none =>
      have heq : smLoadNode C st pn = (.ok none, st₁) := by
        unfold smLoadNode loadPageContent
        rw [hf]
      rw [heq]
      refine ⟨?_, hfmax⟩
      show st₁.page_cache.length ≤ st₁.max_cached_pages
      omega
    | some pg =>
      have hstep : smLoadNode C st pn =
          (if C.truthy pg.content then
            match C.mapToNode pg.content with
            | .ok n => ((Except.ok (some n) : Except Unit (Option Node)), st₁)
            | .error e => (Except.error e, st₁)
          else (Except.ok none, st₁)) := by
        unfold smLoadNode loadPageContent
        rw [hf]
      by_cases ht : C.truthy pg.content = true
      · cases hmn : C.mapToNode pg.content with
        | ok n =>
          have heq : smLoadNode C st pn = (.ok (some n), st₁) := by
            rw [hstep, if_pos ht, hmn]
          rw [heq]
          refine ⟨?_, hfmax⟩
          show st₁.page_cache.length ≤ st₁.max_cached_pages
          omega
        | error e =>
          have heq : smLoadNode C st pn = (.error e, st₁) := by
            rw [hstep, if_pos ht, hmn]
          rw [heq]
          refine ⟨?_, hfmax⟩
          show st₁.page_cache.length ≤ st₁.max_cached_pages
          omega
      · have heq : smLoadNode C st pn = (.ok none, st₁) := by
          rw [hstep, if_neg ht]
        rw [heq]
        refine ⟨?_, hfmax⟩
        show st₁.page_cache.length ≤ st₁.max_cached_pages
        omega
  · -- save_all_unsaved_pages_to_disk keeps the cache entries
    rcases hs : saveAllGo C st.page_size st.file st.page_cache
      with ⟨file', cache'⟩
    have hlen : cache'.length = st.page_cache.length := by
      have := saveAllGo_length C st.page_size st.page_cache st.file
      rw [hs] at this
      exact this
    have heq : saveAllUnsavedPagesToDisk C st =
        { st with file := file', page_cache := cache' } := by
      unfold saveAllUnsavedPagesToDisk
      rw [hs]
    rw [heq]
    refine ⟨?_, rfl⟩
    show cache'.length ≤ st.max_cached_pages
    omega

/-- Witness for C10: a full one-slot cache (`max_cached_pages = 1`)
holding a dirty page, fetching/storing/loading page 2. -/
theorem C10_cache_bound_preserved_witness :
    (1 ≤ (1 : Nat)) ∧
    ((fetchPageFromCacheOrDisk testCodec ⟨1, [(1, ⟨1, 4096, [Char.ofNat 97], true⟩)], 2, 2, []⟩ 2).2.page_cache.length ≤
        (fetchPageFromCacheOrDisk testCodec ⟨1, [(1, ⟨1, 4096, [Char.ofNat 97], true⟩)], 2, 2, []⟩ 2).2.max_cached_pages ∧
      (fetchPageFromCacheOrDisk testCodec ⟨1, [(1, ⟨1, 4096, [Char.ofNat 97], true⟩)], 2, 2, []⟩ 2).2.max_cached_pages = 1) ∧
    ((storePageContent testCodec ⟨1, [(1, ⟨1, 4096, [Char.ofNat 97], true⟩)], 2, 2, []⟩ 2 [Char.ofNat 98]).page_cache.length ≤
        (storePageContent testCodec ⟨1, [(1, ⟨1, 4096, [Char.ofNat 97], true⟩)], 2, 2, []⟩ 2 [Char.ofNat 98]).max_cached_pages ∧
      (storePageContent testCodec ⟨1, [(1, ⟨1, 4096, [Char.ofNat 97], true⟩)], 2, 2, []⟩ 2 [Char.ofNat 98]).max_cached_pages = 1) ∧
    ((loadPageContent testCodec ⟨1, [(1, ⟨1, 4096, [Char.ofNat 97], true⟩)], 2, 2, []⟩ 2).2.page_cache.length ≤
        (loadPageContent testCodec ⟨1, [(1, ⟨1, 4096, [Char.ofNat 97], true⟩)], 2, 2, []⟩ 2).2.max_cached_pages ∧
      (loadPageContent testCodec ⟨1, [(1, ⟨1, 4096, [Char.ofNat 97], true⟩)], 2, 2, []⟩ 2).2.max_cached_pages = 1) ∧
    ((smStoreNode testCodec ⟨1, [(1, ⟨1, 4096, [Char.ofNat 97], true⟩)], 2, 2, []⟩ ⟨none, 5, true, [], []⟩).1.page_cache.length ≤
        (smStoreNode testCodec ⟨1, [(1, ⟨1, 4096, [Char.ofNat 97], true⟩)], 2, 2, []⟩ ⟨none, 5, true, [], []⟩).1.max_cached_pages ∧
      (smStoreNode testCodec ⟨1, [(1, ⟨1, 4096, [Char.ofNat 97], true⟩)], 2, 2, []⟩ ⟨none, 5, true, [], []⟩).1.max_cached_pages = 1) ∧
    ((smLoadNode testCodec ⟨1, [(1, ⟨1, 4096, [Char.ofNat 97], true⟩)], 2, 2, []⟩ 2).2.page_cache.length ≤
        (smLoadNode testCodec ⟨1, [(1, ⟨1, 4096, [Char.ofNat 97], true⟩)], 2, 2, []⟩ 2).2.max_cached_pages ∧
      (smLoadNode testCodec ⟨1, [(1, ⟨1, 4096, [Char.ofNat 97], true⟩)], 2, 2, []⟩ 2).2.max_cached_pages = 1) ∧
    ((saveAllUnsavedPagesToDisk testCodec ⟨1, [(1, ⟨1, 4096, [Char.ofNat 97], true⟩)], 2, 2, []⟩).page_cache.length ≤
        (saveAllUnsavedPagesToDisk testCodec ⟨1, [(1, ⟨1, 4096, [Char.ofNat 97], true⟩)], 2, 2, []⟩).max_cached_pages ∧
      (saveAllUnsavedPagesToDisk testCodec ⟨1, [(1, ⟨1, 4096, [Char.ofNat 97], true⟩)], 2, 2, []⟩).max_cached_pages = 1) :=
  ⟨by decide,
    C10_cache_bound_preserved testCodec
      ⟨1, [(1, ⟨1, 4096, [Char.ofNat 97], true⟩)], 2, 2, []⟩ 2
      [Char.ofNat 98] ⟨none, 5, true, [], []⟩ (by decide) (by decide)⟩

end Beeftree
